import Mathlib

/-!
# ssmenv: expression codec, name grammar and reconciliation

A shallow embedding of `lib/expression.go`, `lib/paramutils.go` and
`lib/apiutils.go`.  Go strings are byte sequences and are embedded as lists
of byte values (`GoString`).  The pieces of the Go standard library the code
calls (`unicode/utf8`, `encoding/json` on strings, `regexp`, `path`) are
embedded next to their callers.
-/

namespace Ssmenv

/-! ## Strings -/

/-- A Go string: its bytes in order. -/
abbrev GoString := List Nat

/-- The rune `utf8.RuneError` (U+FFFD). -/
def RuneError : Nat := 0xFFFD

/-- Go `utf8.EncodeRune`: the bytes written for rune `r`.  Shifts and masks
are written as division and remainder. -/
def encodeRune (r : Nat) : List Nat :=
  if r ≤ 0x7F then [r]
  else if r ≤ 0x7FF then [0xC0 + r / 64, 0x80 + r % 64]
  else if 0x10FFFF < r ∨ (0xD800 ≤ r ∧ r ≤ 0xDFFF) then [0xEF, 0xBF, 0xBD]
  else if r ≤ 0xFFFF then [0xE0 + r / 4096, 0x80 + (r / 64) % 64, 0x80 + r % 64]
  else [0xF0 + r / 262144, 0x80 + (r / 4096) % 64, 0x80 + (r / 64) % 64, 0x80 + r % 64]

/-- The bytes of a string literal (its UTF-8 encoding). -/
def bytes (s : String) : GoString := s.data.flatMap (fun c => encodeRune c.toNat)

/-- Go `strings.HasPrefix`. -/
def hasPrefix (s p : GoString) : Bool := p.isPrefixOf s

/-- Go `strings.HasSuffix`. -/
def hasSuffix (s p : GoString) : Bool := p.isSuffixOf s

/-- Go `utf8` table `first` with `acceptRanges`: for a lead byte of a
multi-byte sequence, the sequence size and the accepted range of the second
byte; `none` for a byte that cannot start a multi-byte sequence. -/
def firstInfo (s0 : Nat) : Option (Nat × Nat × Nat) :=
  if 0xC2 ≤ s0 ∧ s0 ≤ 0xDF then some (2, 0x80, 0xBF)
  else if s0 = 0xE0 then some (3, 0xA0, 0xBF)
  else if 0xE1 ≤ s0 ∧ s0 ≤ 0xEC then some (3, 0x80, 0xBF)
  else if s0 = 0xED then some (3, 0x80, 0x9F)
  else if 0xEE ≤ s0 ∧ s0 ≤ 0xEF then some (3, 0x80, 0xBF)
  else if s0 = 0xF0 then some (4, 0x90, 0xBF)
  else if 0xF1 ≤ s0 ∧ s0 ≤ 0xF3 then some (4, 0x80, 0xBF)
  else if s0 = 0xF4 then some (4, 0x80, 0x8F)
  else none

/-- Go `utf8.DecodeRuneInString` / `utf8.DecodeRune`: the first rune of `s`
and its width in bytes; `(RuneError, 1)` for an invalid encoding and
`(RuneError, 0)` for the empty string. -/
def decodeRune (s : GoString) : Nat × Nat :=
  match s with
  | [] => (RuneError, 0)
  | s0 :: rest =>
    if s0 < 0x80 then (s0, 1)
    else
      match firstInfo s0 with
      | none => (RuneError, 1)
      | some (sz, lo, hi) =>
        if rest.length + 1 < sz then (RuneError, 1)
        else
          match rest with
          | [] => (RuneError, 1)
          | s1 :: rest1 =>
            if s1 < lo ∨ hi < s1 then (RuneError, 1)
            else if sz ≤ 2 then ((s0 % 32) * 64 + s1 % 64, 2)
            else
              match rest1 with
              | [] => (RuneError, 1)
              | s2 :: rest2 =>
                if s2 < 0x80 ∨ 0xBF < s2 then (RuneError, 1)
                else if sz ≤ 3 then ((s0 % 16) * 4096 + (s1 % 64) * 64 + s2 % 64, 3)
                else
                  match rest2 with
                  | [] => (RuneError, 1)
                  | s3 :: _ =>
                    if s3 < 0x80 ∨ 0xBF < s3 then (RuneError, 1)
                    else ((s0 % 8) * 262144 + (s1 % 64) * 4096 + (s2 % 64) * 64 + s3 % 64, 4)

/-! ## Errors (`lib/errors.go`) -/

/-- The typed errors of `lib/errors.go`.  `ErrUnmarshal` carries the raw
value; the wrapped cause of the JSON decoder is not represented. -/
inductive Err where
  | ErrRequireCommand
  | ErrRequireNameAndValue
  | ErrRequirePath
  | ErrSlashWithoutRecursive (Expr : GoString)
  | ErrInvalidName (Name : GoString)
  | ErrInvalidPath (Path : GoString)
  | ErrAbsNameWithPath (Path Name : GoString)
  | ErrPathMismatch (Path Name : GoString)
  | ErrInvalidExpression (Expr : GoString)
  | ErrUnmarshal (value : GoString)
  deriving DecidableEq, Repr

deriving instance DecidableEq for Except

/-! ## `encoding/json` on strings -/

/-- The digit table `hex` of `encoding/json`. -/
def hexDigit (n : Nat) : Nat := if n < 10 then 0x30 + n else 0x61 + (n - 10)

/-- The table `htmlSafeSet` of `encoding/json`: the ASCII bytes that
`json.Marshal` copies unescaped. -/
def htmlSafe (b : Nat) : Bool :=
  0x20 ≤ b ∧ b < 0x80 ∧ b ≠ 0x22 ∧ b ≠ 0x26 ∧ b ≠ 0x3C ∧ b ≠ 0x3E ∧ b ≠ 0x5C

/-- The escape `json.Marshal` writes for an ASCII byte outside `htmlSafeSet`
(the bytes `08` and `0C` in the `\u00XX` form, as the Go releases of the
repository's time write them; later releases write `\b` and `\f`, which
decode to the same bytes). -/
def escapeByte (b : Nat) : List Nat :=
  if b = 0x5C ∨ b = 0x22 then [0x5C, b]
  else if b = 0x0A then [0x5C, 0x6E]
  else if b = 0x0D then [0x5C, 0x72]
  else if b = 0x09 then [0x5C, 0x74]
  else [0x5C, 0x75, 0x30, 0x30, hexDigit (b / 16), hexDigit (b % 16)]

/-- The body of the loop of `encodeState.string` (with HTML escaping, as
`json.Marshal` uses it) at byte `b` followed by `rest`; `recur` encodes what
is left after this iteration.  Unescaped bytes are copied as they are passed. -/
def encodeStep (recur : GoString → List Nat) (b : Nat) (rest : GoString) : List Nat :=
  if b < 0x80 then
    (if htmlSafe b then [b] else escapeByte b) ++ recur rest
  else
    let (c, size) := decodeRune (b :: rest)
    if c = RuneError ∧ size = 1 then
      [0x5C, 0x75, 0x66, 0x66, 0x66, 0x64] ++ recur rest
    else if c = 0x2028 ∨ c = 0x2029 then
      [0x5C, 0x75, 0x32, 0x30, 0x32, hexDigit (c % 16)] ++ recur (rest.drop (size - 1))
    else
      (b :: rest).take size ++ recur (rest.drop (size - 1))

/-- The loop of `encodeState.string` on the bytes still to be read.  `fuel`
bounds the iterations; every iteration consumes a byte. -/
def encodeLoop : Nat → GoString → List Nat
  | 0, _ => []
  | _, [] => []
  | fuel + 1, b :: rest => encodeStep (encodeLoop fuel) b rest

/-- Go `json.Marshal` applied to a string: the quoted, escaped literal.  It
never fails on a string. -/
def jsonMarshal (s : GoString) : Except Err GoString :=
  .ok (0x22 :: (encodeLoop s.length s ++ [0x22]))

/-- The states of the `encoding/json` scanner that a string literal at top
level passes through, after its opening quote. -/
inductive ScanState where
  | inString
  | inStringEsc
  | inStringEscU
  | inStringEscU1
  | inStringEscU12
  | inStringEscU123
  | endValue
  | error
  deriving DecidableEq, Repr

/-- Whether `c` is a hexadecimal digit, as the scanner tests it. -/
def isHex (c : Nat) : Bool :=
  (0x30 ≤ c ∧ c ≤ 0x39) ∨ (0x61 ≤ c ∧ c ≤ 0x66) ∨ (0x41 ≤ c ∧ c ≤ 0x46)

/-- Whether `c` is JSON white space (`isSpace`). -/
def isSpace (c : Nat) : Bool := c = 0x20 ∨ c = 0x09 ∨ c = 0x0D ∨ c = 0x0A

/-- One step of the scanner (`stateInString`, `stateInStringEsc`,
`stateInStringEscU`..`U123`, and `stateEndValue`/`stateEndTop` at top level). -/
def scanStep (st : ScanState) (c : Nat) : ScanState :=
  match st with
  | .inString =>
    if c = 0x22 then .endValue
    else if c = 0x5C then .inStringEsc
    else if c < 0x20 then .error
    else .inString
  | .inStringEsc =>
    if c = 0x62 ∨ c = 0x66 ∨ c = 0x6E ∨ c = 0x72 ∨ c = 0x74 ∨ c = 0x5C ∨ c = 0x2F ∨ c = 0x22 then
      .inString
    else if c = 0x75 then .inStringEscU
    else .error
  | .inStringEscU => if isHex c then .inStringEscU1 else .error
  | .inStringEscU1 => if isHex c then .inStringEscU12 else .error
  | .inStringEscU12 => if isHex c then .inStringEscU123 else .error
  | .inStringEscU123 => if isHex c then .inString else .error
  | .endValue => if isSpace c then .endValue else .error
  | .error => .error

/-- Go `checkValid` on a document whose first byte is the double quote,
given the bytes after it: the scanner accepts every byte and has seen the end
of the top-level value at the end of the input. -/
def checkValidQuoted (body : GoString) : Bool :=
  body.foldl scanStep .inString == .endValue

/-- The loop of the decoder's `rescanLiteral` for a string; `escaped` tells
that the previous byte was a backslash, whose next byte is passed over. -/
def rescanFrom : Bool → GoString → GoString
  | _, [] => []
  | true, c :: rest => c :: rescanFrom false rest
  | false, c :: rest =>
    if c = 0x22 then [c]
    else if c = 0x5C then c :: rescanFrom true rest
    else c :: rescanFrom false rest

/-- The decoder's `rescanLiteral` for a string: the bytes of the literal after
its opening quote, up to and including the closing quote. -/
def rescanLiteral (s : GoString) : GoString := rescanFrom false s

/-- The value of one hexadecimal digit in `getu4`. -/
def hexVal (c : Nat) : Option Nat :=
  if 0x30 ≤ c ∧ c ≤ 0x39 then some (c - 0x30)
  else if 0x61 ≤ c ∧ c ≤ 0x66 then some (c - 0x61 + 10)
  else if 0x41 ≤ c ∧ c ≤ 0x46 then some (c - 0x41 + 10)
  else none

/-- The decoder's `getu4`: the rune of a leading `\uXXXX`, or `none` (Go: -1). -/
def getu4 (s : GoString) : Option Nat :=
  match s with
  | b0 :: b1 :: h0 :: h1 :: h2 :: h3 :: _ =>
    if b0 = 0x5C ∧ b1 = 0x75 then
      match hexVal h0, hexVal h1, hexVal h2, hexVal h3 with
      | some a, some b, some c, some d => some (((a * 16 + b) * 16 + c) * 16 + d)
      | _, _, _, _ => none
    else none
  | _ => none

/-- Go `utf16.IsSurrogate`. -/
def isSurrogate (r : Nat) : Bool := 0xD800 ≤ r ∧ r < 0xE000

/-- Go `utf16.DecodeRune` with the second half possibly missing (`getu4`
returned -1): the code point of a surrogate pair, or U+FFFD. -/
def utf16DecodeRune (r1 : Nat) (r2 : Option Nat) : Nat :=
  match r2 with
  | some r2 =>
    if 0xD800 ≤ r1 ∧ r1 < 0xDC00 ∧ 0xDC00 ≤ r2 ∧ r2 < 0xE000 then
      (r1 - 0xD800) * 1024 + (r2 - 0xDC00) + 0x10000
    else RuneError
  | none => RuneError

/-- The body of the first loop of `unquoteBytes` at byte `c` followed by
`rest`; `recur` counts on after this iteration. -/
def plainStep (recur : GoString → Nat) (c : Nat) (rest : GoString) : Nat :=
  if c = 0x5C ∨ c = 0x22 ∨ c < 0x20 then 0
  else if c < 0x80 then 1 + recur rest
  else
    let (rr, size) := decodeRune (c :: rest)
    if rr = RuneError ∧ size = 1 then 0
    else size + recur (rest.drop (size - 1))

/-- The first loop of `unquoteBytes`: the number of leading bytes that need no
unquoting. -/
def plainPrefix : Nat → GoString → Nat
  | 0, _ => 0
  | _, [] => 0
  | fuel + 1, c :: rest => plainStep (plainPrefix fuel) c rest

/-- The body of the second loop of `unquoteBytes` at byte `c` followed by
`rest`; `recur` unquotes what is left after this iteration.  `none` is Go's
`ok = false`. -/
def unquoteStep (recur : GoString → Option GoString) (c : Nat) (rest : GoString) :
    Option GoString :=
  if c = 0x5C then
    match rest with
    | [] => none
    | e :: rest1 =>
      if e = 0x22 ∨ e = 0x5C ∨ e = 0x2F ∨ e = 0x27 then (recur rest1).map (e :: ·)
      else if e = 0x62 then (recur rest1).map (0x08 :: ·)
      else if e = 0x66 then (recur rest1).map (0x0C :: ·)
      else if e = 0x6E then (recur rest1).map (0x0A :: ·)
      else if e = 0x72 then (recur rest1).map (0x0D :: ·)
      else if e = 0x74 then (recur rest1).map (0x09 :: ·)
      else if e = 0x75 then
        match getu4 (c :: rest) with
        | none => none
        | some rr =>
          let after := rest.drop 5
          if isSurrogate rr then
            let dec := utf16DecodeRune rr (getu4 after)
            if dec ≠ RuneError then (recur (after.drop 6)).map (encodeRune dec ++ ·)
            else (recur after).map (encodeRune RuneError ++ ·)
          else (recur after).map (encodeRune rr ++ ·)
      else none
  else if c = 0x22 ∨ c < 0x20 then none
  else if c < 0x80 then (recur rest).map (c :: ·)
  else
    let (rr, size) := decodeRune (c :: rest)
    (recur (rest.drop (size - 1))).map (encodeRune rr ++ ·)

/-- The second loop of `unquoteBytes` on the bytes still to be read.  `fuel`
bounds the iterations; every iteration consumes a byte. -/
def unquoteLoop : Nat → GoString → Option GoString
  | _, [] => some []
  | 0, _ :: _ => none
  | fuel + 1, c :: rest => unquoteStep (unquoteLoop fuel) c rest

/-- The decoder's `unquoteBytes` on a literal with its quotes. -/
def unquoteBytes (s : GoString) : Option GoString :=
  if s.length < 2 ∨ s.head? ≠ some 0x22 ∨ s.getLast? ≠ some 0x22 then none
  else
    let body := (s.drop 1).dropLast
    let r := plainPrefix body.length body
    if r = body.length then some body
    else (unquoteLoop body.length (body.drop r)).map (body.take r ++ ·)

/-- Go `json.Unmarshal(data, &str)` for `data` whose first byte is the double
quote, given the bytes after it (`unescape` calls it on no other input): the
document is checked by the scanner, the literal is cut out and unquoted.
`none` stands for any decoding error. -/
def jsonUnmarshalQuoted (body : GoString) : Option GoString :=
  if checkValidQuoted body then unquoteBytes (0x22 :: rescanLiteral body) else none

/-! ## The expression codec (`lib/expression.go`) -/

/-- The constant `secureMark`. -/
def secureMark : GoString := [0x40]

/-- Go `isQuoted`. -/
def isQuoted (str : GoString) : Bool := hasPrefix str [0x22] && hasSuffix str [0x22]

/-- Whether some byte of `value` is below the space character (the loop that
sets `hasControl` in `escape`). -/
def hasControlByte (value : GoString) : Bool := value.any (fun b => b < 0x20)

/-- Go `escape`. -/
def escape (value : GoString) : Except Err GoString :=
  let quoted := isQuoted value
  let hasControl := if !quoted then hasControlByte value else false
  if quoted || hasControl then jsonMarshal value else .ok value

/-- Go `unescape`. -/
def unescape (value : GoString) : Except Err GoString :=
  if isQuoted value then
    match jsonUnmarshalQuoted (value.drop 1) with
    | some unquoted => .ok unquoted
    | none => .error (.ErrUnmarshal value)
  else .ok value

/-! ## Regular expressions (`regexp`)

The patterns of `lib/paramutils.go` use ASCII classes only, apart from the
case folding of `s`; on such patterns matching runes and matching bytes
agree, because every byte of a multi-byte or invalid rune is `≥ 0x80`. -/

/-- The abstract syntax of the regular expressions used, over bytes. -/
inductive Regex where
  | empty : Regex
  | eps : Regex
  | cls (p : Nat → Bool) : Regex
  | seq (a b : Regex) : Regex
  | alt (a b : Regex) : Regex
  | star (a : Regex) : Regex

namespace Regex

/-- The literal byte `c`. -/
def lit (c : Nat) : Regex := cls (fun b => b == c)

/-- The pattern `a+`. -/
def plus (a : Regex) : Regex := seq a (star a)

/-- The pattern `a?`. -/
def opt (a : Regex) : Regex := alt a eps

/-- The pattern `(a(a(...)?)?)?` with `n` copies of `a`. -/
def optNest : Nat → Regex → Regex
  | 0, _ => eps
  | n + 1, a => opt (seq a (optNest n a))

/-- The pattern `a{lo,hi}`: `lo` copies of `a`, then up to `hi - lo` more. -/
def repeatRange (lo hi : Nat) (a : Regex) : Regex :=
  (List.replicate lo a).foldr seq (optNest (hi - lo) a)

/-- Whether the pattern matches the empty string. -/
def nullable : Regex → Bool
  | empty => false
  | eps => true
  | cls _ => false
  | seq a b => nullable a && nullable b
  | alt a b => nullable a || nullable b
  | star _ => true

/-- The derivative of a pattern by a byte: what remains to be matched after
reading `c`. -/
def deriv : Regex → Nat → Regex
  | empty, _ => empty
  | eps, _ => empty
  | cls p, c => if p c then eps else empty
  | seq a b, c => if nullable a then alt (seq (deriv a c) b) (deriv b c) else seq (deriv a c) b
  | alt a b, c => alt (deriv a c) (deriv b c)
  | star a, c => seq (deriv a c) (star a)

/-- Whether the whole of `s` matches the pattern (the pattern between `^` and
`$`; without the multi-line flag Go's `$` matches at the end of the text only). -/
def fullMatch (r : Regex) (s : GoString) : Bool := nullable (s.foldl deriv r)

/-- The language of a pattern: the strings that match it as a whole. -/
def Lang : Regex → GoString → Prop
  | empty, _ => False
  | eps, s => s = []
  | cls p, s => ∃ c, s = [c] ∧ p c = true
  | seq a b, s => ∃ t u, s = t ++ u ∧ Lang a t ∧ Lang b u
  | alt a b, s => Lang a s ∨ Lang b s
  | star a, s => ∃ S : List GoString, s = S.flatten ∧ ∀ t ∈ S, t ≠ [] ∧ Lang a t

end Regex

/-! ## Names and paths (`lib/paramutils.go`) -/

/-- The class `\w` of Go regular expressions: `[0-9A-Za-z_]`. -/
def isWord (c : Nat) : Bool :=
  (0x30 ≤ c ∧ c ≤ 0x39) ∨ (0x41 ≤ c ∧ c ≤ 0x5A) ∨ (0x61 ≤ c ∧ c ≤ 0x7A) ∨ c = 0x5F

/-- The class `[-.\w]`. -/
def segChar (c : Nat) : Bool := c = 0x2D ∨ c = 0x2E ∨ isWord c

/-- The pattern `[-.\w]+`. -/
def reSegment : Regex := .plus (.cls segChar)

/-- The pattern `/[-.\w]+`. -/
def reSlashSegment : Regex := .seq (.lit 0x2F) reSegment

/-- The pattern `reName`, `^(?:/[-.\w]+){1,6}$|^[-.\w]+$`, to be matched
against the whole string. -/
def reName : Regex := .alt (.repeatRange 1 6 reSlashSegment) reSegment

/-- The pattern `rePath`, `^(?:/[-.\w]+){1,5}/?$|^/$`, to be matched against
the whole string. -/
def rePath : Regex :=
  .alt (.seq (.repeatRange 1 5 reSlashSegment) (.opt (.lit 0x2F))) (.lit 0x2F)

/-- The pattern `reBase`, `^[-.\w]+$`. -/
def reBase : Regex := reSegment

/-- The pattern `reRel`, `^[-.\w]+(?:/[-.\w]+)*$`. -/
def reRel : Regex := .seq reSegment (.star reSlashSegment)

/-- The letter `a` under `(?i)`: `a` or `A`. -/
def foldA : Regex := .cls (fun c => c == 0x61 || c == 0x41)

/-- The letter `w` under `(?i)`: `w` or `W`. -/
def foldW : Regex := .cls (fun c => c == 0x77 || c == 0x57)

/-- The letter `m` under `(?i)`: `m` or `M`. -/
def foldM : Regex := .cls (fun c => c == 0x6D || c == 0x4D)

/-- The letter `s` under `(?i)`: Go folds case with `unicode.SimpleFold`,
whose orbit of `s` is `s`, `S` and U+017F (LATIN SMALL LETTER LONG S, bytes
`C5 BF`). -/
def foldS : Regex :=
  .alt (.cls (fun c => c == 0x73 || c == 0x53)) (.seq (.lit 0xC5) (.lit 0xBF))

/-- The pattern `reReserved`, `(?i)^/?(?:aws|ssm)`, as a pattern for the whole
string: it is anchored at the start only, so any bytes may follow. -/
def reReserved : Regex :=
  .seq (.opt (.lit 0x2F))
    (.seq (.alt (.seq foldA (.seq foldW foldS)) (.seq foldS (.seq foldS foldM)))
      (.star (.cls (fun _ => true))))

/-- Go `isName`. -/
def isName (name : GoString) : Bool := reName.fullMatch name && !reReserved.fullMatch name

/-- Go `isPath`. -/
def isPath (path : GoString) : Bool := rePath.fullMatch path && !reReserved.fullMatch path

/-- Go `isBase`. -/
def isBase (base : GoString) : Bool := reBase.fullMatch base

/-- Go `isRel`. -/
def isRel (rel : GoString) : Bool := reRel.fullMatch rel

/-- Go `validateName`: `none` is the nil error. -/
def validateName (name : GoString) : Option Err :=
  if !isName name then some (.ErrInvalidName name) else none

/-- Go `validatePath`: `none` is the nil error. -/
def validatePath (path : GoString) : Option Err :=
  if !isPath path then some (.ErrInvalidPath path) else none

/-- Go `abs`. -/
def abs (name : GoString) : GoString :=
  if hasPrefix name [0x2F] then name else 0x2F :: name

/-! ## `path.Clean` and `path.Join` -/

/-- The backtracking of `path.Clean` at a `..` element: starting from index
`w`, the write index moves down while it is above `dotdot` and the byte at it
is not `/`. -/
def backtrackIndex (out : GoString) (dotdot : Nat) : Nat → Nat
  | 0 => 0
  | w + 1 => if dotdot < w + 1 ∧ out.get? (w + 1) ≠ some 0x2F then backtrackIndex out dotdot w else w + 1

/-- The loop of Go `path.Clean` on the bytes still to be read, with the
output written so far and the index `dotdot` up to which it may not be
backtracked.  `fuel` bounds the iterations; every iteration consumes a byte. -/
def cleanLoop (rooted : Bool) : Nat → GoString → GoString → Nat → GoString
  | 0, _, out, _ => out
  | _, [], out, _ => out
  | fuel + 1, c :: rest, out, dotdot =>
    if c = 0x2F then cleanLoop rooted fuel rest out dotdot
    else if c = 0x2E ∧ (rest = [] ∨ rest.head? = some 0x2F) then
      cleanLoop rooted fuel rest out dotdot
    else if c = 0x2E ∧ rest.head? = some 0x2E ∧
        (rest.drop 1 = [] ∨ (rest.drop 1).head? = some 0x2F) then
      if dotdot < out.length then
        cleanLoop rooted fuel (rest.drop 1)
          (out.take (backtrackIndex out dotdot (out.length - 1))) dotdot
      else if !rooted then
        let out1 := (if 0 < out.length then out ++ [0x2F] else out) ++ [0x2E, 0x2E]
        cleanLoop rooted fuel (rest.drop 1) out1 out1.length
      else cleanLoop rooted fuel (rest.drop 1) out dotdot
    else
      let out1 :=
        if (rooted ∧ out.length ≠ 1) ∨ (!rooted ∧ out.length ≠ 0) then out ++ [0x2F] else out
      cleanLoop rooted fuel ((c :: rest).dropWhile (· != 0x2F))
        (out1 ++ (c :: rest).takeWhile (· != 0x2F)) dotdot

/-- Go `path.Clean`. -/
def pathClean (path : GoString) : GoString :=
  match path with
  | [] => [0x2E]
  | c :: rest =>
    let rooted := c == 0x2F
    let out :=
      if rooted then cleanLoop true rest.length rest [0x2F] 1
      else cleanLoop false path.length path [] 0
    if out = [] then [0x2E] else out

/-- Go `path.Join` of two elements. -/
def pathJoin (a b : GoString) : GoString :=
  if a ≠ [] then pathClean (a ++ [0x2F] ++ b)
  else if b ≠ [] then pathClean b
  else []

/-- Go `join` (`lib/paramutils.go`). -/
def join (path name : GoString) : Except Err GoString :=
  if path ≠ [] then
    match validatePath path with
    | some err => .error err
    | none =>
      if !isRel name then .error (.ErrAbsNameWithPath path name)
      else
        match validateName (pathJoin path name) with
        | some err => .error err
        | none => .ok (pathJoin path name)
  else
    match validateName name with
    | some err => .error err
    | none => .ok name

/-! ## Expressions (`lib/expression.go`, continued) -/

/-- A remote entry, `ssm.Parameter`: name, type (`String`, `StringList` or
`SecureString`) and value. -/
structure Parameter where
  Name : GoString
  Type_ : GoString
  Value : GoString
  deriving DecidableEq, Repr

/-- The constant `ssm.ParameterTypeString`. -/
def ParameterTypeString : GoString := bytes "String"

/-- The constant `ssm.ParameterTypeSecureString`. -/
def ParameterTypeSecureString : GoString := bytes "SecureString"

/-- Go `expression`. -/
structure expression where
  Name : GoString
  Value : GoString
  Secure : Bool
  deriving DecidableEq, Repr

/-- Go `newExpression`. -/
def newExpression (p : Parameter) : expression :=
  { Name := p.Name, Value := p.Value, Secure := p.Type_ == ParameterTypeSecureString }

/-- Go `expression.parameter`. -/
def expression.parameter (e : expression) (path : GoString) : Except Err Parameter :=
  match join path e.Name with
  | .error err => .error err
  | .ok name =>
    .ok { Name := name,
          Type_ := if e.Secure then ParameterTypeSecureString else ParameterTypeString,
          Value := e.Value }

/-- Go `buildExpr`: `fmt.Sprintf("%s%s%s=%s", prefix, lhs, mark, rhs)`. -/
def buildExpr (pfx lhs value : GoString) (secure : Bool) : Except Err GoString :=
  match escape value with
  | .error err => .error err
  | .ok rhs =>
    let mark := if secure then secureMark else []
    .ok (pfx ++ lhs ++ mark ++ [0x3D] ++ rhs)

/-- Go `expression.log`. -/
def expression.log (e : expression) : Except Err GoString :=
  let value := if e.Secure then List.replicate 16 0x2A else e.Value
  buildExpr [] (abs e.Name) value e.Secure

/-- A value starts and ends with a double quote (the one-byte value `"`
does both). -/
def QuoteWrapped (v : GoString) : Prop := v.head? = some 0x22 ∧ v.getLast? = some 0x22

/-- A value contains a control character: a byte below `0x20`. -/
def HasControl (v : GoString) : Prop := ∃ b ∈ v, b < 0x20

/-! ## The grammar of names and paths, as the specification words it -/

/-- The character class `[A-Za-z0-9._-]`. -/
def nameChar (c : Nat) : Bool :=
  (0x41 ≤ c ∧ c ≤ 0x5A) ∨ (0x61 ≤ c ∧ c ≤ 0x7A) ∨ (0x30 ≤ c ∧ c ≤ 0x39) ∨
    c = 0x2E ∨ c = 0x5F ∨ c = 0x2D

/-- A non-empty segment over `[A-Za-z0-9._-]`. -/
def IsSegment (seg : GoString) : Prop := seg ≠ [] ∧ ∀ c ∈ seg, nameChar c = true

/-- Between `lo` and `hi` segments joined by `/`. -/
def JoinedSegments (lo hi : Nat) (s : GoString) : Prop :=
  ∃ segs : List GoString, lo ≤ segs.length ∧ segs.length ≤ hi ∧
    (∀ seg ∈ segs, IsSegment seg) ∧ s = [0x2F].intercalate segs

/-- Between `lo` and `hi` segments, each preceded by `/`. -/
def SlashedSegments (lo hi : Nat) (s : GoString) : Prop :=
  ∃ segs : List GoString, lo ≤ segs.length ∧ segs.length ≤ hi ∧
    (∀ seg ∈ segs, IsSegment seg) ∧ s = segs.flatMap (fun seg => 0x2F :: seg)

/-- An ASCII letter in lower case; other bytes unchanged. -/
def toLowerByte (c : Nat) : Nat := if 0x41 ≤ c ∧ c ≤ 0x5A then c + 32 else c

/-- The string begins, after an optional single leading `/`, with `aws` or
`ssm` in any letter case. -/
def beginsReserved (s : GoString) : Bool :=
  let t := if s.head? = some 0x2F then s.drop 1 else s
  let p := (t.take 3).map toLowerByte
  p == bytes "aws" || p == bytes "ssm"

/-! ## Well-formed UTF-8 -/

/-- Whether `b` is a UTF-8 continuation byte, `80..BF`. -/
def isCont (b : Nat) : Bool := 0x80 ≤ b ∧ b ≤ 0xBF

/-- Whether the byte string is well-formed UTF-8: a sequence of the byte
patterns of the Unicode standard's table of well-formed UTF-8 byte sequences
(no overlong forms, no surrogates, nothing above U+10FFFF). -/
def wellFormedUTF8 : GoString → Bool
  | [] => true
  | b0 :: rest =>
    if b0 < 0x80 then wellFormedUTF8 rest
    else if 0xC2 ≤ b0 ∧ b0 ≤ 0xDF then
      match rest with
      | b1 :: r => isCont b1 && wellFormedUTF8 r
      | _ => false
    else if 0xE0 ≤ b0 ∧ b0 ≤ 0xEF then
      match rest with
      | b1 :: b2 :: r =>
        (if b0 = 0xE0 then decide (0xA0 ≤ b1 ∧ b1 ≤ 0xBF)
         else if b0 = 0xED then decide (0x80 ≤ b1 ∧ b1 ≤ 0x9F)
         else isCont b1) && isCont b2 && wellFormedUTF8 r
      | _ => false
    else if 0xF0 ≤ b0 ∧ b0 ≤ 0xF4 then
      match rest with
      | b1 :: b2 :: b3 :: r =>
        (if b0 = 0xF0 then decide (0x90 ≤ b1 ∧ b1 ≤ 0xBF)
         else if b0 = 0xF4 then decide (0x80 ≤ b1 ∧ b1 ≤ 0x8F)
         else isCont b1) && isCont b2 && isCont b3 && wellFormedUTF8 r
      | _ => false
    else false

/-- The decoder undoes one step of the encoder that read the bytes `cin` and
wrote the bytes `cout`: the scanner passes over `cout` inside the string, the
literal scan copies it, unquoting it yields `cin`, and the first loop of
`unquoteBytes` either stops at it or skips it when it was copied unchanged. -/
def ChunkOK (cin cout : GoString) : Prop :=
  cin ≠ [] ∧ cout ≠ [] ∧
  (∀ m t, unquoteLoop (m + 1) (cout ++ t) = (unquoteLoop m t).map (cin ++ ·)) ∧
  (∀ t, (cout ++ t).foldl scanStep .inString = t.foldl scanStep .inString) ∧
  (∀ t, rescanLiteral (cout ++ t) = cout ++ rescanLiteral t) ∧
  ((∀ k t, plainPrefix (k + 1) (cout ++ t) = 0) ∨
   (cout = cin ∧ ∀ k t, plainPrefix (k + 1) (cout ++ t) = cout.length + plainPrefix k t))

/-! ## The remote store

The remote service is an external collaborator.  It is modelled as the list
of its entries, in which `PutParameter` (with overwrite) replaces,
`DeleteParameter` removes and `GetParameters` returns what is stored.  The
service does not distinguish a root-level name written with or without its
leading `/` (`ssmenv get foo` and `ssmenv get /foo` read the same entry in
`ExampleCLI_Run_getRootByName`), so entries are identified by `abs` of their
name.  Remote calls do not fail in this model. -/

/-- The remote store: its entries. -/
abbrev Store := List Parameter

/-- The entry of the store with the given name, if any. -/
def Store.lookup (svc : Store) (name : GoString) : Option Parameter :=
  svc.find? (fun q => abs q.Name == abs name)

/-- The service call `GetParameters`: the stored entries among `names`. -/
def Store.getParameters (svc : Store) (names : List GoString) : List Parameter :=
  names.filterMap svc.lookup

/-- The service call `PutParameter` with `Overwrite` set. -/
def Store.putParameter (svc : Store) (p : Parameter) : Store :=
  p :: svc.filter (fun q => abs q.Name != abs p.Name)

/-- The service call `DeleteParameter`. -/
def Store.deleteParameter (svc : Store) (name : GoString) : Store :=
  svc.filter (fun q => abs q.Name != abs name)

/-- Whether `name` lies in the scope of `path`: below it, and directly below
it unless `recursive` (the options `Recursive` and `OneLevel` of the `Path`
filter). -/
def inScope (path : GoString) (recursive : Bool) (name : GoString) : Bool :=
  let dir := (if hasSuffix path [0x2F] then path.dropLast else path) ++ [0x2F]
  let r := (abs name).drop dir.length
  hasPrefix (abs name) dir && r != [] && (recursive || !r.contains 0x2F)

/-- The service call `DescribeParameters` with a `Path` filter over `paths`,
all pages: the names of the entries in the scope of one of the paths. -/
def Store.describe (svc : Store) (paths : List GoString) (recursive : Bool) : List GoString :=
  (svc.filter (fun q => paths.any (fun path => inScope path recursive q.Name))).map (·.Name)

/-! ## Remote access and reconciliation (`lib/apiutils.go`) -/

/-- The constant `maxNames`. -/
def maxNames : Nat := 10

/-- Go `describeParameters`: an empty path stands for the root, every path
is validated, then the metadata listing is fetched. -/
def describeParameters (svc : Store) (paths : List GoString) (recursive : Bool) :
    Except Err (List GoString) :=
  let paths := paths.map (fun path => if path = [] then [0x2F] else path)
  match paths.findSome? validatePath with
  | some err => .error err
  | none => .ok (svc.describe paths recursive)

/-- The slices `names[i:i+maxNames]` for `i = 0, maxNames, ...` of the loop
in `GetParametersByNames`.  `fuel` bounds the iterations. -/
def batchNames : Nat → List GoString → List (List GoString)
  | 0, _ => []
  | _, [] => []
  | fuel + 1, n :: ns => (n :: ns).take maxNames :: batchNames fuel ((n :: ns).drop maxNames)

/-- The input of a `GetParameters` call (`ssm.GetParametersInput`). -/
structure GetParametersInput where
  Names : List GoString
  WithDecryption : Bool
  deriving DecidableEq, Repr

/-- What `GetParametersByNames` has done when `sem.Wait()` has returned: the
`GetParameters` calls it submitted with `sem.Go`, in submission order, and
the entries merged into `params`. -/
structure Fetched where
  calls : List GetParametersInput
  params : List Parameter
  deriving DecidableEq, Repr

/-- The loop of `GetParametersByNames` over the slices `ns`: every iteration
submits one `GetParameters` call that carries the slice, and the output of
the call is appended to `params` (here in submission order; Go appends in
the order the calls complete). -/
def submitGets (svc : Store) : List (List GoString) → Fetched
  | [] => ⟨[], []⟩
  | ns :: rest =>
    let input : GetParametersInput := { Names := ns, WithDecryption := true }
    let o := submitGets svc rest
    ⟨input :: o.calls, svc.getParameters input.Names ++ o.params⟩

/-- Go `GetParametersByNames`, with the remote calls it makes on record:
every name is validated, then one `GetParameters` call is submitted per
slice and the outputs are merged. -/
def GetParametersByNamesTraced (svc : Store) (names : List GoString) : Except Err Fetched :=
  match names.findSome? validateName with
  | some err => .error err
  | none => .ok (submitGets svc (batchNames names.length names))

/-- Go `GetParametersByNames`: what it returns. -/
def GetParametersByNames (svc : Store) (names : List GoString) : Except Err (List Parameter) :=
  match GetParametersByNamesTraced svc names with
  | .error err => .error err
  | .ok o => .ok o.params

/-- A task handed to the executor with `sem.Go`: a `PutParameter` call for a
parameter followed by the log line `PUT <expr>`, or a `DeleteParameter` call
for a name followed by `DELETE <abs name>`. -/
inductive Task where
  | Put (param : Parameter) (expr : GoString)
  | Delete (name : GoString)
  deriving DecidableEq, Repr

/-- The remote call of a task. -/
def Task.apply (svc : Store) : Task → Store
  | .Put param _ => svc.putParameter param
  | .Delete name => svc.deleteParameter name

/-- The log line a task prints after its call succeeded. -/
def Task.line : Task → GoString
  | .Put _ expr => bytes "PUT " ++ expr
  | .Delete name => bytes "DELETE " ++ abs name

/-- The store after the tasks ran to completion in the given order. -/
def runTasks (svc : Store) (order : List Task) : Store := order.foldl Task.apply svc

/-- What `updateParameters` has done when it returns or reaches `sem.Wait()`:
the validation error it returned early with (`none`: it reached the wait),
the tasks it had submitted to the executor by then, in submission order, and
the lines it printed itself (to the log writer, when one is given). -/
structure Outcome where
  err : Option Err
  tasks : List Task
  lines : List GoString
  deriving DecidableEq, Repr

/-- The map `oldParamsByName` of `updateParameters`: for each absolute name
the last of the fetched entries with it. -/
def oldParamsByName (oldParams : List Parameter) : GoString → Option Parameter :=
  oldParams.foldl (fun m oldParam => fun key => if key = abs oldParam.Name then some oldParam else m key)
    (fun _ => none)

/-- The condition of `updateParameters` under which a parameter is left
alone: the map has an entry under its absolute name with its type and value. -/
def unchanged (byName : GoString → Option Parameter) (param : Parameter) : Bool :=
  match byName (abs param.Name) with
  | some old => param.Type_ == old.Type_ && param.Value == old.Value
  | none => false

/-- The first loop of `updateParameters`, over the desired parameters. -/
def submitPuts (byName : GoString → Option Parameter) : List Parameter → Outcome
  | [] => ⟨none, [], []⟩
  | param :: rest =>
    match (newExpression param).log with
    | .error err => ⟨some err, [], []⟩
    | .ok expr =>
      if unchanged byName param then
        let o := submitPuts byName rest
        ⟨o.err, o.tasks, (bytes "UNCHANGED " ++ expr) :: o.lines⟩
      else
        match validateName param.Name with
        | some err => ⟨some err, [], []⟩
        | none =>
          let o := submitPuts byName rest
          ⟨o.err, Task.Put param expr :: o.tasks, o.lines⟩

/-- The second loop of `updateParameters`, over the names to delete. -/
def submitDeletes : List GoString → Outcome
  | [] => ⟨none, [], []⟩
  | name :: rest =>
    match validateName name with
    | some err => ⟨some err, [], []⟩
    | none =>
      let o := submitDeletes rest
      ⟨o.err, Task.Delete name :: o.tasks, o.lines⟩

/-- Go `updateParameters`, up to `sem.Wait()`. -/
def updateParameters (svc : Store) (params : List Parameter) (names deleteNames : List GoString) :
    Outcome :=
  match GetParametersByNames svc names with
  | .error err => ⟨some err, [], []⟩
  | .ok oldParams =>
    let puts := submitPuts (oldParamsByName oldParams) params
    match puts.err with
    | some _ => puts
    | none =>
      let deletes := submitDeletes deleteNames
      ⟨deletes.err, puts.tasks ++ deletes.tasks, puts.lines⟩

/-- Go `ReplaceParameters`, up to `sem.Wait()`. -/
def ReplaceParameters (svc : Store) (path : GoString) (recursive : Bool)
    (params : List Parameter) : Outcome :=
  match describeParameters svc [path] recursive with
  | .error err => ⟨some err, [], []⟩
  | .ok oldMetas =>
    let nameExists := fun key => params.any (fun param => abs param.Name == key)
    let names := oldMetas.filter (fun name => nameExists (abs name))
    let deleteNames := oldMetas.filter (fun name => !nameExists (abs name))
    updateParameters svc params names deleteNames

/-! ## Reconciliation, as the specification words it -/

/-- The fetched current entries contain an entry with the parameter's
absolute name, type and value. -/
def Matches (fetched : List Parameter) (param : Parameter) : Bool :=
  fetched.any (fun old =>
    abs old.Name == abs param.Name && old.Type_ == param.Type_ && old.Value == param.Value)

/-- The `log()` rendering of a parameter. -/
def logText (param : Parameter) : GoString :=
  match (newExpression param).log with
  | .ok expr => expr
  | .error _ => []

/-! ## `ssmenv set` and `ssmenv replace` (`lib/ssmenv.go`) -/

/-- Go `parseExpression`: `strings.SplitN(expr, "=", 2)` splits at the first
`=`; a trailing `@` on the left-hand side marks a secure entry; the
right-hand side is unescaped. -/
def parseExpression (expr : GoString) : Except Err expression :=
  if !expr.contains 0x3D then .error (.ErrInvalidExpression expr)
  else
    let lhs := expr.takeWhile (· != 0x3D)
    let rhs := (expr.dropWhile (· != 0x3D)).drop 1
    let secure := hasSuffix lhs secureMark
    let lhs := if secure then lhs.dropLast else lhs
    match unescape rhs with
    | .error err => .error err
    | .ok value => .ok { Name := lhs, Value := value, Secure := secure }

/-- The loop of `Set` over the expressions, building the desired parameters
(their names are the `names` handed to `updateParameters`). -/
def setParams (path : GoString) : List GoString → Except Err (List Parameter)
  | [] => .ok []
  | expr :: rest =>
    match parseExpression expr with
    | .error err => .error err
    | .ok exprObj =>
      match exprObj.parameter path with
      | .error err => .error err
      | .ok param =>
        match setParams path rest with
        | .error err => .error err
        | .ok params => .ok (param :: params)

/-- Go `Set`, up to `sem.Wait()`. -/
def Set (svc : Store) (path : GoString) (exprs : List GoString) : Outcome :=
  if exprs.length < 1 then ⟨some .ErrRequireNameAndValue, [], []⟩
  else
    match setParams path exprs with
    | .error err => ⟨some err, [], []⟩
    | .ok params => updateParameters svc params (params.map (·.Name)) []

/-- The loop of `Replace` over the expressions, building the desired
parameters. -/
def replaceParams (path : GoString) (recursive : Bool) : List GoString → Except Err (List Parameter)
  | [] => .ok []
  | expr :: rest =>
    match parseExpression expr with
    | .error err => .error err
    | .ok exprObj =>
      if !recursive && !isBase exprObj.Name then .error (.ErrSlashWithoutRecursive expr)
      else
        match exprObj.parameter path with
        | .error err => .error err
        | .ok param =>
          match replaceParams path recursive rest with
          | .error err => .error err
          | .ok params => .ok (param :: params)

/-- Go `Replace`, up to `sem.Wait()`. -/
def Replace (svc : Store) (path : GoString) (recursive : Bool) (exprs : List GoString) : Outcome :=
  if path = [] then ⟨some .ErrRequirePath, [], []⟩
  else if exprs.length < 1 then ⟨some .ErrRequireNameAndValue, [], []⟩
  else
    match replaceParams path recursive exprs with
    | .error err => ⟨some err, [], []⟩
    | .ok params => ReplaceParameters svc path recursive params

/-- The desired names of a replacement: `join(path, d.name)` for the parsed
expressions `d`. -/
def DesiredName (path : GoString) (exprs : List GoString) (name : GoString) : Prop :=
  ∃ expr ∈ exprs, ∃ d, parseExpression expr = .ok d ∧ join path d.Name = .ok name

/-! ## Rendering (`lib/expression.go`, continued) -/

/-- Go `rel`. -/
def rel (name path : GoString) : Except Err GoString :=
  let absName := abs name
  if path = [] then .ok absName
  else
    let pathWithTrailingSlash := if !hasSuffix path [0x2F] then path ++ [0x2F] else path
    if !hasPrefix absName pathWithTrailingSlash then .error (.ErrPathMismatch path absName)
    else .ok (absName.drop pathWithTrailingSlash.length)

/-- Go `expression.serialize`. -/
def expression.serialize (e : expression) (path : GoString) : Except Err GoString :=
  match rel e.Name path with
  | .error err => .error err
  | .ok lhs => buildExpr [] lhs e.Value e.Secure

/-- Go `path.Base`: trailing slashes are stripped, then what follows the last
`/` is taken; the empty path gives `.` and a path of slashes gives `/`. -/
def pathBase (path : GoString) : GoString :=
  if path = [] then [0x2E]
  else
    let stripped := (path.reverse.dropWhile (· == 0x2F)).reverse
    let last := (stripped.reverse.takeWhile (· != 0x2F)).reverse
    if last = [] then [0x2F] else last

/-- Go `strings.Replace(s, old, new, -1)` for one-byte `old` and `new`. -/
def replaceByte (s : GoString) (old new : Nat) : GoString :=
  s.map (fun c => if c = old then new else c)

/-- Go `exportableName`. -/
def exportableName (name : GoString) : GoString :=
  replaceByte (replaceByte (pathBase name) 0x2E 0x5F) 0x2D 0x5F

/-- Go `expression.env`. -/
def expression.env (e : expression) : Except Err GoString :=
  buildExpr [] (pathBase e.Name) e.Value false

/-- Go `expression.export`. -/
def expression.export (e : expression) : Except Err GoString :=
  buildExpr (bytes "export ") (exportableName e.Name) e.Value false

/-- The loop of `ReplaceParameters` over the listed names: those whose
absolute form is a desired name are appended to `names`, the others to
`deleteNames`. -/
def splitNames (nameExists : GoString → Bool) : List GoString → List GoString × List GoString
  | [] => ([], [])
  | oldMeta :: rest =>
    let (names, deleteNames) := splitNames nameExists rest
    if nameExists (abs oldMeta) then (oldMeta :: names, deleteNames)
    else (names, oldMeta :: deleteNames)

/-- The map `nameExists` of `ReplaceParameters`: the absolute names of the
desired parameters. -/
def nameExists (params : List Parameter) (key : GoString) : Bool :=
  params.any (fun param => abs param.Name == key)

/-! ## JSON string literals, as the grammar defines them -/

/-- The character after a backslash in a two-character escape:
one of `"`, `\`, `/`, `b`, `f`, `n`, `r`, `t`. -/
def isSimpleEscape (e : Nat) : Bool :=
  e = 0x22 ∨ e = 0x5C ∨ e = 0x2F ∨ e = 0x62 ∨ e = 0x66 ∨ e = 0x6E ∨ e = 0x72 ∨ e = 0x74

/-- The characters of a JSON string between its quotes, as bytes: unescaped
bytes (anything from `0x20` up other than `"` and `\`), two-character
escapes, and `\u` followed by four hexadecimal digits. -/
inductive JsonChars : GoString → Prop where
  | nil : JsonChars []
  | unescaped (c : Nat) (rest : GoString) :
      0x20 ≤ c → c ≠ 0x22 → c ≠ 0x5C → JsonChars rest → JsonChars (c :: rest)
  | escape (e : Nat) (rest : GoString) :
      isSimpleEscape e = true → JsonChars rest → JsonChars (0x5C :: e :: rest)
  | unicode (h0 h1 h2 h3 : Nat) (rest : GoString) :
      isHex h0 = true → isHex h1 = true → isHex h2 = true → isHex h3 = true →
      JsonChars rest → JsonChars (0x5C :: 0x75 :: h0 :: h1 :: h2 :: h3 :: rest)

/-- The value is a JSON string literal by the grammar on bytes: a quote,
string characters, a quote. -/
def JsonLiteral (v : GoString) : Prop := ∃ body, JsonChars body ∧ v = 0x22 :: (body ++ [0x22])

/-- The value is a JSON string literal of a JSON text: it follows the grammar
and is encoded in UTF-8. -/
def ValidJsonLiteral (v : GoString) : Prop := JsonLiteral v ∧ wellFormedUTF8 v = true

/-! ## The executor (`semaphore/semaphore.go`)

A `Semaphore` is an `errgroup.Group` with its context and a channel `c` of
capacity `n`.  `Go(fn)` starts a goroutine that either sends to `c` and then
runs `fn`, receiving from `c` again when `fn` returns (`defer`), or returns
the context's error when the context is done.  The goroutines interleave;
one execution is a sequence of events. -/

/-- Where the goroutine of a submitted task is: at the `select`, inside
`fn`, past `fn` (which returned a nil error when `ok`) with the deferred
receive still to run, or returned. -/
inductive Phase where
  | waiting
  | running
  | exiting (ok : Bool)
  | returned
  deriving DecidableEq, Repr

/-- The state of a `Semaphore`: the capacity of `c`, the number of elements
buffered in `c`, whether the context is done, and the goroutines started by
`Go`, in submission order. -/
structure Semaphore where
  n : Nat
  slots : Nat
  done : Bool
  tasks : List Phase
  deriving DecidableEq, Repr

/-- Go `New`. -/
def Semaphore.New (n : Nat) : Semaphore := ⟨n, 0, false, []⟩

/-- What can happen next: `Go` is called; goroutine `i` sends to `c` and
enters `fn`; goroutine `i` takes the `ctx.Done()` case and returns; `fn` of
goroutine `i` returns (a nil error when `ok`); the deferred receive of
goroutine `i` runs and the goroutine returns; `Wait` returns. -/
inductive Event where
  | go
  | enter (i : Nat)
  | abort (i : Nat)
  | finish (i : Nat) (ok : Bool)
  | release (i : Nat)
  | wait
  deriving DecidableEq, Repr

/-- One step of an execution; `none` when the event cannot happen in the
state: a send to `c` blocks while `c` holds `n` elements, the `ctx.Done()`
case needs the context to be done, only a goroutine inside `fn` can leave it,
and `Wait` returns only when every goroutine has returned.  The group cancels
the context when a goroutine returns an error and when `Wait` returns. -/
def Semaphore.step (s : Semaphore) : Event → Option Semaphore
  | .go => some { s with tasks := s.tasks ++ [Phase.waiting] }
  | .enter i =>
    if s.tasks.get? i = some Phase.waiting ∧ s.slots < s.n then
      some { s with slots := s.slots + 1, tasks := s.tasks.set i Phase.running }
    else none
  | .abort i =>
    if s.tasks.get? i = some Phase.waiting ∧ s.done = true then
      some { s with tasks := s.tasks.set i Phase.returned }
    else none
  | .finish i ok =>
    if s.tasks.get? i = some Phase.running then
      some { s with tasks := s.tasks.set i (Phase.exiting ok) }
    else none
  | .release i =>
    match s.tasks.get? i with
    | some (Phase.exiting ok) =>
      some { s with slots := s.slots - 1, done := s.done || !ok,
                    tasks := s.tasks.set i Phase.returned }
    | _ => none
  | .wait =>
    if s.tasks.all (· == Phase.returned) then some { s with done := true } else none

/-- The state after a sequence of events, if each can happen in its turn. -/
def Semaphore.run (s : Semaphore) : List Event → Option Semaphore
  | [] => some s
  | ev :: rest =>
    match s.step ev with
    | none => none
    | some s1 => s1.run rest

/-- The number of task bodies running. -/
def Semaphore.running (s : Semaphore) : Nat := s.tasks.count Phase.running

/-- The number of goroutines past `fn` whose deferred receive has not run. -/
def Semaphore.exiting (s : Semaphore) : Nat :=
  s.tasks.count (Phase.exiting true) + s.tasks.count (Phase.exiting false)

/-! ## Segments of names and paths, for `path.Clean` -/

/-- The pieces of `s` between its slashes: `strings.Split(s, "/")`. -/
def segmentsOf (s : GoString) : List GoString := s.splitOn 0x2F

/-- Some piece of `s` between slashes is `.` or `..`. -/
def hasDotSegment (s : GoString) : Bool :=
  (segmentsOf s).any (fun seg => seg == [0x2E] || seg == [0x2E, 0x2E])

/-- A path element that `path.Clean` copies: not empty, without a slash, and
neither `.` nor `..`. -/
def PlainSegment (s : GoString) : Prop :=
  s ≠ [] ∧ 0x2F ∉ s ∧ s ≠ [0x2E] ∧ s ≠ [0x2E, 0x2E]

/-- The string `r` spells the elements `W`: the elements in order, each two
separated by one or more slashes, with any number of slashes before the first
and after the last. -/
inductive Spelled : List GoString → GoString → Prop where
  | nil : Spelled [] []
  | slash (W : List GoString) (r : GoString) : Spelled W r → Spelled W (0x2F :: r)
  | last (s : GoString) : PlainSegment s → Spelled [s] s
  | seg (s : GoString) (W : List GoString) (r : GoString) :
      PlainSegment s → Spelled W r → Spelled (s :: W) (s ++ 0x2F :: r)

/-- The rooted path with the given elements: `/` when there is none. -/
def rootedJoin (segs : List GoString) : GoString :=
  if segs = [] then [0x2F] else segs.flatMap (fun s => 0x2F :: s)

/-! ## Theorems -/

/-! ### Strings -/

theorem hasPrefix_quote_iff (v : GoString) : hasPrefix v [0x22] = true ↔ v.head? = some 0x22 := by
  unfold hasPrefix
  rw [ List.isPrefixOf_iff_prefix]
  constructor
  · rintro ⟨t, rfl⟩
    rfl
  · intro h
    cases v with
    | nil => cases h
    | cons a t =>
      simp only [List.head?_cons, Option.some.injEq] at h
      subst h
      exact ⟨t, rfl⟩

theorem hasSuffix_quote_iff (v : GoString) : hasSuffix v [0x22] = true ↔ v.getLast? = some 0x22 := by
  unfold hasSuffix
  rw [ List.isSuffixOf_iff_suffix]
  constructor
  · rintro ⟨t, rfl⟩
    simp
  · intro h
    rcases List.getLast?_eq_some_iff.mp h with ⟨t, rfl⟩
    exact ⟨t, rfl⟩

theorem isQuoted_iff (v : GoString) : isQuoted v = true ↔ QuoteWrapped v := by
  simp [isQuoted, QuoteWrapped, hasPrefix_quote_iff, hasSuffix_quote_iff]

theorem hasControlByte_iff (v : GoString) : hasControlByte v = true ↔ HasControl v := by
  simp [hasControlByte, HasControl]

theorem jsonMarshal_quoteWrapped (v e : GoString) (h : jsonMarshal v = .ok e) : QuoteWrapped e := by
  simp only [jsonMarshal, Except.ok.injEq] at h
  subst h
  refine ⟨rfl, ?_⟩
  rw [← List.cons_append, List.getLast?_append]
  rfl

/-! ### The escape rule -/

theorem escape_verbatim (v : GoString) (h : ¬ (QuoteWrapped v ∨ HasControl v)) :
    escape v = .ok v := by
  rw [← isQuoted_iff, ← hasControlByte_iff] at h
  simp only [not_or, Bool.not_eq_true] at h
  simp [escape, h.1, h.2]

theorem escape_eq_marshal (v : GoString) (h : QuoteWrapped v ∨ HasControl v) :
    escape v = jsonMarshal v := by
  rw [← isQuoted_iff, ← hasControlByte_iff] at h
  unfold escape
  cases hq : isQuoted v
  · simp only [hq, Bool.false_eq_true, false_or] at h
    simp [h]
  · simp

/-- C2: `escape v` is the JSON string encoding of `v` exactly when `v` starts
and ends with a double quote or contains a byte below `0x20`; in every other
case `escape v` is `v` itself, so the value `x"x` is emitted unchanged. -/
theorem escape_json_iff (v : GoString) :
    (escape v = jsonMarshal v ↔ (QuoteWrapped v ∨ HasControl v)) ∧
    (¬ (QuoteWrapped v ∨ HasControl v) → escape v = .ok v) ∧
    escape (bytes "x\"x") = .ok (bytes "x\"x") := by
  refine ⟨⟨?_, escape_eq_marshal v⟩, escape_verbatim v, by decide⟩
  intro h
  by_contra hn
  rw [escape_verbatim v hn] at h
  exact hn (Or.inl (jsonMarshal_quoteWrapped v v h.symm))

/-! ### The log rendering -/

theorem escape_mask : escape (List.replicate 16 0x2A) = .ok (List.replicate 16 0x2A) := by
  decide

/-- C3: for a secure expression `log()` is the absolute name followed by `@=`
and sixteen `*`, so two secure expressions with the same name and different
values have the same `log()` output. -/
theorem log_secure_masked (name v1 v2 : GoString) :
    (expression.mk name v1 true).log = .ok (abs name ++ bytes "@=" ++ List.replicate 16 0x2A) ∧
    (expression.mk name v1 true).log = (expression.mk name v2 true).log := by
  have h : ∀ v, (expression.mk name v true).log
      = .ok (abs name ++ bytes "@=" ++ List.replicate 16 0x2A) := by
    intro v
    have hb : bytes "@=" = [0x40, 0x3D] := by decide
    simp only [expression.log, buildExpr, if_true, escape_mask, secureMark, hb]
    simp
  exact ⟨h v1, by rw [h v1, h v2]⟩

/-! ### Regular expressions: derivatives compute the language -/

namespace Regex

theorem nullable_iff (r : Regex) : r.nullable = true ↔ Lang r [] := by
  induction r with
  | empty => simp [nullable, Lang]
  | eps => simp [nullable, Lang]
  | cls p => simp [nullable, Lang]
  | seq a b iha ihb =>
    simp only [nullable, Bool.and_eq_true, iha, ihb, Lang]
    constructor
    · rintro ⟨h1, h2⟩
      exact ⟨[], [], rfl, h1, h2⟩
    · rintro ⟨t, u, h, h1, h2⟩
      have ht : t = [] := by
        cases t with
        | nil => rfl
        | cons x xs => simp at h
      have hu : u = [] := by
        cases u with
        | nil => rfl
        | cons x xs => simp at h
      subst ht hu
      exact ⟨h1, h2⟩
  | alt a b iha ihb => simp [nullable, Lang, iha, ihb]
  | star a _ =>
    simp only [nullable, Lang, true_iff]
    exact ⟨[], rfl, by simp⟩

theorem deriv_iff (r : Regex) (c : Nat) : ∀ s, Lang (r.deriv c) s ↔ Lang r (c :: s) := by
  induction r with
  | empty => intro s; simp [deriv, Lang]
  | eps => intro s; simp [deriv, Lang]
  | cls p =>
    intro s
    by_cases hp : p c = true
    · simp only [deriv, hp, if_true, Lang]
      constructor
      · rintro rfl
        exact ⟨c, rfl, hp⟩
      · rintro ⟨d, h, _⟩
        simp only [List.cons.injEq] at h
        exact h.2
    · simp only [deriv, hp, Lang, Bool.false_eq_true, if_false, false_iff]
      rintro ⟨d, h, hd⟩
      simp only [List.cons.injEq] at h
      rw [← h.1] at hd
      exact hp hd
  | seq a b iha ihb =>
    intro s
    have key : Lang (seq a b) (c :: s) ↔
        (∃ t u, s = t ++ u ∧ Lang a (c :: t) ∧ Lang b u) ∨ (Lang a [] ∧ Lang b (c :: s)) := by
      simp only [Lang]
      constructor
      · rintro ⟨t, u, h, h1, h2⟩
        cases t with
        | nil =>
          simp only [List.nil_append] at h
          subst h
          exact Or.inr ⟨h1, h2⟩
        | cons x xs =>
          simp only [List.cons_append, List.cons.injEq] at h
          obtain ⟨rfl, rfl⟩ := h
          exact Or.inl ⟨xs, u, rfl, h1, h2⟩
      · rintro (⟨t, u, rfl, h1, h2⟩ | ⟨h1, h2⟩)
        · exact ⟨c :: t, u, rfl, h1, h2⟩
        · exact ⟨[], c :: s, rfl, h1, h2⟩
    rw [key]
    have hseq : Lang (seq (a.deriv c) b) s ↔ ∃ t u, s = t ++ u ∧ Lang a (c :: t) ∧ Lang b u := by
      simp only [Lang, iha]
    by_cases hn : a.nullable = true
    · have hd : (seq a b).deriv c = alt (seq (a.deriv c) b) (b.deriv c) := by
        simp only [deriv, hn, if_true]
      have h0 := (nullable_iff a).mp hn
      rw [hd]
      show Lang (seq (a.deriv c) b) s ∨ Lang (b.deriv c) s ↔ _
      rw [hseq, ihb]
      constructor
      · rintro (h | h)
        · exact Or.inl h
        · exact Or.inr ⟨h0, h⟩
      · rintro (h | h)
        · exact Or.inl h
        · exact Or.inr h.2
    · have hd : (seq a b).deriv c = seq (a.deriv c) b := by
        simp only [deriv, hn, Bool.false_eq_true, if_false]
      have h0 : ¬ Lang a [] := fun h => hn ((nullable_iff a).mpr h)
      rw [hd, hseq]
      constructor
      · intro h
        exact Or.inl h
      · rintro (h | h)
        · exact h
        · exact absurd h.1 h0
  | alt a b iha ihb => intro s; simp [deriv, Lang, iha, ihb]
  | star a iha =>
    intro s
    simp only [deriv, Lang, iha]
    constructor
    · rintro ⟨t, u, rfl, h1, S, rfl, hS⟩
      refine ⟨(c :: t) :: S, by simp, ?_⟩
      intro x hx
      rcases List.mem_cons.mp hx with rfl | hx
      · exact ⟨by simp, h1⟩
      · exact hS x hx
    · rintro ⟨S, h, hS⟩
      cases S with
      | nil => simp at h
      | cons x S1 =>
        have hx := hS x (List.mem_cons_self _ _)
        cases x with
        | nil => exact absurd rfl hx.1
        | cons y ys =>
          simp only [List.flatten_cons, List.cons_append, List.cons.injEq] at h
          obtain ⟨rfl, rfl⟩ := h
          exact ⟨ys, S1.flatten, rfl, hx.2, S1, rfl, fun t ht => hS t (List.mem_cons_of_mem _ ht)⟩

theorem fullMatch_iff (r : Regex) (s : GoString) : r.fullMatch s = true ↔ Lang r s := by
  induction s generalizing r with
  | nil => exact nullable_iff r
  | cons c s ih =>
    have h := ih (r.deriv c)
    simp only [fullMatch, List.foldl_cons] at h ⊢
    rw [h, deriv_iff]

theorem lang_lit (c : Nat) (s : GoString) : Lang (lit c) s ↔ s = [c] := by
  simp only [lit, Lang, beq_iff_eq]
  constructor
  · rintro ⟨d, rfl, rfl⟩
    rfl
  · rintro rfl
    exact ⟨c, rfl, rfl⟩

theorem lang_star_cls (p : Nat → Bool) (s : GoString) :
    Lang (star (cls p)) s ↔ ∀ c ∈ s, p c = true := by
  simp only [Lang]
  constructor
  · rintro ⟨S, rfl, hS⟩ c hc
    rcases List.mem_flatten.mp hc with ⟨t, ht, hct⟩
    obtain ⟨_, d, rfl, hd⟩ := hS t ht
    simp only [List.mem_singleton] at hct
    subst hct
    exact hd
  · intro h
    refine ⟨s.map (fun c => [c]), ?_, ?_⟩
    · clear h
      induction s with
      | nil => rfl
      | cons a t ih => simp only [List.map_cons, List.flatten_cons, List.singleton_append]; rw [← ih]
    · intro t ht
      rcases List.mem_map.mp ht with ⟨c, hc, rfl⟩
      exact ⟨by simp, c, rfl, h c hc⟩

theorem lang_plus_cls (p : Nat → Bool) (s : GoString) :
    Lang (plus (cls p)) s ↔ s ≠ [] ∧ ∀ c ∈ s, p c = true := by
  unfold plus
  show (∃ t u, s = t ++ u ∧ Lang (cls p) t ∧ Lang (star (cls p)) u) ↔ _
  simp only [lang_star_cls]
  constructor
  · rintro ⟨t, u, rfl, ⟨c, rfl, hc⟩, hu⟩
    refine ⟨by simp, ?_⟩
    intro d hd
    rcases List.mem_append.mp hd with hd | hd
    · simp only [List.mem_singleton] at hd
      subst hd
      exact hc
    · exact hu d hd
  · rintro ⟨hne, h⟩
    cases s with
    | nil => exact absurd rfl hne
    | cons c t =>
      exact ⟨[c], t, rfl, ⟨c, rfl, h c (List.mem_cons_self _ _)⟩,
        fun d hd => h d (List.mem_cons_of_mem _ hd)⟩

theorem lang_opt (a : Regex) (s : GoString) : Lang (opt a) s ↔ Lang a s ∨ s = [] := by
  simp [opt, Lang]

theorem lang_optNest (a : Regex) (n : Nat) : ∀ s, Lang (optNest n a) s ↔
    ∃ S : List GoString, S.length ≤ n ∧ s = S.flatten ∧ ∀ t ∈ S, Lang a t := by
  induction n with
  | zero =>
    intro s
    simp only [optNest, Lang, Nat.le_zero, List.length_eq_zero]
    constructor
    · rintro rfl
      exact ⟨[], rfl, rfl, by simp⟩
    · rintro ⟨S, rfl, rfl, _⟩
      rfl
  | succ n ih =>
    intro s
    simp only [optNest, lang_opt]
    show ((∃ t u, s = t ++ u ∧ Lang a t ∧ Lang (optNest n a) u) ∨ s = []) ↔ _
    simp only [ih]
    constructor
    · rintro (⟨t, u, rfl, ht, S, hlen, rfl, hS⟩ | rfl)
      · refine ⟨t :: S, by simp [hlen], by simp, ?_⟩
        intro x hx
        rcases List.mem_cons.mp hx with rfl | hx
        · exact ht
        · exact hS x hx
      · exact ⟨[], by simp, rfl, by simp⟩
    · rintro ⟨S, hlen, rfl, hS⟩
      cases S with
      | nil => exact Or.inr rfl
      | cons t S1 =>
        refine Or.inl ⟨t, S1.flatten, by simp, hS t (List.mem_cons_self _ _), S1, ?_, rfl,
          fun x hx => hS x (List.mem_cons_of_mem _ hx)⟩
        simp only [List.length_cons] at hlen
        omega

theorem lang_replicate_foldr (a : Regex) (k lo : Nat) : ∀ s,
    Lang ((List.replicate lo a).foldr seq (optNest k a)) s ↔
    ∃ S : List GoString, lo ≤ S.length ∧ S.length ≤ lo + k ∧ s = S.flatten ∧ ∀ t ∈ S, Lang a t := by
  induction lo with
  | zero =>
    intro s
    simp only [List.replicate_zero, List.foldr_nil, lang_optNest, Nat.zero_le, true_and,
      Nat.zero_add]
  | succ lo ih =>
    intro s
    simp only [List.replicate_succ, List.foldr_cons]
    show (∃ t u, s = t ++ u ∧ Lang a t ∧ Lang ((List.replicate lo a).foldr seq (optNest k a)) u) ↔ _
    simp only [ih]
    constructor
    · rintro ⟨t, u, rfl, ht, S, h1, h2, rfl, hS⟩
      refine ⟨t :: S, by simp [h1], by simp only [List.length_cons]; omega, by simp, ?_⟩
      intro x hx
      rcases List.mem_cons.mp hx with rfl | hx
      · exact ht
      · exact hS x hx
    · rintro ⟨S, h1, h2, rfl, hS⟩
      cases S with
      | nil => simp at h1
      | cons t S1 =>
        simp only [List.length_cons] at h1 h2
        exact ⟨t, S1.flatten, by simp, hS t (List.mem_cons_self _ _), S1, by omega, by omega, rfl,
          fun x hx => hS x (List.mem_cons_of_mem _ hx)⟩

theorem lang_repeatRange (a : Regex) (lo hi : Nat) (h : lo ≤ hi) (s : GoString) :
    Lang (repeatRange lo hi a) s ↔
    ∃ S : List GoString, lo ≤ S.length ∧ S.length ≤ hi ∧ s = S.flatten ∧ ∀ t ∈ S, Lang a t := by
  unfold repeatRange
  rw [lang_replicate_foldr]
  have : lo + (hi - lo) = hi := by omega
  rw [this]

end Regex

/-! ### The grammar of names and paths -/

theorem segChar_eq_nameChar (c : Nat) : segChar c = nameChar c := by
  rw [Bool.eq_iff_iff]
  simp only [segChar, isWord, nameChar, Bool.or_eq_true, decide_eq_true_eq, Bool.decide_or,
    Bool.decide_and, Bool.and_eq_true]
  omega

theorem lang_reSegment (s : GoString) : Regex.Lang reSegment s ↔ IsSegment s := by
  unfold reSegment IsSegment
  rw [Regex.lang_plus_cls]
  simp only [segChar_eq_nameChar]

theorem lang_reSlashSegment (s : GoString) :
    Regex.Lang reSlashSegment s ↔ ∃ seg, IsSegment seg ∧ s = 0x2F :: seg := by
  show (∃ t u, s = t ++ u ∧ Regex.Lang (Regex.lit 0x2F) t ∧ Regex.Lang reSegment u) ↔ _
  simp only [Regex.lang_lit, lang_reSegment]
  constructor
  · rintro ⟨t, u, rfl, rfl, hu⟩
    exact ⟨u, hu, rfl⟩
  · rintro ⟨seg, hseg, rfl⟩
    exact ⟨[0x2F], seg, rfl, rfl, hseg⟩

theorem lang_slashRepeat (lo hi : Nat) (h : lo ≤ hi) (s : GoString) :
    Regex.Lang (Regex.repeatRange lo hi reSlashSegment) s ↔ SlashedSegments lo hi s := by
  rw [Regex.lang_repeatRange _ _ _ h]
  unfold SlashedSegments
  constructor
  · rintro ⟨S, h1, h2, rfl, hS⟩
    refine ⟨S.map List.tail, by simpa using h1, by simpa using h2, ?_, ?_⟩
    · intro seg hseg
      rcases List.mem_map.mp hseg with ⟨t, ht, rfl⟩
      obtain ⟨seg, hs, rfl⟩ := (lang_reSlashSegment t).mp (hS t ht)
      exact hs
    · rw [List.flatMap_def, List.map_map]
      congr 1
      have hid : S.map ((fun seg => 0x2F :: seg) ∘ List.tail) = S.map id := by
        apply List.map_congr_left
        intro t ht
        obtain ⟨seg, _, rfl⟩ := (lang_reSlashSegment t).mp (hS t ht)
        rfl
      rw [hid, List.map_id]
  · rintro ⟨segs, h1, h2, hsegs, rfl⟩
    refine ⟨segs.map (fun seg => 0x2F :: seg), by simpa using h1, by simpa using h2, ?_, ?_⟩
    · rw [List.flatMap_def]
    · intro t ht
      rcases List.mem_map.mp ht with ⟨seg, hseg, rfl⟩
      exact (lang_reSlashSegment _).mpr ⟨seg, hsegs seg hseg, rfl⟩

theorem flatMap_slash_eq_intercalate (segs : List GoString) (h : segs ≠ []) :
    segs.flatMap (fun seg => 0x2F :: seg) = 0x2F :: [0x2F].intercalate segs := by
  induction segs with
  | nil => exact absurd rfl h
  | cons a t ih =>
    cases t with
    | nil => simp [List.intercalate]
    | cons b t1 =>
      have := ih (by simp)
      simp only [List.flatMap_cons] at this ⊢
      rw [this]
      simp [List.intercalate]

theorem slashed_iff_joined (lo hi : Nat) (hlo : 1 ≤ lo) (s : GoString) :
    SlashedSegments lo hi s ↔ ∃ t, s = 0x2F :: t ∧ JoinedSegments lo hi t := by
  constructor
  · rintro ⟨segs, h1, h2, hs, rfl⟩
    have hne : segs ≠ [] := by
      rintro rfl
      simp at h1
      omega
    exact ⟨_, flatMap_slash_eq_intercalate segs hne, segs, h1, h2, hs, rfl⟩
  · rintro ⟨t, rfl, segs, h1, h2, hs, rfl⟩
    have hne : segs ≠ [] := by
      rintro rfl
      simp at h1
      omega
    exact ⟨segs, h1, h2, hs, (flatMap_slash_eq_intercalate segs hne).symm⟩

theorem lang_reName (s : GoString) :
    Regex.Lang reName s ↔ SlashedSegments 1 6 s ∨ IsSegment s := by
  show Regex.Lang (Regex.repeatRange 1 6 reSlashSegment) s ∨ Regex.Lang reSegment s ↔ _
  rw [lang_slashRepeat 1 6 (by omega), lang_reSegment]

theorem lang_rePath (s : GoString) :
    Regex.Lang rePath s ↔
      (∃ t, SlashedSegments 1 5 t ∧ (s = t ∨ s = t ++ [0x2F])) ∨ s = [0x2F] := by
  show (∃ t u, s = t ++ u ∧ Regex.Lang (Regex.repeatRange 1 5 reSlashSegment) t ∧
      Regex.Lang (Regex.opt (Regex.lit 0x2F)) u) ∨ Regex.Lang (Regex.lit 0x2F) s ↔ _
  simp only [lang_slashRepeat 1 5 (by omega), Regex.lang_opt, Regex.lang_lit]
  constructor
  · rintro (⟨t, u, rfl, ht, rfl | rfl⟩ | h)
    · exact Or.inl ⟨t, ht, Or.inr rfl⟩
    · exact Or.inl ⟨t, ht, Or.inl (by simp)⟩
    · exact Or.inr h
  · rintro (⟨t, ht, rfl | rfl⟩ | h)
    · exact Or.inl ⟨s, [], by simp, ht, Or.inr rfl⟩
    · exact Or.inl ⟨t, [0x2F], rfl, ht, Or.inl rfl⟩
    · exact Or.inr h

theorem nameChar_lt (c : Nat) (h : nameChar c = true) : c < 0x80 ∧ c ≠ 0x2F := by
  simp only [nameChar, Bool.or_eq_true, decide_eq_true_eq, Bool.decide_or,
    Bool.decide_and, Bool.and_eq_true] at h
  omega

theorem slashed_bytes_lt (lo hi : Nat) (s : GoString) (h : SlashedSegments lo hi s) :
    ∀ c ∈ s, c < 0x80 := by
  obtain ⟨segs, _, _, hs, rfl⟩ := h
  intro c hc
  rcases List.mem_flatMap.mp hc with ⟨seg, hseg, hc⟩
  rcases List.mem_cons.mp hc with rfl | hc
  · omega
  · exact (nameChar_lt c ((hs seg hseg).2 c hc)).1

/-! ### Reserved prefixes -/

theorem lang_foldA (t : GoString) : Regex.Lang foldA t ↔ t = [0x61] ∨ t = [0x41] := by
  simp only [foldA, Regex.Lang, Bool.or_eq_true, beq_iff_eq]
  constructor
  · rintro ⟨c, rfl, rfl | rfl⟩
    · exact Or.inl rfl
    · exact Or.inr rfl
  · rintro (rfl | rfl)
    · exact ⟨_, rfl, Or.inl rfl⟩
    · exact ⟨_, rfl, Or.inr rfl⟩

theorem lang_foldW (t : GoString) : Regex.Lang foldW t ↔ t = [0x77] ∨ t = [0x57] := by
  simp only [foldW, Regex.Lang, Bool.or_eq_true, beq_iff_eq]
  constructor
  · rintro ⟨c, rfl, rfl | rfl⟩
    · exact Or.inl rfl
    · exact Or.inr rfl
  · rintro (rfl | rfl)
    · exact ⟨_, rfl, Or.inl rfl⟩
    · exact ⟨_, rfl, Or.inr rfl⟩

theorem lang_foldM (t : GoString) : Regex.Lang foldM t ↔ t = [0x6D] ∨ t = [0x4D] := by
  simp only [foldM, Regex.Lang, Bool.or_eq_true, beq_iff_eq]
  constructor
  · rintro ⟨c, rfl, rfl | rfl⟩
    · exact Or.inl rfl
    · exact Or.inr rfl
  · rintro (rfl | rfl)
    · exact ⟨_, rfl, Or.inl rfl⟩
    · exact ⟨_, rfl, Or.inr rfl⟩

theorem lang_foldS (t : GoString) :
    Regex.Lang foldS t ↔ t = [0x73] ∨ t = [0x53] ∨ t = [0xC5, 0xBF] := by
  show Regex.Lang (Regex.cls _) t ∨
    (∃ a b, t = a ++ b ∧ Regex.Lang (Regex.lit 0xC5) a ∧ Regex.Lang (Regex.lit 0xBF) b) ↔ _
  simp only [Regex.lang_lit]
  simp only [Regex.Lang, Bool.or_eq_true, beq_iff_eq]
  constructor
  · rintro (⟨c, rfl, rfl | rfl⟩ | ⟨a, b, rfl, rfl, rfl⟩)
    · exact Or.inl rfl
    · exact Or.inr (Or.inl rfl)
    · exact Or.inr (Or.inr rfl)
  · rintro (rfl | rfl | rfl)
    · exact Or.inl ⟨_, rfl, Or.inl rfl⟩
    · exact Or.inl ⟨_, rfl, Or.inr rfl⟩
    · exact Or.inr ⟨[0xC5], [0xBF], rfl, rfl, rfl⟩

theorem lang_reReserved (s : GoString) :
    Regex.Lang reReserved s ↔ ∃ p a b c rest, s = p ++ (a ++ (b ++ c)) ++ rest ∧
      (p = [0x2F] ∨ p = []) ∧
      ((Regex.Lang foldA a ∧ Regex.Lang foldW b ∧ Regex.Lang foldS c) ∨
       (Regex.Lang foldS a ∧ Regex.Lang foldS b ∧ Regex.Lang foldM c)) := by
  show (∃ p q, s = p ++ q ∧ Regex.Lang (Regex.opt (Regex.lit 0x2F)) p ∧
      ∃ x rest, q = x ++ rest ∧
        ((∃ a y, x = a ++ y ∧ Regex.Lang foldA a ∧
            ∃ b c, y = b ++ c ∧ Regex.Lang foldW b ∧ Regex.Lang foldS c) ∨
         (∃ a y, x = a ++ y ∧ Regex.Lang foldS a ∧
            ∃ b c, y = b ++ c ∧ Regex.Lang foldS b ∧ Regex.Lang foldM c)) ∧
        Regex.Lang (Regex.star (Regex.cls (fun _ => true))) rest) ↔ _
  simp only [Regex.lang_opt, Regex.lang_lit, Regex.lang_star_cls, implies_true, and_true]
  constructor
  · rintro ⟨p, q, rfl, hp, x, rest, rfl, (⟨a, y, rfl, ha, b, c, rfl, hb, hc⟩ |
      ⟨a, y, rfl, ha, b, c, rfl, hb, hc⟩)⟩
    · exact ⟨p, a, b, c, rest, by simp, hp, Or.inl ⟨ha, hb, hc⟩⟩
    · exact ⟨p, a, b, c, rest, by simp, hp, Or.inr ⟨ha, hb, hc⟩⟩
  · rintro ⟨p, a, b, c, rest, rfl, hp, (⟨ha, hb, hc⟩ | ⟨ha, hb, hc⟩)⟩
    · exact ⟨p, a ++ (b ++ c) ++ rest, by simp, hp, a ++ (b ++ c), rest, rfl,
        Or.inl ⟨a, b ++ c, rfl, ha, b, c, rfl, hb, hc⟩⟩
    · exact ⟨p, a ++ (b ++ c) ++ rest, by simp, hp, a ++ (b ++ c), rest, rfl,
        Or.inr ⟨a, b ++ c, rfl, ha, b, c, rfl, hb, hc⟩⟩

/-- A string matched by `reReserved` begins with a reserved prefix or
contains the lead byte of U+017F. -/
theorem reserved_of_lang (s : GoString) (hl : Regex.Lang reReserved s) :
    beginsReserved s = true ∨ 0xC5 ∈ s := by
  obtain ⟨p, a, b, c, rest, hs, hp, habc⟩ := (lang_reReserved s).mp hl
  clear hl
  subst hs
  simp only [lang_foldA, lang_foldW, lang_foldM, lang_foldS] at habc
  rcases hp with rfl | rfl <;>
  rcases habc with ⟨rfl | rfl, rfl | rfl, rfl | rfl | rfl⟩ |
    ⟨rfl | rfl | rfl, rfl | rfl | rfl, rfl | rfl⟩ <;>
  first
    | (left; rfl)
    | (right; simp)

theorem toLowerByte_eq (c x : Nat) (hx : 0x61 ≤ x ∧ x ≤ 0x7A) :
    toLowerByte c = x ↔ c = x ∨ c = x - 32 := by
  unfold toLowerByte
  split <;> omega

theorem lang_of_reserved (s : GoString) (h : beginsReserved s = true) :
    Regex.Lang reReserved s := by
  have key : ∀ t : GoString, ((t.take 3).map toLowerByte == bytes "aws" ||
      (t.take 3).map toLowerByte == bytes "ssm") = true →
      ∃ a b c rest, t = a ++ (b ++ c) ++ rest ∧
      ((Regex.Lang foldA a ∧ Regex.Lang foldW b ∧ Regex.Lang foldS c) ∨
       (Regex.Lang foldS a ∧ Regex.Lang foldS b ∧ Regex.Lang foldM c)) := by
    intro t ht
    have haws : bytes "aws" = [0x61, 0x77, 0x73] := by decide
    have hssm : bytes "ssm" = [0x73, 0x73, 0x6D] := by decide
    rw [haws, hssm] at ht
    match t, ht with
    | [], ht => simp at ht
    | [_], ht => simp at ht
    | [_, _], ht => simp at ht
    | c1 :: c2 :: c3 :: rest, ht =>
      simp only [List.take_succ_cons, List.take_zero, List.map_cons, List.map_nil,
        Bool.or_eq_true, beq_iff_eq, List.cons.injEq, and_true] at ht
      refine ⟨[c1], [c2], [c3], rest, rfl, ?_⟩
      simp only [lang_foldA, lang_foldW, lang_foldM, lang_foldS, List.cons.injEq, and_true,
        List.cons_ne_self, and_false, or_false, reduceCtorEq]
      rcases ht with ⟨h1, h2, h3⟩ | ⟨h1, h2, h3⟩
      · rw [toLowerByte_eq _ _ (by omega)] at h1 h2 h3
        left
        exact ⟨h1, h2, h3⟩
      · rw [toLowerByte_eq _ _ (by omega)] at h1 h2 h3
        right
        exact ⟨h1, h2, h3⟩
  rw [lang_reReserved]
  unfold beginsReserved at h
  by_cases hs : s.head? = some 0x2F
  · simp only [hs, if_true] at h
    obtain ⟨a, b, c, rest, ht, habc⟩ := key _ h
    refine ⟨[0x2F], a, b, c, rest, ?_, Or.inl rfl, habc⟩
    cases s with
    | nil => simp at hs
    | cons c0 t =>
      simp only [List.head?_cons, Option.some.injEq] at hs
      subst hs
      simp only [List.drop_succ_cons, List.drop_zero] at ht
      rw [ht]
      simp
  · simp only [hs, if_false] at h
    obtain ⟨a, b, c, rest, ht, habc⟩ := key _ h
    exact ⟨[], a, b, c, rest, by simpa using ht, Or.inr rfl, habc⟩

theorem reserved_fullMatch (s : GoString) (h : beginsReserved s = true) :
    reReserved.fullMatch s = true :=
  (Regex.fullMatch_iff _ _).mpr (lang_of_reserved s h)

theorem not_reserved_fullMatch (s : GoString) (h : beginsReserved s = false)
    (hs : ∀ c ∈ s, c < 0x80) : reReserved.fullMatch s = false := by
  cases hm : reReserved.fullMatch s
  · rfl
  · rcases reserved_of_lang s ((Regex.fullMatch_iff _ _).mp hm) with h1 | h1
    · rw [h] at h1
      cases h1
    · have := hs _ h1
      omega

/-! ### Names, paths and reserved prefixes: the claims -/

theorem isName_eq (s : GoString) (h : beginsReserved s = false) :
    isName s = true ↔ Regex.Lang reName s := by
  unfold isName
  rw [Bool.and_eq_true, Regex.fullMatch_iff]
  constructor
  · exact fun hh => hh.1
  · intro hl
    refine ⟨hl, ?_⟩
    have hlt : ∀ c ∈ s, c < 0x80 := by
      rcases (lang_reName s).mp hl with hs | hs
      · exact slashed_bytes_lt _ _ s hs
      · exact fun c hc => (nameChar_lt c (hs.2 c hc)).1
    rw [not_reserved_fullMatch s h hlt]
    rfl

theorem isPath_eq (s : GoString) (h : beginsReserved s = false) :
    isPath s = true ↔ Regex.Lang rePath s := by
  unfold isPath
  rw [Bool.and_eq_true, Regex.fullMatch_iff]
  constructor
  · exact fun hh => hh.1
  · intro hl
    refine ⟨hl, ?_⟩
    have hlt : ∀ c ∈ s, c < 0x80 := by
      rcases (lang_rePath s).mp hl with ⟨t, ht, rfl | rfl⟩ | rfl
      · exact slashed_bytes_lt _ _ _ ht
      · intro c hc
        rcases List.mem_append.mp hc with hc | hc
        · exact slashed_bytes_lt _ _ _ ht c hc
        · simp only [List.mem_singleton] at hc
          omega
      · intro c hc
        simp only [List.mem_singleton] at hc
        omega
    rw [not_reserved_fullMatch s h hlt]
    rfl

/-- C8 (as stated, refuted): `a/b` does not begin with a reserved prefix and
is two segments joined by `/`, yet `isName` rejects it. -/
theorem isName_relative_two_segments :
    beginsReserved (bytes "a/b") = false ∧
    (JoinedSegments 1 6 (bytes "a/b") ∨ ∃ t, bytes "a/b" = 0x2F :: t ∧ JoinedSegments 1 6 t) ∧
    isName (bytes "a/b") = false := by
  refine ⟨by decide, Or.inl ⟨[[0x61], [0x62]], by decide, by decide, ?_, by decide⟩, by decide⟩
  intro seg hseg
  simp only [List.mem_cons, List.mem_singleton, List.not_mem_nil, or_false] at hseg
  rcases hseg with rfl | rfl
  · exact ⟨by simp, by decide⟩
  · exact ⟨by simp, by decide⟩

/-- C8 (amended): for a string that does not begin with a reserved prefix,
`isName` holds exactly when the string is a single non-empty segment over
`[A-Za-z0-9._-]`, or a `/` followed by 1 to 6 such segments joined by `/`. -/
theorem isName_iff (s : GoString) (h : beginsReserved s = false) :
    isName s = true ↔ (IsSegment s ∨ ∃ t, s = 0x2F :: t ∧ JoinedSegments 1 6 t) := by
  rw [isName_eq s h, lang_reName, slashed_iff_joined 1 6 (le_refl 1)]
  exact Or.comm

theorem isName_iff_witness :
    beginsReserved (bytes "/a/b") = false ∧
    (isName (bytes "/a/b") = true ↔
      (IsSegment (bytes "/a/b") ∨ ∃ t, bytes "/a/b" = 0x2F :: t ∧ JoinedSegments 1 6 t)) :=
  ⟨by decide, isName_iff (bytes "/a/b") (by decide)⟩

/-- C9: for a string that does not begin with a reserved prefix, `isPath`
holds exactly when the string is the root `/` or is 1 to 5 segments over
`[A-Za-z0-9._-]`, each preceded by `/`, optionally followed by one trailing
`/`; a rejected path gets `ErrInvalidPath` carrying the path, as do `x1`, the
empty string and a path of six segments. -/
theorem isPath_iff (s : GoString) (h : beginsReserved s = false) :
    (isPath s = true ↔
      (s = [0x2F] ∨ ∃ t, SlashedSegments 1 5 t ∧ (s = t ∨ s = t ++ [0x2F]))) ∧
    (isPath s = false → validatePath s = some (.ErrInvalidPath s)) ∧
    (isPath s = true → validatePath s = none) ∧
    validatePath (bytes "x1") = some (.ErrInvalidPath (bytes "x1")) ∧
    validatePath [] = some (.ErrInvalidPath []) ∧
    validatePath (bytes "/a/b/c/d/e/f") = some (.ErrInvalidPath (bytes "/a/b/c/d/e/f")) := by
  refine ⟨?_, ?_, ?_, by decide, by decide, by decide⟩
  · rw [isPath_eq s h, lang_rePath]
    exact Or.comm
  · intro hp
    simp [validatePath, hp]
  · intro hp
    simp [validatePath, hp]

theorem isPath_iff_witness :
    beginsReserved (bytes "/a/b/") = false ∧ isPath (bytes "/a/b/") = true ∧
    validatePath (bytes "/a/b/") = none :=
  ⟨by decide, by decide, (isPath_iff (bytes "/a/b/") (by decide)).2.2.1 (by decide)⟩

/-- C10: a string that begins, after an optional single leading `/`, with
`aws` or `ssm` in any letter case is neither a name nor a path, whatever
follows, and `validateName` / `validatePath` return `ErrInvalidName` /
`ErrInvalidPath` carrying that string. -/
theorem reserved_rejected (s : GoString) (h : beginsReserved s = true) :
    isName s = false ∧ isPath s = false ∧
    validateName s = some (.ErrInvalidName s) ∧
    validatePath s = some (.ErrInvalidPath s) := by
  have hr := reserved_fullMatch s h
  have hn : isName s = false := by simp [isName, hr]
  have hp : isPath s = false := by simp [isPath, hr]
  exact ⟨hn, hp, by simp [validateName, hn], by simp [validatePath, hp]⟩

theorem reserved_rejected_witness :
    (reName.fullMatch (bytes "/awsome/key") = true ∧ isName (bytes "/awsome/key") = false) ∧
    (rePath.fullMatch (bytes "/AWS/x") = true ∧ isPath (bytes "/AWS/x") = false) ∧
    validateName (bytes "ssmfoo") = some (.ErrInvalidName (bytes "ssmfoo")) :=
  ⟨⟨by decide, (reserved_rejected (bytes "/awsome/key") (by decide)).1⟩,
   ⟨by decide, (reserved_rejected (bytes "/AWS/x") (by decide)).2.1⟩,
   (reserved_rejected (bytes "ssmfoo") (by decide)).2.2.1⟩

/-! ### UTF-8: decoding a well-formed sequence and encoding it again -/

theorem decodeRune_two (b0 b1 : Nat) (t : GoString) (h0 : 0xC2 ≤ b0 ∧ b0 ≤ 0xDF)
    (h1 : 0x80 ≤ b1 ∧ b1 ≤ 0xBF) :
    decodeRune (b0 :: b1 :: t) = ((b0 % 32) * 64 + b1 % 64, 2) := by
  have hf : firstInfo b0 = some (2, 0x80, 0xBF) := by
    simp only [firstInfo, h0, and_self, if_true]
  have e1 : ¬ b0 < 0x80 := by omega
  have e2 : ¬ (b1 < 0x80 ∨ 0xBF < b1) := by omega
  simp only [decodeRune, e1, if_false, hf, List.length_cons, e2, le_refl, if_true]
  split
  · omega
  · rfl

theorem encodeRune_two (b0 b1 : Nat) (h0 : 0xC2 ≤ b0 ∧ b0 ≤ 0xDF)
    (h1 : 0x80 ≤ b1 ∧ b1 ≤ 0xBF) :
    encodeRune ((b0 % 32) * 64 + b1 % 64) = [b0, b1] := by
  have e1 : ¬ (b0 % 32) * 64 + b1 % 64 ≤ 0x7F := by omega
  have e2 : (b0 % 32) * 64 + b1 % 64 ≤ 0x7FF := by omega
  simp only [encodeRune, e1, e2, if_false, if_true, List.cons.injEq, and_true]
  constructor <;> omega

theorem decodeRune_three (b0 b1 b2 : Nat) (t : GoString)
    (h : (b0 = 0xE0 ∧ 0xA0 ≤ b1 ∧ b1 ≤ 0xBF) ∨ (0xE1 ≤ b0 ∧ b0 ≤ 0xEC ∧ 0x80 ≤ b1 ∧ b1 ≤ 0xBF) ∨
      (b0 = 0xED ∧ 0x80 ≤ b1 ∧ b1 ≤ 0x9F) ∨ (0xEE ≤ b0 ∧ b0 ≤ 0xEF ∧ 0x80 ≤ b1 ∧ b1 ≤ 0xBF))
    (h2 : 0x80 ≤ b2 ∧ b2 ≤ 0xBF) :
    decodeRune (b0 :: b1 :: b2 :: t) = ((b0 % 16) * 4096 + (b1 % 64) * 64 + b2 % 64, 3) := by
  have e1 : ¬ b0 < 0x80 := by omega
  have e3 : ¬ (b2 < 0x80 ∨ 0xBF < b2) := by omega
  have hlen : ∀ n : Nat, ¬ (n + 1 + 1 + 1 < 3) := by intro n; omega
  have h32 : ¬ (3 ≤ 2) := by omega
  rcases h with ⟨rfl, hb⟩ | ⟨ha, hb, hc⟩ | ⟨rfl, hb⟩ | ⟨ha, hb, hc⟩
  · have e2 : ¬ (b1 < 0xA0 ∨ 0xBF < b1) := by omega
    simp [decodeRune, firstInfo, e2, e3]
  · have hf : firstInfo b0 = some (3, 0x80, 0xBF) := by
      unfold firstInfo
      repeat' split
      all_goals first | rfl | omega
    have e2 : ¬ (b1 < 0x80 ∨ 0xBF < b1) := by omega
    simp only [decodeRune, e1, if_false, hf, List.length_cons, hlen, e2, h32, le_refl, if_true, e3]
  · have e2 : ¬ (b1 < 0x80 ∨ 0x9F < b1) := by omega
    simp [decodeRune, firstInfo, e2, e3]
  · have hf : firstInfo b0 = some (3, 0x80, 0xBF) := by
      unfold firstInfo
      repeat' split
      all_goals first | rfl | omega
    have e2 : ¬ (b1 < 0x80 ∨ 0xBF < b1) := by omega
    simp only [decodeRune, e1, if_false, hf, List.length_cons, hlen, e2, h32, le_refl, if_true, e3]

theorem encodeRune_three (b0 b1 b2 : Nat)
    (h : (b0 = 0xE0 ∧ 0xA0 ≤ b1 ∧ b1 ≤ 0xBF) ∨ (0xE1 ≤ b0 ∧ b0 ≤ 0xEC ∧ 0x80 ≤ b1 ∧ b1 ≤ 0xBF) ∨
      (b0 = 0xED ∧ 0x80 ≤ b1 ∧ b1 ≤ 0x9F) ∨ (0xEE ≤ b0 ∧ b0 ≤ 0xEF ∧ 0x80 ≤ b1 ∧ b1 ≤ 0xBF))
    (h2 : 0x80 ≤ b2 ∧ b2 ≤ 0xBF) :
    encodeRune ((b0 % 16) * 4096 + (b1 % 64) * 64 + b2 % 64) = [b0, b1, b2] := by
  have e1 : ¬ (b0 % 16) * 4096 + (b1 % 64) * 64 + b2 % 64 ≤ 0x7F := by omega
  have e2 : ¬ (b0 % 16) * 4096 + (b1 % 64) * 64 + b2 % 64 ≤ 0x7FF := by omega
  have e3 : ¬ (0x10FFFF < (b0 % 16) * 4096 + (b1 % 64) * 64 + b2 % 64 ∨
      (0xD800 ≤ (b0 % 16) * 4096 + (b1 % 64) * 64 + b2 % 64 ∧
        (b0 % 16) * 4096 + (b1 % 64) * 64 + b2 % 64 ≤ 0xDFFF)) := by omega
  have e4 : (b0 % 16) * 4096 + (b1 % 64) * 64 + b2 % 64 ≤ 0xFFFF := by omega
  simp only [encodeRune, e1, e2, e3, e4, if_false, if_true, List.cons.injEq, and_true]
  refine ⟨?_, ?_, ?_⟩ <;> omega

theorem decodeRune_four (b0 b1 b2 b3 : Nat) (t : GoString)
    (h : (b0 = 0xF0 ∧ 0x90 ≤ b1 ∧ b1 ≤ 0xBF) ∨ (0xF1 ≤ b0 ∧ b0 ≤ 0xF3 ∧ 0x80 ≤ b1 ∧ b1 ≤ 0xBF) ∨
      (b0 = 0xF4 ∧ 0x80 ≤ b1 ∧ b1 ≤ 0x8F))
    (h2 : 0x80 ≤ b2 ∧ b2 ≤ 0xBF) (h3 : 0x80 ≤ b3 ∧ b3 ≤ 0xBF) :
    decodeRune (b0 :: b1 :: b2 :: b3 :: t) =
      ((b0 % 8) * 262144 + (b1 % 64) * 4096 + (b2 % 64) * 64 + b3 % 64, 4) := by
  have e1 : ¬ b0 < 0x80 := by omega
  have e3 : ¬ (b2 < 0x80 ∨ 0xBF < b2) := by omega
  have e4 : ¬ (b3 < 0x80 ∨ 0xBF < b3) := by omega
  have hlen : ∀ n : Nat, ¬ (n + 1 + 1 + 1 + 1 < 4) := by intro n; omega
  have h42 : ¬ (4 ≤ 2) := by omega
  have h43 : ¬ (4 ≤ 3) := by omega
  rcases h with ⟨rfl, hb⟩ | ⟨ha, hb, hc⟩ | ⟨rfl, hb⟩
  · have e2 : ¬ (b1 < 0x90 ∨ 0xBF < b1) := by omega
    simp [decodeRune, firstInfo, e2, e3, e4]
  · have hf : firstInfo b0 = some (4, 0x80, 0xBF) := by
      unfold firstInfo
      repeat' split
      all_goals first | rfl | omega
    have e2 : ¬ (b1 < 0x80 ∨ 0xBF < b1) := by omega
    simp only [decodeRune, e1, if_false, hf, List.length_cons, hlen, e2, h42, h43, e3, e4]
  · have e2 : ¬ (b1 < 0x80 ∨ 0x8F < b1) := by omega
    simp [decodeRune, firstInfo, e2, e3, e4]

theorem encodeRune_four (b0 b1 b2 b3 : Nat)
    (h : (b0 = 0xF0 ∧ 0x90 ≤ b1 ∧ b1 ≤ 0xBF) ∨ (0xF1 ≤ b0 ∧ b0 ≤ 0xF3 ∧ 0x80 ≤ b1 ∧ b1 ≤ 0xBF) ∨
      (b0 = 0xF4 ∧ 0x80 ≤ b1 ∧ b1 ≤ 0x8F))
    (h2 : 0x80 ≤ b2 ∧ b2 ≤ 0xBF) (h3 : 0x80 ≤ b3 ∧ b3 ≤ 0xBF) :
    encodeRune ((b0 % 8) * 262144 + (b1 % 64) * 4096 + (b2 % 64) * 64 + b3 % 64) =
      [b0, b1, b2, b3] := by
  have e1 : ¬ (b0 % 8) * 262144 + (b1 % 64) * 4096 + (b2 % 64) * 64 + b3 % 64 ≤ 0x7F := by omega
  have e2 : ¬ (b0 % 8) * 262144 + (b1 % 64) * 4096 + (b2 % 64) * 64 + b3 % 64 ≤ 0x7FF := by omega
  have e3 : ¬ (0x10FFFF < (b0 % 8) * 262144 + (b1 % 64) * 4096 + (b2 % 64) * 64 + b3 % 64 ∨
      (0xD800 ≤ (b0 % 8) * 262144 + (b1 % 64) * 4096 + (b2 % 64) * 64 + b3 % 64 ∧
        (b0 % 8) * 262144 + (b1 % 64) * 4096 + (b2 % 64) * 64 + b3 % 64 ≤ 0xDFFF)) := by omega
  have e4 : ¬ (b0 % 8) * 262144 + (b1 % 64) * 4096 + (b2 % 64) * 64 + b3 % 64 ≤ 0xFFFF := by omega
  simp only [encodeRune, e1, e2, e3, e4, if_false, List.cons.injEq, and_true]
  refine ⟨?_, ?_, ?_, ?_⟩ <;> omega

/-! ### One encoder step and its decoding -/

theorem wellFormedUTF8_unfold (b0 : Nat) (rest : GoString) :
    wellFormedUTF8 (b0 :: rest) =
      if b0 < 0x80 then wellFormedUTF8 rest
      else if 0xC2 ≤ b0 ∧ b0 ≤ 0xDF then
        match rest with
        | b1 :: r => isCont b1 && wellFormedUTF8 r
        | _ => false
      else if 0xE0 ≤ b0 ∧ b0 ≤ 0xEF then
        match rest with
        | b1 :: b2 :: r =>
          (if b0 = 0xE0 then decide (0xA0 ≤ b1 ∧ b1 ≤ 0xBF)
           else if b0 = 0xED then decide (0x80 ≤ b1 ∧ b1 ≤ 0x9F)
           else isCont b1) && isCont b2 && wellFormedUTF8 r
        | _ => false
      else if 0xF0 ≤ b0 ∧ b0 ≤ 0xF4 then
        match rest with
        | b1 :: b2 :: b3 :: r =>
          (if b0 = 0xF0 then decide (0x90 ≤ b1 ∧ b1 ≤ 0xBF)
           else if b0 = 0xF4 then decide (0x80 ≤ b1 ∧ b1 ≤ 0x8F)
           else isCont b1) && isCont b2 && isCont b3 && wellFormedUTF8 r
        | _ => false
      else false := by
  rcases rest with _ | ⟨b1, _ | ⟨b2, _ | ⟨b3, r⟩⟩⟩ <;> rfl

theorem wellFormed_cons (b : Nat) (rest : GoString) (h : wellFormedUTF8 (b :: rest) = true) :
    (b < 0x80 ∧ wellFormedUTF8 rest = true) ∨
    (¬ b < 0x80 ∧ ∃ chunk rest1 rr, b :: rest = chunk ++ rest1 ∧ 2 ≤ chunk.length ∧
      wellFormedUTF8 rest1 = true ∧ (∀ c ∈ chunk, 0x80 ≤ c) ∧
      (∀ t, decodeRune (chunk ++ t) = (rr, chunk.length)) ∧ encodeRune rr = chunk) := by
  by_cases hb : b < 0x80
  · left
    rw [wellFormedUTF8_unfold] at h
    simp only [hb, if_true] at h
    exact ⟨hb, h⟩
  · right
    refine ⟨hb, ?_⟩
    rw [wellFormedUTF8_unfold] at h
    simp only [hb, if_false] at h
    by_cases h2 : 0xC2 ≤ b ∧ b ≤ 0xDF
    · simp only [h2, and_self, if_true] at h
      match rest, h with
      | b1 :: r, h =>
        simp only [Bool.and_eq_true, isCont, decide_eq_true_eq] at h
        refine ⟨[b, b1], r, _, rfl, le_refl _, h.2, ?_, fun t => decodeRune_two b b1 t h2 h.1,
          encodeRune_two b b1 h2 h.1⟩
        intro c hc
        simp only [List.mem_cons, List.mem_singleton, List.not_mem_nil, or_false] at hc
        rcases hc with rfl | rfl <;> omega
    · simp only [h2, if_false] at h
      by_cases h3 : 0xE0 ≤ b ∧ b ≤ 0xEF
      · simp only [h3, and_self, if_true] at h
        match rest, h with
        | b1 :: b2 :: r, h =>
          simp only [Bool.and_eq_true, isCont, decide_eq_true_eq] at h
          obtain ⟨⟨h1, hb2⟩, hr⟩ := h
          have hcase : (b = 0xE0 ∧ 0xA0 ≤ b1 ∧ b1 ≤ 0xBF) ∨
              (0xE1 ≤ b ∧ b ≤ 0xEC ∧ 0x80 ≤ b1 ∧ b1 ≤ 0xBF) ∨
              (b = 0xED ∧ 0x80 ≤ b1 ∧ b1 ≤ 0x9F) ∨
              (0xEE ≤ b ∧ b ≤ 0xEF ∧ 0x80 ≤ b1 ∧ b1 ≤ 0xBF) := by
            by_cases hE0 : b = 0xE0
            · simp only [hE0, if_true, decide_eq_true_eq] at h1
              exact Or.inl ⟨hE0, h1⟩
            · by_cases hED : b = 0xED
              · simp only [hED, if_true, decide_eq_true_eq] at h1
                simp only [show ¬ (0xED = 0xE0) by decide, if_false, decide_eq_true_eq] at h1
                exact Or.inr (Or.inr (Or.inl ⟨hED, h1⟩))
              · simp only [hE0, hED, if_false, decide_eq_true_eq] at h1
                omega
          refine ⟨[b, b1, b2], r, _, rfl, by simp, hr, ?_,
            fun t => decodeRune_three b b1 b2 t hcase hb2, encodeRune_three b b1 b2 hcase hb2⟩
          intro c hc
          simp only [List.mem_cons, List.mem_singleton, List.not_mem_nil, or_false] at hc
          rcases hc with rfl | rfl | rfl <;> omega
      · simp only [h3, if_false] at h
        by_cases h4 : 0xF0 ≤ b ∧ b ≤ 0xF4
        · simp only [h4, and_self, if_true] at h
          match rest, h with
          | b1 :: b2 :: b3 :: r, h =>
            simp only [Bool.and_eq_true, isCont, decide_eq_true_eq] at h
            obtain ⟨⟨⟨h1, hb2⟩, hb3⟩, hr⟩ := h
            have hcase : (b = 0xF0 ∧ 0x90 ≤ b1 ∧ b1 ≤ 0xBF) ∨
                (0xF1 ≤ b ∧ b ≤ 0xF3 ∧ 0x80 ≤ b1 ∧ b1 ≤ 0xBF) ∨
                (b = 0xF4 ∧ 0x80 ≤ b1 ∧ b1 ≤ 0x8F) := by
              by_cases hF0 : b = 0xF0
              · simp only [hF0, if_true, decide_eq_true_eq] at h1
                exact Or.inl ⟨hF0, h1⟩
              · by_cases hF4 : b = 0xF4
                · simp only [hF4, if_true, decide_eq_true_eq] at h1
                  simp only [show ¬ (0xF4 = 0xF0) by decide, if_false, decide_eq_true_eq] at h1
                  exact Or.inr (Or.inr ⟨hF4, h1⟩)
                · simp only [hF0, hF4, if_false, decide_eq_true_eq] at h1
                  omega
            refine ⟨[b, b1, b2, b3], r, _, rfl, by simp, hr, ?_,
              fun t => decodeRune_four b b1 b2 b3 t hcase hb2 hb3,
              encodeRune_four b b1 b2 b3 hcase hb2 hb3⟩
            intro c hc
            simp only [List.mem_cons, List.mem_singleton, List.not_mem_nil, or_false] at hc
            rcases hc with rfl | rfl | rfl | rfl <;> omega
        · simp [h4] at h

theorem chunkOK_safe (b : Nat) (h : htmlSafe b = true) : ChunkOK [b] [b] := by
  simp only [htmlSafe, Bool.and_eq_true, decide_eq_true_eq, Bool.decide_and] at h
  have e1 : ¬ b = 0x5C := by simp at h; omega
  have e2 : ¬ (b = 0x22 ∨ b < 0x20) := by simp at h; omega
  have e3 : b < 0x80 := by omega
  have e4 : ¬ b = 0x22 := by omega
  have e5 : ¬ (b = 0x5C ∨ b = 0x22 ∨ b < 0x20) := by omega
  have e6 : ¬ b < 0x20 := by omega
  refine ⟨by simp, by simp, ?_, ?_, ?_, Or.inr ⟨rfl, ?_⟩⟩
  · intro m t
    show unquoteLoop (m + 1) (b :: t) = _
    simp only [unquoteLoop, unquoteStep, e1, e2, e3, if_false, if_true]
    rfl
  · intro t
    show (b :: t).foldl scanStep .inString = _
    simp only [List.foldl_cons, scanStep, e1, e4, e6, if_false]
  · intro t
    show rescanFrom false (b :: t) = b :: rescanFrom false t
    simp only [rescanFrom, e1, e4, if_false]
  · intro k t
    show plainPrefix (k + 1) (b :: t) = _
    simp only [plainPrefix, plainStep, e5, e3, if_false, if_true, List.length_singleton]

theorem chunkOK_escape (b : Nat) (hb : b < 0x80) (h : htmlSafe b = false) :
    ChunkOK [b] (escapeByte b) := by
  interval_cases b <;>
  first
    | exact absurd h (by decide)
    | exact ⟨by simp, by decide, fun m t => rfl, fun t => rfl, fun t => rfl,
        Or.inl (fun k t => rfl)⟩

theorem rescanFrom_plain (p t : GoString) (hp : ∀ c ∈ p, 0x80 ≤ c) :
    rescanFrom false (p ++ t) = p ++ rescanFrom false t := by
  induction p with
  | nil => rfl
  | cons c p ih =>
    have hc := hp c (List.mem_cons_self _ _)
    have e1 : ¬ c = 0x22 := by omega
    have e2 : ¬ c = 0x5C := by omega
    show rescanFrom false (c :: (p ++ t)) = c :: (p ++ rescanFrom false t)
    simp only [rescanFrom, e1, e2, if_false]
    rw [ih (fun d hd => hp d (List.mem_cons_of_mem _ hd))]

theorem scan_plain (p t : GoString) (hp : ∀ c ∈ p, 0x80 ≤ c) :
    (p ++ t).foldl scanStep .inString = t.foldl scanStep .inString := by
  induction p with
  | nil => rfl
  | cons c p ih =>
    have hc := hp c (List.mem_cons_self _ _)
    have e1 : ¬ c = 0x22 := by omega
    have e2 : ¬ c = 0x5C := by omega
    have e3 : ¬ c < 0x20 := by omega
    show (c :: (p ++ t)).foldl scanStep .inString = _
    simp only [List.foldl_cons, scanStep, e1, e2, e3, if_false]
    exact ih (fun d hd => hp d (List.mem_cons_of_mem _ hd))

theorem chunkOK_multi (chunk : GoString) (rr : Nat) (hlen : 2 ≤ chunk.length)
    (hge : ∀ c ∈ chunk, 0x80 ≤ c) (hdec : ∀ t, decodeRune (chunk ++ t) = (rr, chunk.length))
    (henc : encodeRune rr = chunk) : ChunkOK chunk chunk := by
  have hne : chunk ≠ [] := by
    rintro rfl
    simp at hlen
  refine ⟨hne, hne, ?_, fun t => scan_plain chunk t hge, fun t => rescanFrom_plain chunk t hge,
    Or.inr ⟨rfl, ?_⟩⟩
  · intro m t
    cases chunk with
    | nil => exact absurd rfl hne
    | cons c0 ct =>
      have hc := hge c0 (List.mem_cons_self _ _)
      have e1 : ¬ c0 = 0x5C := by omega
      have e2 : ¬ (c0 = 0x22 ∨ c0 < 0x20) := by omega
      have e3 : ¬ c0 < 0x80 := by omega
      have hd := hdec t
      simp only [List.cons_append, List.length_cons] at hd
      show unquoteLoop (m + 1) (c0 :: (ct ++ t)) = _
      simp only [unquoteLoop, unquoteStep, e1, e2, e3, if_false, hd, Nat.add_sub_cancel,
        List.drop_left, henc]
  · intro k t
    cases chunk with
    | nil => exact absurd rfl hne
    | cons c0 ct =>
      have hc := hge c0 (List.mem_cons_self _ _)
      have e1 : ¬ (c0 = 0x5C ∨ c0 = 0x22 ∨ c0 < 0x20) := by omega
      have e3 : ¬ c0 < 0x80 := by omega
      have hd := hdec t
      simp only [List.cons_append, List.length_cons] at hd
      have e4 : ¬ (rr = RuneError ∧ ct.length + 1 = 1) := by
        simp only [List.length_cons] at hlen
        omega
      show plainPrefix (k + 1) (c0 :: (ct ++ t)) = _
      simp only [plainPrefix, plainStep, e1, e3, if_false, hd, Nat.add_sub_cancel,
        List.drop_left, e4, List.length_cons]

theorem chunkOK_separator (chunk : GoString) (rr : Nat) (h : rr = 0x2028 ∨ rr = 0x2029)
    (henc : encodeRune rr = chunk) :
    ChunkOK chunk [0x5C, 0x75, 0x32, 0x30, 0x32, hexDigit (rr % 16)] := by
  rcases h with rfl | rfl <;> subst henc <;>
  exact ⟨by decide, by simp, fun m t => rfl, fun t => rfl, fun t => rfl, Or.inl (fun k t => rfl)⟩

theorem encode_step (b : Nat) (rest : GoString) (h : wellFormedUTF8 (b :: rest) = true) :
    ∃ cin cout rest1, b :: rest = cin ++ rest1 ∧ wellFormedUTF8 rest1 = true ∧
      ChunkOK cin cout ∧ ∀ n, encodeLoop (n + 1) (b :: rest) = cout ++ encodeLoop n rest1 := by
  rcases wellFormed_cons b rest h with ⟨hb, hwf⟩ | ⟨hb, chunk, rest1, rr, heq, hlen, hwf, hge, hdec, henc⟩
  · by_cases hs : htmlSafe b = true
    · refine ⟨[b], [b], rest, rfl, hwf, chunkOK_safe b hs, ?_⟩
      intro n
      simp only [encodeLoop, encodeStep, hb, if_true, hs]
    · have hs1 : htmlSafe b = false := by simpa using hs
      refine ⟨[b], escapeByte b, rest, rfl, hwf, chunkOK_escape b hb hs1, ?_⟩
      intro n
      simp only [encodeLoop, encodeStep, hb, if_true, hs1, Bool.false_eq_true, if_false]
  · have hd : decodeRune (b :: rest) = (rr, chunk.length) := by rw [heq]; exact hdec rest1
    have e1 : ¬ (rr = RuneError ∧ chunk.length = 1) := by omega
    have htake : (b :: rest).take chunk.length = chunk := by rw [heq]; exact List.take_left _ _
    have hdrop : rest.drop (chunk.length - 1) = rest1 := by
      have : (b :: rest).drop chunk.length = rest1 := by rw [heq]; exact List.drop_left _ _
      obtain ⟨l, hl⟩ : ∃ l, chunk.length = l + 1 := ⟨chunk.length - 1, by omega⟩
      rw [hl] at this ⊢
      simpa using this
    by_cases hsep : rr = 0x2028 ∨ rr = 0x2029
    · refine ⟨chunk, _, rest1, heq, hwf, chunkOK_separator chunk rr hsep henc, ?_⟩
      intro n
      simp only [encodeLoop, encodeStep, hb, if_false, hd, e1, hsep, if_true, hdrop]
    · refine ⟨chunk, chunk, rest1, heq, hwf, chunkOK_multi chunk rr hlen hge hdec henc, ?_⟩
      intro n
      simp only [encodeLoop, encodeStep, hb, if_false, hd, e1, hsep, htake, hdrop]

theorem encode_step_length (b : Nat) (rest cin rest1 : GoString) (n : Nat)
    (heq : b :: rest = cin ++ rest1) (hne : cin ≠ []) (hlen : (b :: rest).length ≤ n + 1) :
    rest1.length ≤ n := by
  have h1 : (b :: rest).length = cin.length + rest1.length := by rw [heq, List.length_append]
  have h2 : 1 ≤ cin.length := List.length_pos.mpr hne
  omega

theorem unquote_encode (n : Nat) : ∀ v : GoString, v.length ≤ n → wellFormedUTF8 v = true →
    ∀ m, (encodeLoop n v).length ≤ m → unquoteLoop m (encodeLoop n v) = some v := by
  induction n with
  | zero =>
    intro v hv _ m _
    have : v = [] := List.length_eq_zero.mp (Nat.le_zero.mp hv)
    subst this
    simp [encodeLoop, unquoteLoop]
  | succ n ih =>
    intro v hv hwf m hm
    cases v with
    | nil => simp [encodeLoop, unquoteLoop]
    | cons b rest =>
      obtain ⟨cin, cout, rest1, heq, hwf1, hok, henc⟩ := encode_step b rest hwf
      obtain ⟨hcin, hcout, hU, _, _, _⟩ := hok
      have hlen1 := encode_step_length b rest cin rest1 n heq hcin hv
      rw [henc n] at hm ⊢
      have hc1 : 1 ≤ cout.length := List.length_pos.mpr hcout
      rw [List.length_append] at hm
      obtain ⟨m1, rfl⟩ : ∃ m1, m = m1 + 1 := ⟨m - 1, by omega⟩
      rw [hU m1 _, ih rest1 hlen1 hwf1 m1 (by omega), heq]
      rfl

theorem scan_encode (n : Nat) : ∀ v : GoString, v.length ≤ n → wellFormedUTF8 v = true →
    ∀ t, (encodeLoop n v ++ t).foldl scanStep .inString = t.foldl scanStep .inString := by
  induction n with
  | zero =>
    intro v _ _ t
    simp [encodeLoop]
  | succ n ih =>
    intro v hv hwf t
    cases v with
    | nil => simp [encodeLoop]
    | cons b rest =>
      obtain ⟨cin, cout, rest1, heq, hwf1, hok, henc⟩ := encode_step b rest hwf
      obtain ⟨hcin, _, _, hS, _, _⟩ := hok
      have hlen1 := encode_step_length b rest cin rest1 n heq hcin hv
      rw [henc n, List.append_assoc, hS, ih rest1 hlen1 hwf1]

theorem rescan_encode (n : Nat) : ∀ v : GoString, v.length ≤ n → wellFormedUTF8 v = true →
    ∀ t, rescanLiteral (encodeLoop n v ++ t) = encodeLoop n v ++ rescanLiteral t := by
  induction n with
  | zero =>
    intro v _ _ t
    simp [encodeLoop]
  | succ n ih =>
    intro v hv hwf t
    cases v with
    | nil => simp [encodeLoop]
    | cons b rest =>
      obtain ⟨cin, cout, rest1, heq, hwf1, hok, henc⟩ := encode_step b rest hwf
      obtain ⟨hcin, _, _, _, hR, _⟩ := hok
      have hlen1 := encode_step_length b rest cin rest1 n heq hcin hv
      rw [henc n, List.append_assoc, hR, ih rest1 hlen1 hwf1, List.append_assoc]

theorem plain_encode (n : Nat) : ∀ v : GoString, v.length ≤ n → wellFormedUTF8 v = true →
    ∀ k m, (encodeLoop n v).length ≤ k → (encodeLoop n v).length ≤ m →
      (unquoteLoop m ((encodeLoop n v).drop (plainPrefix k (encodeLoop n v)))).map
        ((encodeLoop n v).take (plainPrefix k (encodeLoop n v)) ++ ·) = some v := by
  induction n with
  | zero =>
    intro v hv _ k m _ _
    have : v = [] := List.length_eq_zero.mp (Nat.le_zero.mp hv)
    subst this
    cases k <;> simp [encodeLoop, unquoteLoop, plainPrefix]
  | succ n ih =>
    intro v hv hwf k m hk hm
    cases v with
    | nil => cases k <;> simp [encodeLoop, unquoteLoop, plainPrefix]
    | cons b rest =>
      have hA := unquote_encode (n + 1) (b :: rest) hv hwf m hm
      obtain ⟨cin, cout, rest1, heq, hwf1, hok, henc⟩ := encode_step b rest hwf
      obtain ⟨hcin, hcout, _, _, _, hP⟩ := hok
      have hlen1 := encode_step_length b rest cin rest1 n heq hcin hv
      rw [henc n] at hk hm hA ⊢
      have hc1 : 1 ≤ cout.length := List.length_pos.mpr hcout
      rw [List.length_append] at hk hm
      obtain ⟨k1, rfl⟩ : ∃ k1, k = k1 + 1 := ⟨k - 1, by omega⟩
      rcases hP with hP | ⟨rfl, hP⟩
      · rw [hP k1 _]
        simp only [List.drop_zero, List.take_zero, List.nil_append]
        rw [hA]
        rfl
      · rw [hP k1 _]
        have hd : (cout ++ encodeLoop n rest1).drop
            (cout.length + plainPrefix k1 (encodeLoop n rest1)) =
            (encodeLoop n rest1).drop (plainPrefix k1 (encodeLoop n rest1)) := by
          rw [List.drop_append]
        have ht : (cout ++ encodeLoop n rest1).take
            (cout.length + plainPrefix k1 (encodeLoop n rest1)) =
            cout ++ (encodeLoop n rest1).take (plainPrefix k1 (encodeLoop n rest1)) := by
          rw [List.take_append]
        rw [hd, ht]
        have hI := ih rest1 hlen1 hwf1 k1 m (by omega) (by omega)
        rcases hu : unquoteLoop m ((encodeLoop n rest1).drop
            (plainPrefix k1 (encodeLoop n rest1))) with _ | u
        · rw [hu] at hI
          cases hI
        · rw [hu] at hI
          simp only [Option.map_some', Option.some.injEq] at hI ⊢
          rw [List.append_assoc, hI, heq]

/-! ### Round trip of the escaping -/

theorem unquoteBytes_encode (v : GoString) (hwf : wellFormedUTF8 v = true) :
    unquoteBytes (0x22 :: (encodeLoop v.length v ++ [0x22])) = some v := by
  have hbody : ((0x22 :: (encodeLoop v.length v ++ [0x22])).drop 1).dropLast
      = encodeLoop v.length v := by
    simp
  have hlast : (0x22 :: (encodeLoop v.length v ++ [0x22])).getLast? = some 0x22 := by
    rw [← List.cons_append, List.getLast?_append]
    rfl
  have hcond : ¬ ((0x22 :: (encodeLoop v.length v ++ [0x22])).length < 2 ∨
      (0x22 :: (encodeLoop v.length v ++ [0x22])).head? ≠ some 0x22 ∨
      (0x22 :: (encodeLoop v.length v ++ [0x22])).getLast? ≠ some 0x22) := by
    rw [hlast]
    simp
  unfold unquoteBytes
  rw [if_neg hcond]
  simp only [hbody]
  have hP := plain_encode v.length v (le_refl _) hwf (encodeLoop v.length v).length
    (encodeLoop v.length v).length (le_refl _) (le_refl _)
  split
  · rename_i hr
    rw [hr] at hP
    simpa [unquoteLoop] using hP
  · exact hP

theorem unmarshal_marshal (v : GoString) (hwf : wellFormedUTF8 v = true) :
    jsonUnmarshalQuoted (encodeLoop v.length v ++ [0x22]) = some v := by
  have hs : checkValidQuoted (encodeLoop v.length v ++ [0x22]) = true := by
    unfold checkValidQuoted
    rw [scan_encode v.length v (le_refl _) hwf]
    rfl
  have hr : rescanLiteral (encodeLoop v.length v ++ [0x22]) = encodeLoop v.length v ++ [0x22] := by
    rw [rescan_encode v.length v (le_refl _) hwf]
    rfl
  unfold jsonUnmarshalQuoted
  rw [hs, hr]
  exact unquoteBytes_encode v hwf

theorem unescape_marshal (v e : GoString) (hwf : wellFormedUTF8 v = true)
    (he : jsonMarshal v = .ok e) : unescape e = .ok v := by
  have hq := (isQuoted_iff e).mpr (jsonMarshal_quoteWrapped v e he)
  simp only [jsonMarshal, Except.ok.injEq] at he
  subst he
  unfold unescape
  rw [hq]
  simp only [if_true, List.drop_succ_cons, List.drop_zero]
  rw [unmarshal_marshal v hwf]

/-- C1 (as stated, refuted): the quote-wrapped value with the single byte
`0xFF` between the quotes is escaped successfully, but unescaping the result
yields U+FFFD in place of that byte, not the value. -/
theorem escape_unescape_invalid_utf8 :
    escape [0x22, 0xFF, 0x22] = .ok (bytes "\"\\\"\\ufffd\\\"\"") ∧
    unescape (bytes "\"\\\"\\ufffd\\\"\"") = .ok [0x22, 0xEF, 0xBF, 0xBD, 0x22] ∧
    [0x22, 0xEF, 0xBF, 0xBD, 0x22] ≠ [0x22, 0xFF, 0x22] := by
  decide

/-- C1 (amended): for every value that is well-formed UTF-8 (the empty
string, control characters, embedded quotes and quote-wrapped values
included), and for every value that is neither quote-wrapped nor contains a
byte below `0x20`, `escape` succeeds and `unescape` of its result succeeds and
returns exactly the value. -/
theorem escape_unescape_roundtrip (v : GoString)
    (h : wellFormedUTF8 v = true ∨ (¬ QuoteWrapped v ∧ ¬ HasControl v)) :
    ∃ e, escape v = .ok e ∧ unescape e = .ok v := by
  by_cases hj : QuoteWrapped v ∨ HasControl v
  · have hwf : wellFormedUTF8 v = true := by
      rcases h with h | h
      · exact h
      · exact absurd hj (not_or.mpr h)
    refine ⟨0x22 :: (encodeLoop v.length v ++ [0x22]), ?_, ?_⟩
    · exact (escape_eq_marshal v hj).trans rfl
    · exact unescape_marshal v _ hwf rfl
  · refine ⟨v, escape_verbatim v hj, ?_⟩
    have hq : isQuoted v = false := by
      cases hq : isQuoted v
      · rfl
      · exact absurd (Or.inl ((isQuoted_iff v).mp hq)) hj
    simp [unescape, hq]

theorem escape_unescape_roundtrip_witness :
    wellFormedUTF8 (bytes "\"x\ty\"") = true ∧
    ∃ e, escape (bytes "\"x\ty\"") = .ok e ∧ unescape e = .ok (bytes "\"x\ty\"") :=
  ⟨by decide, escape_unescape_roundtrip (bytes "\"x\ty\"") (Or.inl (by decide))⟩

/-! ### The store -/

theorem abs_abs (name : GoString) : abs (abs name) = abs name := by
  unfold abs
  split
  · rename_i h
    simp [h]
  · simp [hasPrefix, List.isPrefixOf]

theorem lookup_some (svc : Store) (name : GoString) (e : Parameter)
    (h : svc.lookup name = some e) : e ∈ svc ∧ abs e.Name = abs name := by
  unfold Store.lookup at h
  exact ⟨List.mem_of_find?_eq_some h, by simpa using List.find?_some h⟩

theorem lookup_congr (svc : Store) (a b : GoString) (h : abs a = abs b) :
    svc.lookup a = svc.lookup b := by
  unfold Store.lookup
  rw [h]

theorem lookup_isSome (svc : Store) (e : Parameter) (h : e ∈ svc) :
    ∃ e1, svc.lookup e.Name = some e1 := by
  unfold Store.lookup
  cases hf : svc.find? (fun q => abs q.Name == abs e.Name) with
  | some e1 => exact ⟨e1, rfl⟩
  | none =>
    have := List.find?_eq_none.mp hf e h
    simp at this

theorem lookup_put (svc : Store) (p : Parameter) (name : GoString) :
    (svc.putParameter p).lookup name =
      if abs p.Name = abs name then some p else svc.lookup name := by
  unfold Store.putParameter Store.lookup
  by_cases h : abs p.Name = abs name
  · simp [h]
  · simp only [h, if_false]
    rw [List.find?_cons_of_neg _ (by simpa using h), List.find?_filter]
    congr 1
    funext q
    by_cases hq : abs q.Name = abs name
    · have : ¬ abs name = abs p.Name := fun hh => h hh.symm
      simp [hq, this]
    · simp [hq]

theorem lookup_delete (svc : Store) (d name : GoString) :
    (svc.deleteParameter d).lookup name =
      if abs d = abs name then none else svc.lookup name := by
  unfold Store.deleteParameter Store.lookup
  rw [List.find?_filter]
  by_cases h : abs d = abs name
  · simp only [h, if_true]
    rw [List.find?_eq_none]
    intro q _
    by_cases hq : abs q.Name = abs name <;> simp [hq]
  · simp only [h, if_false]
    congr 1
    funext q
    by_cases hq : abs q.Name = abs name
    · have : ¬ abs name = abs d := fun hh => h hh.symm
      simp [hq, this]
    · simp [hq]

/-- An entry with absolute name `key` is stored. -/
theorem present_iff_lookup (svc : Store) (name : GoString) :
    (∃ e ∈ svc, abs e.Name = abs name) ↔ ∃ e, svc.lookup name = some e := by
  constructor
  · rintro ⟨e, he, hn⟩
    obtain ⟨e1, h1⟩ := lookup_isSome svc e he
    exact ⟨e1, by rw [← lookup_congr svc _ _ hn]; exact h1⟩
  · rintro ⟨e, he⟩
    exact ⟨e, (lookup_some svc name e he).1, (lookup_some svc name e he).2⟩

theorem batchNames_flatten (fuel : Nat) : ∀ names : List GoString, names.length ≤ fuel →
    (batchNames fuel names).flatten = names := by
  induction fuel with
  | zero =>
    intro names h
    have : names = [] := List.length_eq_zero.mp (Nat.le_zero.mp h)
    subst this
    rfl
  | succ fuel ih =>
    intro names h
    cases names with
    | nil => rfl
    | cons n ns =>
      simp only [batchNames, List.flatten_cons]
      rw [ih]
      · exact List.take_append_drop _ _
      · simp only [maxNames, List.length_drop, List.length_cons] at h ⊢
        omega

theorem fetched_eq (svc : Store) (names : List GoString) :
    (batchNames names.length names).flatMap svc.getParameters = names.filterMap svc.lookup := by
  have h := batchNames_flatten names.length names (le_refl _)
  conv_rhs => rw [← h]
  generalize batchNames names.length names = bs
  induction bs with
  | nil => rfl
  | cons b bs ih =>
    simp only [List.flatMap_cons, List.flatten_cons, List.filterMap_append, ih]
    rfl

theorem submitGets_params (svc : Store) (bs : List (List GoString)) :
    (submitGets svc bs).params = bs.flatMap svc.getParameters := by
  induction bs with
  | nil => rfl
  | cons b bs ih => simp only [submitGets, List.flatMap_cons, ih]

theorem submitGets_calls (svc : Store) (bs : List (List GoString)) :
    (submitGets svc bs).calls = bs.map (fun ns => ⟨ns, true⟩) := by
  induction bs with
  | nil => rfl
  | cons b bs ih => simp only [submitGets, List.map_cons, ih]

theorem GetParametersByNames_ok (svc : Store) (names : List GoString) (fetched : List Parameter)
    (h : GetParametersByNames svc names = .ok fetched) :
    fetched = names.filterMap svc.lookup ∧ ∀ n ∈ names, isName n = true := by
  unfold GetParametersByNames GetParametersByNamesTraced at h
  cases hv : names.findSome? validateName with
  | some err => rw [hv] at h; cases h
  | none =>
    rw [hv] at h
    simp only [Except.ok.injEq] at h
    refine ⟨by rw [← h, submitGets_params, fetched_eq], ?_⟩
    intro n hn
    have := List.findSome?_eq_none_iff.mp hv n hn
    unfold validateName at this
    cases hi : isName n
    · simp [hi] at this
    · rfl

theorem mem_fetched (svc : Store) (names : List GoString) (e : Parameter)
    (h : e ∈ names.filterMap svc.lookup) : svc.lookup e.Name = some e ∧ e ∈ svc := by
  rcases List.mem_filterMap.mp h with ⟨n, _, hn⟩
  have h1 := lookup_some svc n e hn
  exact ⟨by rw [lookup_congr svc _ _ h1.2]; exact hn, h1.1⟩

/-! ### Targeted update -/

theorem escape_ok (v : GoString) : ∃ e, escape v = .ok e := by
  by_cases h : QuoteWrapped v ∨ HasControl v
  · exact ⟨_, (escape_eq_marshal v h).trans rfl⟩
  · exact ⟨v, escape_verbatim v h⟩

theorem log_ok (param : Parameter) : (newExpression param).log = .ok (logText param) := by
  have h : ∃ s, (newExpression param).log = .ok s := by
    unfold expression.log buildExpr
    obtain ⟨e, he⟩ := escape_ok (if (newExpression param).Secure = true then List.replicate 16 0x2A
      else (newExpression param).Value)
    simp only [he]
    exact ⟨_, rfl⟩
  obtain ⟨s, hs⟩ := h
  unfold logText
  rw [hs]

theorem byName_some (l : List Parameter) (init : GoString → Option Parameter) (k : GoString)
    (e : Parameter)
    (h : l.foldl (fun m oldParam => fun key =>
      if key = abs oldParam.Name then some oldParam else m key) init k = some e) :
    (e ∈ l ∧ abs e.Name = k) ∨ init k = some e := by
  induction l generalizing init with
  | nil => exact Or.inr h
  | cons a l ih =>
    rw [List.foldl_cons] at h
    rcases ih _ h with ⟨hm, hk⟩ | h1
    · exact Or.inl ⟨List.mem_cons_of_mem _ hm, hk⟩
    · by_cases hk : k = abs a.Name
      · simp only [hk, if_true, Option.some.injEq] at h1
        subst h1
        exact Or.inl ⟨List.mem_cons_self _ _, hk.symm⟩
      · simp only [hk, if_false] at h1
        exact Or.inr h1

theorem byName_isSome (l : List Parameter) (init : GoString → Option Parameter) (k : GoString)
    (x : Parameter) (h : init k = some x) :
    ∃ y, l.foldl (fun m oldParam => fun key =>
      if key = abs oldParam.Name then some oldParam else m key) init k = some y := by
  induction l generalizing init x with
  | nil => exact ⟨x, h⟩
  | cons a l ih =>
    rw [List.foldl_cons]
    by_cases hk : k = abs a.Name
    · exact ih _ a (by simp [hk])
    · exact ih _ x (by simp [hk, h])

theorem byName_mem (l : List Parameter) (init : GoString → Option Parameter) (k : GoString)
    (h : ∃ e ∈ l, abs e.Name = k) :
    ∃ e ∈ l, abs e.Name = k ∧ l.foldl (fun m oldParam => fun key =>
      if key = abs oldParam.Name then some oldParam else m key) init k = some e := by
  induction l generalizing init with
  | nil =>
    obtain ⟨e, he, _⟩ := h
    cases he
  | cons a l ih =>
    rw [List.foldl_cons]
    by_cases hl : ∃ e ∈ l, abs e.Name = k
    · obtain ⟨e, he, hk, hf⟩ := ih _ hl
      exact ⟨e, List.mem_cons_of_mem _ he, hk, hf⟩
    · obtain ⟨e, he, hk⟩ := h
      rcases List.mem_cons.mp he with rfl | he
      · refine ⟨e, List.mem_cons_self _ _, hk, ?_⟩
        cases hf : l.foldl (fun m oldParam => fun key =>
            if key = abs oldParam.Name then some oldParam else m key)
            (fun key => if key = abs e.Name then some e else init key) k with
        | none =>
          obtain ⟨y, hy⟩ := byName_isSome l
            (fun key => if key = abs e.Name then some e else init key) k e (by simp [hk])
          rw [hy] at hf
          cases hf
        | some e1 =>
          rcases byName_some l _ k e1 hf with ⟨hm, hk1⟩ | h1
          · exact absurd ⟨e1, hm, hk1⟩ hl
          · simp only [hk, if_true, Option.some.injEq] at h1
            rw [h1]
      · exact absurd ⟨e, he, hk⟩ hl

theorem unchanged_eq_matches (svc : Store) (names : List GoString) (param : Parameter) :
    unchanged (oldParamsByName (names.filterMap svc.lookup)) param =
      Matches (names.filterMap svc.lookup) param := by
  rw [Bool.eq_iff_iff]
  unfold unchanged Matches oldParamsByName
  constructor
  · intro h
    split at h
    · rename_i old hold
      rcases byName_some _ _ _ _ hold with ⟨hm, hk⟩ | h1
      · rw [List.any_eq_true]
        simp only [Bool.and_eq_true, beq_iff_eq] at h ⊢
        exact ⟨old, hm, ⟨hk, h.1.symm⟩, h.2.symm⟩
      · cases h1
    · cases h
  · intro h
    rw [List.any_eq_true] at h
    obtain ⟨old, hm, hcond⟩ := h
    simp only [Bool.and_eq_true, beq_iff_eq] at hcond
    obtain ⟨e, he, hk, hf⟩ := byName_mem (names.filterMap svc.lookup) (fun _ => none)
      (abs param.Name) ⟨old, hm, hcond.1.1⟩
    have h1 := (mem_fetched svc names old hm).1
    have h2 := (mem_fetched svc names e he).1
    rw [lookup_congr svc e.Name old.Name (hk.trans hcond.1.1.symm), h1] at h2
    simp only [Option.some.injEq] at h2
    subst h2
    rw [hf]
    simp [hcond.1.2, hcond.2]

theorem submitPuts_ok (m : GoString → Option Parameter) (params : List Parameter)
    (hv : ∀ p ∈ params, unchanged m p = false → isName p.Name = true) :
    submitPuts m params =
      ⟨none, (params.filter (fun p => !unchanged m p)).map (fun p => Task.Put p (logText p)),
        (params.filter (unchanged m)).map (fun p => bytes "UNCHANGED " ++ logText p)⟩ := by
  induction params with
  | nil => rfl
  | cons p rest ih =>
    have ih1 := ih (fun q hq => hv q (List.mem_cons_of_mem _ hq))
    unfold submitPuts
    rw [log_ok]
    cases hu : unchanged m p
    · have hn := hv p (List.mem_cons_self _ _) hu
      simp [validateName, hn, ih1, hu]
    · simp [ih1, hu]

theorem submitDeletes_tasks (deleteNames : List GoString) :
    ∀ t ∈ (submitDeletes deleteNames).tasks, ∃ name ∈ deleteNames, t = Task.Delete name := by
  induction deleteNames with
  | nil =>
    intro t ht
    cases ht
  | cons d rest ih =>
    intro t ht
    unfold submitDeletes at ht
    split at ht
    · cases ht
    · rcases List.mem_cons.mp ht with rfl | ht
      · exact ⟨d, List.mem_cons_self _ _, rfl⟩
      · obtain ⟨name, hn, rfl⟩ := ih t ht
        exact ⟨name, List.mem_cons_of_mem _ hn, rfl⟩

theorem submitDeletes_ok (deleteNames : List GoString)
    (h : (submitDeletes deleteNames).err = none) :
    (submitDeletes deleteNames).tasks = deleteNames.map Task.Delete := by
  induction deleteNames with
  | nil => rfl
  | cons d rest ih =>
    unfold submitDeletes at h ⊢
    split at h
    · cases h
    · rename_i hd
      simp only [hd]
      rw [List.map_cons, ih h]
theorem submitPuts_stops (m : GoString → Option Parameter) (bad : Parameter)
    (post : List Parameter) (hu : unchanged m bad = false) (hn : isName bad.Name = false) :
    ∀ pre : List Parameter, (∀ p ∈ pre, unchanged m p = false → isName p.Name = true) →
    submitPuts m (pre ++ bad :: post) =
      ⟨some (.ErrInvalidName bad.Name),
        (pre.filter (fun p => !unchanged m p)).map (fun p => Task.Put p (logText p)),
        (pre.filter (unchanged m)).map (fun p => bytes "UNCHANGED " ++ logText p)⟩ := by
  intro pre
  induction pre with
  | nil =>
    intro _
    simp only [List.nil_append, List.filter_nil, List.map_nil]
    unfold submitPuts
    rw [log_ok]
    simp [hu, validateName, hn]
  | cons p rest ih =>
    intro hv
    have ih1 := ih (fun q hq => hv q (List.mem_cons_of_mem _ hq))
    rw [List.cons_append]
    unfold submitPuts
    rw [log_ok]
    cases hp : unchanged m p
    · have hpn := hv p (List.mem_cons_self _ _) hp
      simp [validateName, hpn, ih1, hp]
    · simp [ih1, hp]

/-- C7 (as stated, refuted): a desired parameter that matches no fetched
entry and whose name is not a valid name gets no Put: the update returns
`ErrInvalidName` with nothing submitted, also when it is reached through
`ReplaceParameters`. -/
theorem targeted_update_invalid_name_no_put :
    GetParametersByNames [] [] = .ok [] ∧
    Matches [] ⟨bytes "bad:name", ParameterTypeString, bytes "v"⟩ = false ∧
    updateParameters [] [⟨bytes "bad:name", ParameterTypeString, bytes "v"⟩] [] [] =
      ⟨some (.ErrInvalidName (bytes "bad:name")), [], []⟩ ∧
    ReplaceParameters [] (bytes "/a") true [⟨bytes "bad:name", ParameterTypeString, bytes "v"⟩] =
      ⟨some (.ErrInvalidName (bytes "bad:name")), [], []⟩ := by
  decide

/-- C7 (amended): in a targeted update in which every desired parameter that
matches no fetched entry has a valid name, the lines printed are exactly one
`UNCHANGED <log()>` per desired parameter for which the fetched entries
contain an entry with its absolute name, type and value, and the Put tasks
submitted are exactly one per other desired parameter (absent, different
value, or different type), each printing `PUT <log()>` once its call
succeeded.  When such parameters are followed by a desired parameter that
matches no fetched entry and whose name is not valid, the update returns
`ErrInvalidName` carrying that name: the lines and Puts of the parameters
before it are as above, and no Put is submitted for it or for any parameter
after it, and no Delete. -/
theorem targeted_update_decisions (svc : Store) (params : List Parameter)
    (names deleteNames : List GoString) (fetched : List Parameter)
    (hf : GetParametersByNames svc names = .ok fetched)
    (hv : ∀ p ∈ params, Matches fetched p = false → isName p.Name = true) :
    (updateParameters svc params names deleteNames).lines =
      (params.filter (Matches fetched)).map (fun p => bytes "UNCHANGED " ++ logText p) ∧
    (updateParameters svc params names deleteNames).tasks =
      (params.filter (fun p => !Matches fetched p)).map (fun p => Task.Put p (logText p)) ++
        (submitDeletes deleteNames).tasks ∧
    (∀ t ∈ (submitDeletes deleteNames).tasks, ∃ name, t = Task.Delete name) ∧
    (∀ p, (Task.Put p (logText p)).line = bytes "PUT " ++ logText p) ∧
    (∀ p, (newExpression p).log = .ok (logText p)) ∧
    (∀ bad post, Matches fetched bad = false → isName bad.Name = false →
      updateParameters svc (params ++ bad :: post) names deleteNames =
        ⟨some (.ErrInvalidName bad.Name),
          (params.filter (fun p => !Matches fetched p)).map (fun p => Task.Put p (logText p)),
          (params.filter (Matches fetched)).map (fun p => bytes "UNCHANGED " ++ logText p)⟩) := by
  have hfe := (GetParametersByNames_ok svc names fetched hf).1
  have hum : ∀ p, unchanged (oldParamsByName fetched) p = Matches fetched p := by
    intro p
    rw [hfe]
    exact unchanged_eq_matches svc names p
  have hfun : unchanged (oldParamsByName fetched) = Matches fetched := funext hum
  have hp := submitPuts_ok (oldParamsByName fetched) params (by
    intro p hp hu
    rw [hum] at hu
    exact hv p hp hu)
  rw [hfun] at hp
  refine ⟨?_, ?_, ?_, fun _ => rfl, log_ok, ?_⟩
  · unfold updateParameters
    rw [hf]
    simp only [hfun, hp]
  · unfold updateParameters
    rw [hf]
    simp only [hfun, hp]
  · intro t ht
    obtain ⟨name, _, rfl⟩ := submitDeletes_tasks deleteNames t ht
    exact ⟨name, rfl⟩
  · intro bad post hbm hbn
    have hs := submitPuts_stops (oldParamsByName fetched) bad post
      (by rw [hum]; exact hbm) hbn params (by
        intro p hp hu
        rw [hum] at hu
        exact hv p hp hu)
    rw [hfun] at hs
    unfold updateParameters
    rw [hf]
    simp only [hs]

theorem targeted_update_decisions_witness :
    (updateParameters [⟨bytes "/a/x", bytes "String", bytes "1"⟩]
      [⟨bytes "/a/x", bytes "String", bytes "1"⟩, ⟨bytes "/a/y", bytes "String", bytes "2"⟩]
      [bytes "/a/x", bytes "/a/y"] []).lines = [bytes "UNCHANGED /a/x=1"] ∧
    (updateParameters [⟨bytes "/a/x", bytes "String", bytes "1"⟩]
      [⟨bytes "/a/x", bytes "String", bytes "1"⟩, ⟨bytes "/a/y", bytes "String", bytes "2"⟩]
      [bytes "/a/x", bytes "/a/y"] []).tasks =
        [Task.Put ⟨bytes "/a/y", bytes "String", bytes "2"⟩ (bytes "/a/y=2")] ∧
    updateParameters [⟨bytes "/a/x", bytes "String", bytes "1"⟩]
      ([⟨bytes "/a/x", bytes "String", bytes "1"⟩, ⟨bytes "/a/y", bytes "String", bytes "2"⟩] ++
        ⟨bytes "bad:name", bytes "String", bytes "3"⟩ ::
          [⟨bytes "/a/z", bytes "String", bytes "4"⟩])
      [bytes "/a/x", bytes "/a/y"] [bytes "/a/w"] =
        ⟨some (.ErrInvalidName (bytes "bad:name")),
          [Task.Put ⟨bytes "/a/y", bytes "String", bytes "2"⟩ (bytes "/a/y=2")],
          [bytes "UNCHANGED /a/x=1"]⟩ := by
  have h := targeted_update_decisions [⟨bytes "/a/x", bytes "String", bytes "1"⟩]
    [⟨bytes "/a/x", bytes "String", bytes "1"⟩, ⟨bytes "/a/y", bytes "String", bytes "2"⟩]
    [bytes "/a/x", bytes "/a/y"] [bytes "/a/w"] [⟨bytes "/a/x", bytes "String", bytes "1"⟩]
    (by decide) (by decide)
  have h0 := targeted_update_decisions [⟨bytes "/a/x", bytes "String", bytes "1"⟩]
    [⟨bytes "/a/x", bytes "String", bytes "1"⟩, ⟨bytes "/a/y", bytes "String", bytes "2"⟩]
    [bytes "/a/x", bytes "/a/y"] [] [⟨bytes "/a/x", bytes "String", bytes "1"⟩]
    (by decide) (by decide)
  exact ⟨h0.1.trans (by decide), h0.2.1.trans (by decide),
    (h.2.2.2.2.2 ⟨bytes "bad:name", bytes "String", bytes "3"⟩
      [⟨bytes "/a/z", bytes "String", bytes "4"⟩] (by decide) (by decide)).trans (by decide)⟩

/-- C6 (the code at the failing inputs): `ssmenv replace --path /a
--recursive x=1` on a store that holds the seven-segment name
`/a/b/c/d/e/f/g` submits the Put for `/a/x` and then returns `ErrInvalidName`
for the listed name; and `ReplaceParameters` with the desired names `/a/ok`
and `/a/bad:name` has submitted the Put for the first when it returns the
error for the second. -/
theorem replace_submits_before_validation_error :
    (Replace [⟨bytes "/a/b/c/d/e/f/g", bytes "String", bytes "v"⟩] (bytes "/a") true
      [bytes "x=1"]) =
      ⟨some (.ErrInvalidName (bytes "/a/b/c/d/e/f/g")),
       [Task.Put ⟨bytes "/a/x", bytes "String", bytes "1"⟩ (bytes "/a/x=1")], []⟩ ∧
    (ReplaceParameters [] (bytes "/a") true
      [⟨bytes "/a/ok", bytes "String", bytes "1"⟩, ⟨bytes "/a/bad:name", bytes "String", bytes "2"⟩]) =
      ⟨some (.ErrInvalidName (bytes "/a/bad:name")),
       [Task.Put ⟨bytes "/a/ok", bytes "String", bytes "1"⟩ (bytes "/a/ok=1")], []⟩ := by
  decide

/-! ### Idempotence of the targeted update -/

theorem runTasks_cons (svc : Store) (t : Task) (rest : List Task) :
    runTasks svc (t :: rest) = runTasks (t.apply svc) rest := rfl

theorem run_lookup_good (k : GoString) (G : Parameter → Prop) :
    ∀ (order : List Task) (svc : Store),
    (∀ q expr, Task.Put q expr ∈ order → abs q.Name = abs k → G q) →
    (∀ d, Task.Delete d ∈ order → abs d ≠ abs k) →
    ((∃ e, svc.lookup k = some e ∧ G e) ∨ (∃ q expr, Task.Put q expr ∈ order ∧ abs q.Name = abs k)) →
    ∃ e, (runTasks svc order).lookup k = some e ∧ G e := by
  intro order
  induction order with
  | nil =>
    intro svc _ _ h
    rcases h with h | ⟨q, expr, hq, _⟩
    · exact h
    · cases hq
  | cons t rest ih =>
    intro svc hput hdel h
    rw [runTasks_cons]
    apply ih
    · exact fun q expr hq => hput q expr (List.mem_cons_of_mem _ hq)
    · exact fun d hd => hdel d (List.mem_cons_of_mem _ hd)
    · cases t with
      | Put p pexpr =>
        by_cases hp : abs p.Name = abs k
        · left
          refine ⟨p, ?_, hput p pexpr (List.mem_cons_self _ _) hp⟩
          show (svc.putParameter p).lookup k = some p
          rw [lookup_put, if_pos hp]
        · have hl : (Task.apply svc (Task.Put p pexpr)).lookup k = svc.lookup k := by
            show (svc.putParameter p).lookup k = _
            rw [lookup_put, if_neg hp]
          rw [hl]
          rcases h with h | ⟨q, expr, hq, hqk⟩
          · exact Or.inl h
          · right
            rcases List.mem_cons.mp hq with heq | hq
            · cases heq
              exact absurd hqk hp
            · exact ⟨q, expr, hq, hqk⟩
      | Delete d =>
        have hd := hdel d (List.mem_cons_self _ _)
        have hl : (Task.apply svc (Task.Delete d)).lookup k = svc.lookup k := by
          show (svc.deleteParameter d).lookup k = _
          rw [lookup_delete, if_neg hd]
        rw [hl]
        rcases h with h | ⟨q, expr, hq, hqk⟩
        · exact Or.inl h
        · right
          rcases List.mem_cons.mp hq with heq | hq
          · cases heq
          · exact ⟨q, expr, hq, hqk⟩

theorem GetParametersByNames_of_valid (svc : Store) (names : List GoString)
    (h : ∀ n ∈ names, isName n = true) :
    GetParametersByNames svc names = .ok (names.filterMap svc.lookup) := by
  unfold GetParametersByNames GetParametersByNamesTraced
  have hv : names.findSome? validateName = none := by
    rw [List.findSome?_eq_none_iff]
    intro n hn
    simp [validateName, h n hn]
  rw [hv]
  simp only [submitGets_params, fetched_eq]

theorem updateParameters_err_none (svc : Store) (params : List Parameter)
    (names deleteNames : List GoString)
    (h : (updateParameters svc params names deleteNames).err = none) :
    (∀ n ∈ names, isName n = true) ∧
    (submitPuts (oldParamsByName (names.filterMap svc.lookup)) params).err = none ∧
    (submitDeletes deleteNames).err = none ∧
    updateParameters svc params names deleteNames =
      ⟨none, (submitPuts (oldParamsByName (names.filterMap svc.lookup)) params).tasks ++
          (submitDeletes deleteNames).tasks,
        (submitPuts (oldParamsByName (names.filterMap svc.lookup)) params).lines⟩ := by
  unfold updateParameters at h ⊢
  cases hg : GetParametersByNames svc names with
  | error e =>
    rw [hg] at h
    cases h
  | ok fetched =>
    obtain ⟨hfe, hval⟩ := GetParametersByNames_ok svc names fetched hg
    subst hfe
    rw [hg] at h
    simp only at h ⊢
    cases hp : (submitPuts (oldParamsByName (names.filterMap svc.lookup)) params).err with
    | some e =>
      rw [hp] at h
      simp only at h
      rw [hp] at h
      cases h
    | none =>
      rw [hp] at h
      simp only at h ⊢
      exact ⟨hval, trivial, h, by rw [h]⟩

theorem submitPuts_valid_of_err_none (m : GoString → Option Parameter) (params : List Parameter)
    (h : (submitPuts m params).err = none) :
    ∀ p ∈ params, unchanged m p = false → isName p.Name = true := by
  induction params with
  | nil =>
    intro p hp
    cases hp
  | cons a rest ih =>
    unfold submitPuts at h
    rw [log_ok] at h
    simp only at h
    intro p hp hu
    cases hua : unchanged m a
    · rw [hua] at h
      simp only [Bool.false_eq_true, if_false] at h
      cases hn : isName a.Name
      · simp [validateName, hn] at h
      · simp only [validateName, hn, Bool.not_true, Bool.false_eq_true, if_false] at h
        rcases List.mem_cons.mp hp with rfl | hp
        · exact hn
        · exact ih h p hp hu
    · rw [hua] at h
      simp only [if_true] at h
      rcases List.mem_cons.mp hp with rfl | hp
      · rw [hua] at hu
        cases hu
      · exact ih h p hp hu

/-- `ssmenv set` is the targeted update of the parsed parameters, with their
names as the names to fetch. -/
theorem Set_eq_updateParameters (svc : Store) (path : GoString) (exprs : List GoString)
    (params : List Parameter) (hne : exprs ≠ []) (h : setParams path exprs = .ok params) :
    Set svc path exprs = updateParameters svc params (params.map (·.Name)) [] := by
  unfold Set
  have hlen : ¬ exprs.length < 1 := by
    have := List.length_pos.mpr hne
    omega
  rw [if_neg hlen, h]

/-- C5 (as stated, refuted): with the desired list `/x=1, /x=2` on an empty
store the first update succeeds, and the second update with the same list
submits a Put again; likewise with the desired list `x=1, /x=2`, whose two
names are one root-level entry. -/
theorem targeted_update_duplicate_names_not_idempotent :
    (updateParameters [] [⟨bytes "/x", bytes "String", bytes "1"⟩,
      ⟨bytes "/x", bytes "String", bytes "2"⟩] [bytes "/x", bytes "/x"] []).err = none ∧
    (updateParameters
      (runTasks [] (updateParameters [] [⟨bytes "/x", bytes "String", bytes "1"⟩,
        ⟨bytes "/x", bytes "String", bytes "2"⟩] [bytes "/x", bytes "/x"] []).tasks)
      [⟨bytes "/x", bytes "String", bytes "1"⟩, ⟨bytes "/x", bytes "String", bytes "2"⟩]
      [bytes "/x", bytes "/x"] []).tasks =
      [Task.Put ⟨bytes "/x", bytes "String", bytes "1"⟩ (bytes "/x=1")] ∧
    (Set [] [] [bytes "x=1", bytes "/x=2"]).err = none ∧
    (Set (runTasks [] (Set [] [] [bytes "x=1", bytes "/x=2"]).tasks) []
      [bytes "x=1", bytes "/x=2"]).tasks =
      [Task.Put ⟨bytes "x", bytes "String", bytes "1"⟩ (bytes "/x=1")] := by
  decide

/-- C5 (amended): for every desired list in which entries with the same
absolute name have the same type and value, after a targeted update that
reached completion, with its tasks run in any order, the targeted update with
the same list submits no Put and no Delete and prints an `UNCHANGED` line for
every desired entry. -/
theorem targeted_update_idempotent (svc : Store) (params : List Parameter) (order : List Task)
    (herr : (updateParameters svc params (params.map (·.Name)) []).err = none)
    (hperm : order.Perm (updateParameters svc params (params.map (·.Name)) []).tasks)
    (hcons : ∀ p ∈ params, ∀ q ∈ params, abs p.Name = abs q.Name →
      p.Type_ = q.Type_ ∧ p.Value = q.Value) :
    updateParameters (runTasks svc order) params (params.map (·.Name)) [] =
      ⟨none, [], params.map (fun p => bytes "UNCHANGED " ++ logText p)⟩ := by
  obtain ⟨hval, hperr, _, hout⟩ := updateParameters_err_none svc params _ [] herr
  have hv1 := submitPuts_valid_of_err_none _ params hperr
  have hp1 := submitPuts_ok _ params hv1
  rw [hout, hp1] at hperm
  simp only [submitDeletes, List.append_nil] at hperm
  -- every desired entry is stored with its type and value after the first run
  have hstored : ∀ p ∈ params, ∃ e, (runTasks svc order).lookup p.Name = some e ∧
      (e.Type_ = p.Type_ ∧ e.Value = p.Value) := by
    intro p hp
    apply run_lookup_good p.Name (fun e => e.Type_ = p.Type_ ∧ e.Value = p.Value) order svc
    · intro q expr hq hqk
      have hq1 := hperm.mem_iff.mp hq
      rcases List.mem_map.mp hq1 with ⟨q1, hq1m, heq⟩
      cases heq
      exact hcons q (List.mem_filter.mp hq1m).1 p hp hqk
    · intro d hd
      have hd1 := hperm.mem_iff.mp hd
      rcases List.mem_map.mp hd1 with ⟨q1, _, heq⟩
      cases heq
    · cases hu : unchanged (oldParamsByName ((params.map (·.Name)).filterMap svc.lookup)) p
      · right
        refine ⟨p, logText p, hperm.mem_iff.mpr ?_, rfl⟩
        exact List.mem_map.mpr ⟨p, List.mem_filter.mpr ⟨hp, by rw [hu]; rfl⟩, rfl⟩
      · left
        rw [unchanged_eq_matches] at hu
        unfold Matches at hu
        rw [List.any_eq_true] at hu
        obtain ⟨old, hm, hcond⟩ := hu
        simp only [Bool.and_eq_true, beq_iff_eq] at hcond
        refine ⟨old, ?_, hcond.1.2, hcond.2⟩
        rw [← lookup_congr svc old.Name p.Name hcond.1.1]
        exact (mem_fetched svc _ old hm).1
  -- so the second run finds every desired entry unchanged
  have hun : ∀ p ∈ params, unchanged (oldParamsByName
      ((params.map (·.Name)).filterMap (runTasks svc order).lookup)) p = true := by
    intro p hp
    rw [unchanged_eq_matches]
    obtain ⟨e, he, hty, hva⟩ := hstored p hp
    unfold Matches
    rw [List.any_eq_true]
    refine ⟨e, List.mem_filterMap.mpr ⟨p.Name, List.mem_map.mpr ⟨p, hp, rfl⟩, he⟩, ?_⟩
    simp [(lookup_some _ _ _ he).2, hty, hva]
  unfold updateParameters
  rw [GetParametersByNames_of_valid _ _ hval]
  have hp2 := submitPuts_ok (oldParamsByName
    ((params.map (·.Name)).filterMap (runTasks svc order).lookup)) params
    (fun p hp hu => by rw [hun p hp] at hu; cases hu)
  simp only [hp2, submitDeletes, List.append_nil]
  have hf1 : params.filter (fun p => !unchanged (oldParamsByName
      ((params.map (·.Name)).filterMap (runTasks svc order).lookup)) p) = [] := by
    rw [List.filter_eq_nil_iff]
    intro p hp
    rw [hun p hp]
    simp
  have hf2 : params.filter (unchanged (oldParamsByName
      ((params.map (·.Name)).filterMap (runTasks svc order).lookup))) = params := by
    rw [List.filter_eq_self]
    exact hun
  rw [hf1, hf2]
  rfl

theorem targeted_update_idempotent_witness :
    updateParameters
      (runTasks [⟨bytes "/a/x", bytes "String", bytes "1"⟩]
        [Task.Put ⟨bytes "/a/y", bytes "String", bytes "2"⟩ (bytes "/a/y=2")])
      [⟨bytes "/a/x", bytes "String", bytes "1"⟩, ⟨bytes "/a/y", bytes "String", bytes "2"⟩]
      [bytes "/a/x", bytes "/a/y"] [] =
      ⟨none, [], [bytes "UNCHANGED /a/x=1", bytes "UNCHANGED /a/y=2"]⟩ :=
  (targeted_update_idempotent [⟨bytes "/a/x", bytes "String", bytes "1"⟩]
    [⟨bytes "/a/x", bytes "String", bytes "1"⟩, ⟨bytes "/a/y", bytes "String", bytes "2"⟩]
    [Task.Put ⟨bytes "/a/y", bytes "String", bytes "2"⟩ (bytes "/a/y=2")]
    (by decide) (by decide) (by decide)).trans (by decide)

/-! ### Path replacement -/

theorem inScope_congr (path : GoString) (recursive : Bool) (a b : GoString)
    (h : abs a = abs b) : inScope path recursive a = inScope path recursive b := by
  unfold inScope
  rw [h]

theorem run_present (k : GoString) : ∀ (order : List Task) (svc : Store),
    (∀ q expr d, Task.Put q expr ∈ order → Task.Delete d ∈ order → abs q.Name ≠ abs d) →
    ((∃ e, (runTasks svc order).lookup k = some e) ↔
      ((∃ q expr, Task.Put q expr ∈ order ∧ abs q.Name = abs k) ∨
       ((∃ e, svc.lookup k = some e) ∧ ¬ ∃ d, Task.Delete d ∈ order ∧ abs d = abs k))) := by
  intro order
  induction order with
  | nil =>
    intro svc _
    simp [runTasks]
  | cons t rest ih =>
    intro svc hdis
    rw [runTasks_cons, ih (t.apply svc) (fun q expr d hq hd =>
      hdis q expr d (List.mem_cons_of_mem _ hq) (List.mem_cons_of_mem _ hd))]
    cases t with
    | Put p pexpr =>
      have hl : (Task.apply svc (Task.Put p pexpr)).lookup k =
          if abs p.Name = abs k then some p else svc.lookup k := lookup_put svc p k
      rw [hl]
      constructor
      · rintro (⟨q, expr, hq, hqk⟩ | ⟨⟨e, he⟩, hnd⟩)
        · exact Or.inl ⟨q, expr, List.mem_cons_of_mem _ hq, hqk⟩
        · by_cases hp : abs p.Name = abs k
          · exact Or.inl ⟨p, pexpr, List.mem_cons_self _ _, hp⟩
          · rw [if_neg hp] at he
            refine Or.inr ⟨⟨e, he⟩, ?_⟩
            rintro ⟨d, hd, hdk⟩
            rcases List.mem_cons.mp hd with heq | hd
            · cases heq
            · exact hnd ⟨d, hd, hdk⟩
      · rintro (⟨q, expr, hq, hqk⟩ | ⟨⟨e, he⟩, hnd⟩)
        · rcases List.mem_cons.mp hq with heq | hq
          · cases heq
            refine Or.inr ⟨⟨p, by rw [if_pos hqk]⟩, ?_⟩
            rintro ⟨d, hd, hdk⟩
            exact hdis p pexpr d (List.mem_cons_self _ _) (List.mem_cons_of_mem _ hd)
              (hqk.trans hdk.symm)
          · exact Or.inl ⟨q, expr, hq, hqk⟩
        · by_cases hp : abs p.Name = abs k
          · refine Or.inr ⟨⟨p, by rw [if_pos hp]⟩, ?_⟩
            rintro ⟨d, hd, hdk⟩
            exact hnd ⟨d, List.mem_cons_of_mem _ hd, hdk⟩
          · refine Or.inr ⟨⟨e, by rw [if_neg hp]; exact he⟩, ?_⟩
            rintro ⟨d, hd, hdk⟩
            exact hnd ⟨d, List.mem_cons_of_mem _ hd, hdk⟩
    | Delete d0 =>
      have hl : (Task.apply svc (Task.Delete d0)).lookup k =
          if abs d0 = abs k then none else svc.lookup k := lookup_delete svc d0 k
      rw [hl]
      constructor
      · rintro (⟨q, expr, hq, hqk⟩ | ⟨⟨e, he⟩, hnd⟩)
        · exact Or.inl ⟨q, expr, List.mem_cons_of_mem _ hq, hqk⟩
        · by_cases hd0 : abs d0 = abs k
          · rw [if_pos hd0] at he
            cases he
          · rw [if_neg hd0] at he
            refine Or.inr ⟨⟨e, he⟩, ?_⟩
            rintro ⟨d, hd, hdk⟩
            rcases List.mem_cons.mp hd with heq | hd
            · cases heq
              exact hd0 hdk
            · exact hnd ⟨d, hd, hdk⟩
      · rintro (⟨q, expr, hq, hqk⟩ | ⟨⟨e, he⟩, hnd⟩)
        · rcases List.mem_cons.mp hq with heq | hq
          · cases heq
          · exact Or.inl ⟨q, expr, hq, hqk⟩
        · have hd0 : ¬ abs d0 = abs k := fun hh => hnd ⟨d0, List.mem_cons_self _ _, hh⟩
          refine Or.inr ⟨⟨e, by rw [if_neg hd0]; exact he⟩, ?_⟩
          rintro ⟨d, hd, hdk⟩
          exact hnd ⟨d, List.mem_cons_of_mem _ hd, hdk⟩

theorem describeParameters_ok (svc : Store) (path : GoString) (recursive : Bool)
    (oldMetas : List GoString) (hpath : path ≠ [])
    (h : describeParameters svc [path] recursive = .ok oldMetas) :
    ∀ n, n ∈ oldMetas ↔ ∃ e ∈ svc, e.Name = n ∧ inScope path recursive e.Name = true := by
  unfold describeParameters at h
  simp only [List.map_cons, List.map_nil, hpath, if_false] at h
  split at h
  · cases h
  · simp only [Except.ok.injEq] at h
    subst h
    intro n
    simp only [Store.describe, List.any_cons, List.any_nil, Bool.or_false, List.mem_map,
      List.mem_filter]
    constructor
    · rintro ⟨e, ⟨he, hs⟩, rfl⟩
      exact ⟨e, he, rfl, hs⟩
    · rintro ⟨e, he, rfl, hs⟩
      exact ⟨e, ⟨he, hs⟩, rfl⟩

theorem replaceParameters_scope (svc : Store) (path : GoString) (recursive : Bool)
    (params : List Parameter) (order : List Task) (hpath : path ≠ [])
    (herr : (ReplaceParameters svc path recursive params).err = none)
    (hperm : order.Perm (ReplaceParameters svc path recursive params).tasks)
    (hscope : ∀ p ∈ params, inScope path recursive p.Name = true) :
    ∀ k, (∃ e ∈ runTasks svc order, abs e.Name = k ∧ inScope path recursive e.Name = true) ↔
      (∃ p ∈ params, abs p.Name = k) := by
  unfold ReplaceParameters at herr hperm
  cases hdesc : describeParameters svc [path] recursive with
  | error e =>
    rw [hdesc] at herr
    cases herr
  | ok oldMetas =>
    rw [hdesc] at herr hperm
    simp only at herr hperm
    have hold := describeParameters_ok svc path recursive oldMetas hpath hdesc
    obtain ⟨_, hperr, hderr, hout⟩ := updateParameters_err_none svc params _ _ herr
    have hv1 := submitPuts_valid_of_err_none _ params hperr
    have hp1 := submitPuts_ok _ params hv1
    have hd1 := submitDeletes_ok _ hderr
    rw [hout, hp1, hd1] at hperm
    simp only at hperm
    generalize hnames : oldMetas.filter
      (fun name => params.any (fun param => abs param.Name == abs name)) = names at hperm hp1 hv1
    -- the tasks in the order
    have hput : ∀ q expr, Task.Put q expr ∈ order → q ∈ params := by
      intro q expr hq
      rcases List.mem_append.mp (hperm.mem_iff.mp hq) with h | h
      · rcases List.mem_map.mp h with ⟨q1, hq1, heq⟩
        cases heq
        exact (List.mem_filter.mp hq1).1
      · rcases List.mem_map.mp h with ⟨d, _, heq⟩
        cases heq
    have hdel : ∀ d, Task.Delete d ∈ order ↔
        d ∈ oldMetas ∧ ∀ p ∈ params, abs p.Name ≠ abs d := by
      intro d
      rw [hperm.mem_iff, List.mem_append]
      constructor
      · rintro (h | h)
        · rcases List.mem_map.mp h with ⟨q1, _, heq⟩
          cases heq
        · rcases List.mem_map.mp h with ⟨d1, hd1m, heq⟩
          cases heq
          obtain ⟨hm, hn⟩ := List.mem_filter.mp hd1m
          refine ⟨hm, ?_⟩
          intro p hp hpd
          simp only [Bool.not_eq_true', List.any_eq_false, beq_iff_eq] at hn
          exact hn p hp hpd
      · rintro ⟨hm, hn⟩
        right
        refine List.mem_map.mpr ⟨d, List.mem_filter.mpr ⟨hm, ?_⟩, rfl⟩
        simp only [Bool.not_eq_true', List.any_eq_false, beq_iff_eq]
        exact fun p hp => hn p hp
    have hdis : ∀ q expr d, Task.Put q expr ∈ order → Task.Delete d ∈ order →
        abs q.Name ≠ abs d :=
      fun q expr d hq hd => ((hdel d).mp hd).2 q (hput q expr hq)
    intro k
    constructor
    · rintro ⟨e, he, rfl, hs⟩
      obtain ⟨e1, he1⟩ := (present_iff_lookup _ e.Name).mp ⟨e, he, rfl⟩
      rcases (run_present e.Name order svc hdis).mp ⟨e1, he1⟩ with
        ⟨q, expr, hq, hqk⟩ | ⟨⟨e0, he0⟩, hnd⟩
      · exact ⟨q, hput q expr hq, hqk⟩
      · obtain ⟨hm0, hk0⟩ := lookup_some svc e.Name e0 he0
        have hs0 : inScope path recursive e0.Name = true := by
          rw [inScope_congr path recursive _ _ hk0]
          exact hs
        by_contra hno
        apply hnd
        refine ⟨e0.Name, (hdel e0.Name).mpr ⟨(hold e0.Name).mpr ⟨e0, hm0, rfl, hs0⟩, ?_⟩, hk0⟩
        intro p hp hpk
        exact hno ⟨p, hp, hpk.trans hk0⟩
    · rintro ⟨p, hp, rfl⟩
      have hfin : ∃ e, (runTasks svc order).lookup p.Name = some e := by
        rw [run_present p.Name order svc hdis]
        cases hu : unchanged (oldParamsByName (names.filterMap svc.lookup)) p
        · left
          refine ⟨p, logText p, hperm.mem_iff.mpr (List.mem_append_left _ ?_), rfl⟩
          exact List.mem_map.mpr ⟨p, List.mem_filter.mpr ⟨hp, by rw [hu]; rfl⟩, rfl⟩
        · right
          rw [unchanged_eq_matches] at hu
          unfold Matches at hu
          rw [List.any_eq_true] at hu
          obtain ⟨old, hm, hcond⟩ := hu
          simp only [Bool.and_eq_true, beq_iff_eq] at hcond
          refine ⟨⟨old, ?_⟩, ?_⟩
          · rw [← lookup_congr svc old.Name p.Name hcond.1.1]
            exact (mem_fetched svc _ old hm).1
          · rintro ⟨d, hd, hdk⟩
            exact ((hdel d).mp hd).2 p hp hdk.symm
      obtain ⟨e, he⟩ := hfin
      obtain ⟨hm, hk⟩ := lookup_some _ _ _ he
      exact ⟨e, hm, hk, by rw [inScope_congr path recursive _ _ hk]; exact hscope p hp⟩


theorem replaceParams_ok (path : GoString) (recursive : Bool) :
    ∀ (exprs : List GoString) (params : List Parameter),
    replaceParams path recursive exprs = .ok params →
    (∀ p ∈ params, DesiredName path exprs p.Name) ∧
    (∀ name, DesiredName path exprs name → ∃ p ∈ params, p.Name = name) := by
  intro exprs
  induction exprs with
  | nil =>
    intro params h
    simp only [replaceParams, Except.ok.injEq] at h
    subst h
    refine ⟨fun p hp => (by cases hp), ?_⟩
    rintro name ⟨expr, hm, _⟩
    cases hm
  | cons expr rest ih =>
    intro params h
    unfold replaceParams at h
    cases hparse : parseExpression expr with
    | error err => rw [hparse] at h; cases h
    | ok d =>
      rw [hparse] at h
      simp only at h
      split at h
      · cases h
      · cases hpar : d.parameter path with
        | error err => rw [hpar] at h; cases h
        | ok param =>
          rw [hpar] at h
          simp only at h
          cases hrest : replaceParams path recursive rest with
          | error err => rw [hrest] at h; cases h
          | ok ps =>
            rw [hrest] at h
            simp only [Except.ok.injEq] at h
            subst h
            obtain ⟨ih1, ih2⟩ := ih ps hrest
            have hjoin : join path d.Name = .ok param.Name := by
              unfold expression.parameter at hpar
              cases hj : join path d.Name with
              | error err => rw [hj] at hpar; cases hpar
              | ok name =>
                rw [hj] at hpar
                simp only [Except.ok.injEq] at hpar
                rw [← hpar]
            constructor
            · intro p hp
              rcases List.mem_cons.mp hp with rfl | hp
              · exact ⟨expr, List.mem_cons_self _ _, d, hparse, hjoin⟩
              · obtain ⟨e1, hm, d1, h1, h2⟩ := ih1 p hp
                exact ⟨e1, List.mem_cons_of_mem _ hm, d1, h1, h2⟩
            · rintro name ⟨e1, hm, d1, h1, h2⟩
              rcases List.mem_cons.mp hm with rfl | hm
              · rw [hparse] at h1
                cases h1
                rw [hjoin] at h2
                cases h2
                exact ⟨param, List.mem_cons_self _ _, rfl⟩
              · obtain ⟨p, hp, hn⟩ := ih2 name ⟨e1, hm, d1, h1, h2⟩
                exact ⟨p, List.mem_cons_of_mem _ hp, hn⟩

theorem run_lookup_frame (k : GoString) : ∀ (order : List Task) (svc : Store),
    (∀ q expr, Task.Put q expr ∈ order → abs q.Name ≠ abs k) →
    (∀ d, Task.Delete d ∈ order → abs d ≠ abs k) →
    (runTasks svc order).lookup k = svc.lookup k := by
  intro order
  induction order with
  | nil =>
    intro svc _ _
    rfl
  | cons t rest ih =>
    intro svc hput hdel
    rw [runTasks_cons, ih (t.apply svc)
      (fun q expr hq => hput q expr (List.mem_cons_of_mem _ hq))
      (fun d hd => hdel d (List.mem_cons_of_mem _ hd))]
    cases t with
    | Put p pexpr =>
      have hl : (Task.apply svc (Task.Put p pexpr)).lookup k =
          if abs p.Name = abs k then some p else svc.lookup k := lookup_put svc p k
      rw [hl, if_neg (hput p pexpr (List.mem_cons_self _ _))]
    | Delete d0 =>
      have hl : (Task.apply svc (Task.Delete d0)).lookup k =
          if abs d0 = abs k then none else svc.lookup k := lookup_delete svc d0 k
      rw [hl, if_neg (hdel d0 (List.mem_cons_self _ _))]

theorem submitPuts_tasks (m : GoString → Option Parameter) (params : List Parameter) :
    ∀ t ∈ (submitPuts m params).tasks, ∃ p ∈ params, ∃ expr, t = Task.Put p expr := by
  induction params with
  | nil =>
    intro t ht
    cases ht
  | cons p rest ih =>
    intro t ht
    unfold submitPuts at ht
    rw [log_ok] at ht
    simp only at ht
    split at ht
    · obtain ⟨q, hq, expr, rfl⟩ := ih t ht
      exact ⟨q, List.mem_cons_of_mem _ hq, expr, rfl⟩
    · split at ht
      · cases ht
      · rcases List.mem_cons.mp ht with rfl | ht
        · exact ⟨p, List.mem_cons_self _ _, _, rfl⟩
        · obtain ⟨q, hq, expr, rfl⟩ := ih t ht
          exact ⟨q, List.mem_cons_of_mem _ hq, expr, rfl⟩

theorem updateParameters_tasks (svc : Store) (params : List Parameter)
    (names deleteNames : List GoString) :
    ∀ t ∈ (updateParameters svc params names deleteNames).tasks,
      (∃ p ∈ params, ∃ expr, t = Task.Put p expr) ∨ (∃ d ∈ deleteNames, t = Task.Delete d) := by
  intro t ht
  unfold updateParameters at ht
  cases hg : GetParametersByNames svc names with
  | error err =>
    rw [hg] at ht
    cases ht
  | ok oldParams =>
    rw [hg] at ht
    simp only at ht
    split at ht
    · exact Or.inl (submitPuts_tasks _ params t ht)
    · rcases List.mem_append.mp ht with h | h
      · exact Or.inl (submitPuts_tasks _ params t h)
      · exact Or.inr (submitDeletes_tasks deleteNames t h)

theorem replaceParameters_tasks (svc : Store) (path : GoString) (recursive : Bool)
    (params : List Parameter) (hpath : path ≠ []) :
    ∀ t ∈ (ReplaceParameters svc path recursive params).tasks,
      (∃ p ∈ params, ∃ expr, t = Task.Put p expr) ∨
      (∃ d, t = Task.Delete d ∧ inScope path recursive d = true ∧ ∃ e ∈ svc, e.Name = d) := by
  intro t ht
  unfold ReplaceParameters at ht
  cases hdesc : describeParameters svc [path] recursive with
  | error e =>
    rw [hdesc] at ht
    cases ht
  | ok oldMetas =>
    rw [hdesc] at ht
    simp only at ht
    have hold := describeParameters_ok svc path recursive oldMetas hpath hdesc
    rcases updateParameters_tasks svc params _ _ t ht with h | ⟨d, hd, rfl⟩
    · exact Or.inl h
    · obtain ⟨e, he, hn, hs⟩ := (hold d).mp (List.mem_filter.mp hd).1
      exact Or.inr ⟨d, rfl, hn ▸ hs, e, he, hn⟩

theorem replaceParameters_frame (svc : Store) (path : GoString) (recursive : Bool)
    (params : List Parameter) (order : List Task) (hpath : path ≠ [])
    (hperm : order.Perm (ReplaceParameters svc path recursive params).tasks)
    (hscope : ∀ p ∈ params, inScope path recursive p.Name = true) :
    ∀ k, inScope path recursive k = false → (runTasks svc order).lookup k = svc.lookup k := by
  intro k hk
  have hne : ∀ n, inScope path recursive n = true → abs n ≠ abs k := by
    intro n hn heq
    rw [inScope_congr path recursive n k heq, hk] at hn
    cases hn
  apply run_lookup_frame k order svc
  · intro q expr hq
    rcases replaceParameters_tasks svc path recursive params hpath _ (hperm.mem_iff.mp hq) with
      ⟨p, hp, e1, heq⟩ | ⟨d, heq, _⟩
    · cases heq
      exact hne _ (hscope q hp)
    · cases heq
  · intro d hd
    rcases replaceParameters_tasks svc path recursive params hpath _ (hperm.mem_iff.mp hd) with
      ⟨p, hp, e1, heq⟩ | ⟨d1, heq, hs, _⟩
    · cases heq
    · cases heq
      exact hne _ hs

/-- C4 (as stated, refuted): after the replacement of `ExampleCLI_Run_replace`
(path `/rpl`, not recursive, desired `foo` and `qux`) the store still holds
`/rpl/baz/foo`, which lies in the subtree under `/rpl` and is not a desired
name. -/
theorem replace_keeps_deeper_entries :
    (Replace
      [⟨bytes "/rpl/foo", bytes "String", bytes "v1"⟩, ⟨bytes "/rpl/bar", bytes "String", bytes "v2"⟩,
       ⟨bytes "/rpl/baz/foo", bytes "String", bytes "v3"⟩]
      (bytes "/rpl") false [bytes "foo=n1", bytes "qux=n2"]).err = none ∧
    runTasks
      [⟨bytes "/rpl/foo", bytes "String", bytes "v1"⟩, ⟨bytes "/rpl/bar", bytes "String", bytes "v2"⟩,
       ⟨bytes "/rpl/baz/foo", bytes "String", bytes "v3"⟩]
      (Replace
        [⟨bytes "/rpl/foo", bytes "String", bytes "v1"⟩, ⟨bytes "/rpl/bar", bytes "String", bytes "v2"⟩,
         ⟨bytes "/rpl/baz/foo", bytes "String", bytes "v3"⟩]
        (bytes "/rpl") false [bytes "foo=n1", bytes "qux=n2"]).tasks =
      [⟨bytes "/rpl/qux", bytes "String", bytes "n2"⟩, ⟨bytes "/rpl/foo", bytes "String", bytes "n1"⟩,
       ⟨bytes "/rpl/baz/foo", bytes "String", bytes "v3"⟩] ∧
    inScope (bytes "/rpl") true (bytes "/rpl/baz/foo") = true ∧
    join (bytes "/rpl") (bytes "foo") = .ok (bytes "/rpl/foo") ∧
    join (bytes "/rpl") (bytes "qux") = .ok (bytes "/rpl/qux") := by
  decide

/-- C4 (amended): after a path replacement that reached completion, with its
tasks run in any order, and with every desired name `join(path, d.name)`
within the listing scope of the path (all descendants when recursive, direct
children only otherwise), the names stored within that scope are exactly the
desired names.  The listing holds exactly the names of the stored entries
within the scope, every Delete submitted is for a listed name, and every
name outside the scope (under the path or not) has the entry after the
replacement that it had before, or none as before: entries outside the scope
are not listed, not deleted and not written. -/
theorem replace_completeness (svc : Store) (path : GoString) (recursive : Bool)
    (exprs : List GoString) (order : List Task)
    (herr : (Replace svc path recursive exprs).err = none)
    (hperm : order.Perm (Replace svc path recursive exprs).tasks)
    (hscope : ∀ name, DesiredName path exprs name → inScope path recursive name = true) :
    (∀ k, (∃ e ∈ runTasks svc order, abs e.Name = k ∧ inScope path recursive e.Name = true) ↔
      (∃ name, DesiredName path exprs name ∧ abs name = k)) ∧
    (∀ k, inScope path recursive k = false → (runTasks svc order).lookup k = svc.lookup k) ∧
    (∃ oldMetas, describeParameters svc [path] recursive = .ok oldMetas ∧
      ∀ n, n ∈ oldMetas ↔ ∃ e ∈ svc, e.Name = n ∧ inScope path recursive e.Name = true) ∧
    (∀ d, Task.Delete d ∈ order →
      inScope path recursive d = true ∧ ∃ e ∈ svc, e.Name = d) := by
  unfold Replace at herr hperm
  by_cases hpath : path = []
  · rw [if_pos hpath] at herr
    cases herr
  · rw [if_neg hpath] at herr hperm
    by_cases hlen : exprs.length < 1
    · rw [if_pos hlen] at herr
      cases herr
    · rw [if_neg hlen] at herr hperm
      cases hrp : replaceParams path recursive exprs with
      | error err =>
        rw [hrp] at herr
        cases herr
      | ok params =>
        rw [hrp] at herr hperm
        simp only at herr hperm
        obtain ⟨h1, h2⟩ := replaceParams_ok path recursive exprs params hrp
        have hmain := replaceParameters_scope svc path recursive params order hpath herr hperm
          (fun p hp => hscope p.Name (h1 p hp))
        refine ⟨?_, ?_, ?_, ?_⟩
        · intro k
          rw [hmain k]
          constructor
          · rintro ⟨p, hp, hk⟩
            exact ⟨p.Name, h1 p hp, hk⟩
          · rintro ⟨name, hd, hk⟩
            obtain ⟨p, hp, hn⟩ := h2 name hd
            exact ⟨p, hp, by rw [hn]; exact hk⟩
        · exact replaceParameters_frame svc path recursive params order hpath hperm
            (fun p hp => hscope p.Name (h1 p hp))
        · cases hdesc : describeParameters svc [path] recursive with
          | error e =>
            unfold ReplaceParameters at herr
            rw [hdesc] at herr
            cases herr
          | ok oldMetas =>
            exact ⟨oldMetas, rfl, describeParameters_ok svc path recursive oldMetas hpath hdesc⟩
        · intro d hd
          rcases replaceParameters_tasks svc path recursive params hpath _
            (hperm.mem_iff.mp hd) with ⟨p, _, e1, heq⟩ | ⟨d1, heq, hs, he⟩
          · cases heq
          · cases heq
            exact ⟨hs, he⟩

theorem replace_completeness_witness :
    ((∃ e ∈ runTasks [⟨bytes "/a/x", bytes "String", bytes "1"⟩, ⟨bytes "/a/b/y", bytes "String", bytes "2"⟩]
        [Task.Delete (bytes "/a/x"), Task.Put ⟨bytes "/a/z", bytes "String", bytes "3"⟩ (bytes "/a/z=3")],
        abs e.Name = bytes "/a/x" ∧ inScope (bytes "/a") false e.Name = true) ↔
      (∃ name, DesiredName (bytes "/a") [bytes "z=3"] name ∧ abs name = bytes "/a/x")) ∧
    Store.lookup (runTasks
        [⟨bytes "/a/x", bytes "String", bytes "1"⟩, ⟨bytes "/a/b/y", bytes "String", bytes "2"⟩]
        [Task.Delete (bytes "/a/x"), Task.Put ⟨bytes "/a/z", bytes "String", bytes "3"⟩ (bytes "/a/z=3")])
        (bytes "/a/b/y") =
      Store.lookup
        [⟨bytes "/a/x", bytes "String", bytes "1"⟩, ⟨bytes "/a/b/y", bytes "String", bytes "2"⟩]
        (bytes "/a/b/y") := by
  have h := replace_completeness
    [⟨bytes "/a/x", bytes "String", bytes "1"⟩, ⟨bytes "/a/b/y", bytes "String", bytes "2"⟩]
    (bytes "/a") false [bytes "z=3"]
    [Task.Delete (bytes "/a/x"), Task.Put ⟨bytes "/a/z", bytes "String", bytes "3"⟩ (bytes "/a/z=3")]
    (by decide) (by decide)
    (by
      rintro name ⟨expr, hm, d, hparse, hjoin⟩
      simp only [List.mem_singleton] at hm
      subst hm
      have hp : parseExpression (bytes "z=3") = .ok ⟨bytes "z", bytes "3", false⟩ := by decide
      rw [hp] at hparse
      cases hparse
      have hj : join (bytes "/a") (bytes "z") = .ok (bytes "/a/z") := by decide
      rw [hj] at hjoin
      cases hjoin
      decide)
  exact ⟨h.1 (bytes "/a/x"), h.2.1 (bytes "/a/b/y") (by decide)⟩

/-! ### `join` -/

theorem validateName_of_isName (name : GoString) (h : isName name = true) :
    validateName name = none := by
  simp [validateName, h]

theorem validateName_of_not_isName (name : GoString) (h : isName name = false) :
    validateName name = some (.ErrInvalidName name) := by
  simp [validateName, h]

theorem validatePath_of_isPath (path : GoString) (h : isPath path = true) :
    validatePath path = none := by
  simp [validatePath, h]

theorem validatePath_of_not_isPath (path : GoString) (h : isPath path = false) :
    validatePath path = some (.ErrInvalidPath path) := by
  simp [validatePath, h]

/-- C11 (as stated, refuted): with an empty path `join` accepts the name
`bar`, which does not begin with `/`, and returns it unchanged (as
`ssmenv set bar=v1` in `ExampleCLI_Run_setRoot` relies on). -/
theorem join_empty_path_bare_name :
    join [] (bytes "bar") = .ok (bytes "bar") ∧ hasPrefix (bytes "bar") [0x2F] = false := by
  decide

/-- C11 (amended): with an empty path, `join` succeeds exactly when the name
satisfies `isName` (a `/` followed by 1 to 6 segments, or a single bare
segment, outside the reserved prefixes), and then returns the name unchanged;
for every other name it fails with `ErrInvalidName` carrying the name. -/
theorem join_empty_path (name : GoString) :
    (isName name = true → join [] name = .ok name) ∧
    (isName name = false → join [] name = .error (.ErrInvalidName name)) ∧
    ((∃ r, join [] name = .ok r) ↔ isName name = true) := by
  have h1 : isName name = true → join [] name = .ok name := by
    intro h
    simp [join, validateName_of_isName name h]
  have h2 : isName name = false → join [] name = .error (.ErrInvalidName name) := by
    intro h
    simp [join, validateName_of_not_isName name h]
  refine ⟨h1, h2, ?_⟩
  constructor
  · rintro ⟨r, hr⟩
    cases h : isName name
    · rw [h2 h] at hr
      cases hr
    · rfl
  · intro h
    exact ⟨name, h1 h⟩

theorem join_empty_path_witness :
    join [] (bytes "/foo/bar") = .ok (bytes "/foo/bar") ∧
      join [] (bytes "/foo:bar") = .error (.ErrInvalidName (bytes "/foo:bar")) :=
  ⟨(join_empty_path (bytes "/foo/bar")).1 (by decide),
    (join_empty_path (bytes "/foo:bar")).2.1 (by decide)⟩

/-- C12: with a non-empty path, `join` fails with `ErrInvalidPath` when the
path is not a valid path; otherwise with `ErrAbsNameWithPath` carrying path
and name when the name is not a relative name; otherwise with
`ErrInvalidName` when `path.Join(path, name)` is not a valid name (seven
segments in total, or a reserved prefix under the root); and a result of
`join` is `path.Join(path, name)` and satisfies `isName`. -/
theorem join_with_path (path name : GoString) (hpath : path ≠ []) :
    (isPath path = false → join path name = .error (.ErrInvalidPath path)) ∧
    (isPath path = true → isRel name = false →
      join path name = .error (.ErrAbsNameWithPath path name)) ∧
    (isPath path = true → isRel name = true → isName (pathJoin path name) = false →
      join path name = .error (.ErrInvalidName (pathJoin path name))) ∧
    (∀ r, join path name = .ok r → r = pathJoin path name ∧ isName r = true) ∧
    join (bytes "/x1") (bytes "/x2") = .error (.ErrAbsNameWithPath (bytes "/x1") (bytes "/x2")) ∧
    join (bytes "/a/b/c/d/e") (bytes "f/g") = .error (.ErrInvalidName (bytes "/a/b/c/d/e/f/g")) ∧
    join (bytes "/") (bytes "aws") = .error (.ErrInvalidName (bytes "/aws")) := by
  refine ⟨?_, ?_, ?_, ?_, by decide, by decide, by decide⟩
  · intro h
    simp [join, hpath, validatePath_of_not_isPath path h]
  · intro h1 h2
    simp [join, hpath, validatePath_of_isPath path h1, h2]
  · intro h1 h2 h3
    simp [join, hpath, validatePath_of_isPath path h1, h2, validateName_of_not_isName _ h3]
  · intro r hr
    unfold join at hr
    rw [if_pos hpath] at hr
    cases hp : isPath path
    · rw [validatePath_of_not_isPath path hp] at hr
      cases hr
    · rw [validatePath_of_isPath path hp] at hr
      simp only at hr
      cases hrel : isRel name
      · simp [hrel] at hr
      · simp only [hrel, Bool.not_true, Bool.false_eq_true, if_false] at hr
        cases hn : isName (pathJoin path name)
        · rw [validateName_of_not_isName _ hn] at hr
          cases hr
        · rw [validateName_of_isName _ hn] at hr
          simp only [Except.ok.injEq] at hr
          subst hr
          exact ⟨rfl, hn⟩

theorem join_with_path_witness :
    join (bytes "/a") (bytes "x/y") = .ok (bytes "/a/x/y") ∧ isName (bytes "/a/x/y") = true :=
  ⟨by decide, ((join_with_path (bytes "/a") (bytes "x/y") (by decide)).2.2.2.1
    (bytes "/a/x/y") (by decide)).2⟩

/-! ### Parsing an expression -/

theorem takeWhile_ne_append (l r : GoString) (c : Nat) (h : c ∉ l) :
    (l ++ c :: r).takeWhile (· != c) = l ∧ (l ++ c :: r).dropWhile (· != c) = c :: r := by
  induction l with
  | nil => simp
  | cons a l ih =>
    have ha : a ≠ c := fun hh => h (by simp [hh])
    have hl : c ∉ l := fun hh => h (List.mem_cons_of_mem _ hh)
    obtain ⟨ih1, ih2⟩ := ih hl
    simp only [List.cons_append]
    rw [List.takeWhile_cons, List.dropWhile_cons]
    simp [ha, ih1, ih2]

theorem unescape_not_quoted (v : GoString) (h : ¬ QuoteWrapped v) : unescape v = .ok v := by
  have hq : isQuoted v = false := by
    cases hq : isQuoted v
    · rfl
    · exact absurd ((isQuoted_iff v).mp hq) h
  simp [unescape, hq]

theorem hasSuffix_mark_iff (l : GoString) :
    hasSuffix l secureMark = true ↔ l.getLast? = some 0x40 := by
  unfold hasSuffix secureMark
  rw [ List.isSuffixOf_iff_suffix]
  constructor
  · rintro ⟨t, rfl⟩
    simp
  · intro h
    rcases List.getLast?_eq_some_iff.mp h with ⟨t, rfl⟩
    exact ⟨t, rfl⟩

theorem parseExpression_split (l r : GoString) (hl : 0x3D ∉ l) :
    parseExpression (l ++ 0x3D :: r) =
      match unescape r with
      | .error err => .error err
      | .ok value =>
        .ok { Name := if hasSuffix l secureMark then l.dropLast else l, Value := value,
              Secure := hasSuffix l secureMark } := by
  obtain ⟨h1, h2⟩ := takeWhile_ne_append l r 0x3D hl
  have hc : (l ++ 0x3D :: r).contains 0x3D = true := by simp
  unfold parseExpression
  simp only [hc, Bool.not_true, Bool.false_eq_true, if_false, h1, h2, List.drop_succ_cons,
    List.drop_zero]

/-- C13: for an input `l=r` in which `l` contains no `=` and `r` is not
wrapped in double quotes, `parseExpression` succeeds with the value `r`
itself, `secure` set exactly when `l` ends with `@`, and as name `l` without
that one trailing `@` when secure and `l` itself otherwise. -/
theorem parseExpression_verbatim (l r : GoString) (hl : 0x3D ∉ l) (hr : ¬ QuoteWrapped r) :
    ∃ e, parseExpression (l ++ 0x3D :: r) = .ok e ∧ e.Value = r ∧
      (e.Secure = true ↔ l.getLast? = some 0x40) ∧
      (e.Secure = true → l = e.Name ++ [0x40]) ∧
      (e.Secure = false → e.Name = l) := by
  rw [parseExpression_split l r hl, unescape_not_quoted r hr]
  refine ⟨_, rfl, rfl, hasSuffix_mark_iff l, ?_, ?_⟩
  · intro hs
    simp only at hs
    simp only [hs, if_true]
    rcases List.getLast?_eq_some_iff.mp ((hasSuffix_mark_iff l).mp hs) with ⟨t, rfl⟩
    simp
  · intro hs
    simp only at hs
    simp [hs]

theorem parseExpression_verbatim_witness :
    ∃ e, parseExpression (bytes "pw@=x\"x=y") = .ok e ∧ e.Value = bytes "x\"x=y" ∧
      (e.Secure = true ↔ (bytes "pw@").getLast? = some 0x40) ∧
      (e.Secure = true → bytes "pw@" = e.Name ++ [0x40]) ∧
      (e.Secure = false → e.Name = bytes "pw@") :=
  parseExpression_verbatim (bytes "pw@") (bytes "x\"x=y") (by decide)
    (by unfold QuoteWrapped; decide)

/-! ### Rendering relative to a path -/

/-- C15: for a non-empty path, with `dir` the path followed by `/` unless it
already ends with one, `serialize(path)` fails with `ErrPathMismatch`
carrying the path and the absolute name exactly when the absolute name does
not begin with `dir`; otherwise it is the absolute name without `dir`, then
`@` exactly for a secure expression, then `=` and the escaped actual value.
With the empty path the left-hand side is the absolute name. -/
theorem serialize_relative (e : expression) (path : GoString) (hpath : path ≠ []) :
    ∃ rhs, escape e.Value = .ok rhs ∧
      (¬ (if path.getLast? = some 0x2F then path else path ++ [0x2F]) <+: abs e.Name →
        e.serialize path = .error (.ErrPathMismatch path (abs e.Name))) ∧
      (∀ r, abs e.Name = (if path.getLast? = some 0x2F then path else path ++ [0x2F]) ++ r →
        e.serialize path = .ok (r ++ (if e.Secure then [0x40] else []) ++ [0x3D] ++ rhs)) ∧
      (e.serialize path = .error (.ErrPathMismatch path (abs e.Name)) ↔
        ¬ (if path.getLast? = some 0x2F then path else path ++ [0x2F]) <+: abs e.Name) ∧
      e.serialize [] = .ok (abs e.Name ++ (if e.Secure then [0x40] else []) ++ [0x3D] ++ rhs) := by
  obtain ⟨rhs, hrhs⟩ := escape_ok e.Value
  have hsuf : hasSuffix path [0x2F] = true ↔ path.getLast? = some 0x2F := by
    unfold hasSuffix
    rw [ List.isSuffixOf_iff_suffix]
    constructor
    · rintro ⟨t, rfl⟩
      simp
    · intro h
      rcases List.getLast?_eq_some_iff.mp h with ⟨t, rfl⟩
      exact ⟨t, rfl⟩
  have hdir : (if !hasSuffix path [0x2F] then path ++ [0x2F] else path) =
      (if path.getLast? = some 0x2F then path else path ++ [0x2F]) := by
    by_cases h : path.getLast? = some 0x2F
    · simp [h, hsuf.mpr h]
    · have : hasSuffix path [0x2F] = false := by
        cases hh : hasSuffix path [0x2F]
        · rfl
        · exact absurd (hsuf.mp hh) h
      simp [h, this]
  generalize hd : (if path.getLast? = some 0x2F then path else path ++ [0x2F]) = dir at hdir ⊢
  have hrel : rel e.Name path =
      if dir <+: abs e.Name then .ok ((abs e.Name).drop dir.length)
      else .error (.ErrPathMismatch path (abs e.Name)) := by
    unfold rel
    simp only [hpath, if_false, hdir, hasPrefix]
    by_cases hp : dir <+: abs e.Name
    · simp [hp, List.isPrefixOf_iff_prefix.mpr hp]
    · have : dir.isPrefixOf (abs e.Name) = false := by
        cases hh : dir.isPrefixOf (abs e.Name)
        · rfl
        · exact absurd ( List.isPrefixOf_iff_prefix.mp hh) hp
      simp [hp, this]
  have hno : ¬ dir <+: abs e.Name →
      e.serialize path = .error (.ErrPathMismatch path (abs e.Name)) := by
    intro h
    simp [expression.serialize, hrel, h]
  have hyes : ∀ r, abs e.Name = dir ++ r →
      e.serialize path = .ok (r ++ (if e.Secure then [0x40] else []) ++ [0x3D] ++ rhs) := by
    intro r hr
    have hp : dir <+: abs e.Name := ⟨r, hr.symm⟩
    simp only [expression.serialize, hrel, hp, if_true, buildExpr, hrhs, secureMark]
    rw [hr]
    simp
  refine ⟨rhs, hrhs, hno, hyes, ⟨?_, hno⟩, ?_⟩
  · intro herr hp
    obtain ⟨r, hr⟩ := hp
    rw [hyes r hr.symm] at herr
    cases herr
  · simp [expression.serialize, rel, buildExpr, hrhs, secureMark]

theorem serialize_relative_witness :
    ∃ rhs, escape (bytes "pwd") = .ok rhs ∧
      (expression.mk (bytes "/secure/password") (bytes "pwd") true).serialize (bytes "/secure") =
        .ok (bytes "password" ++ [0x40] ++ [0x3D] ++ rhs) := by
  obtain ⟨rhs, h1, _, h3, _⟩ := serialize_relative
    (expression.mk (bytes "/secure/password") (bytes "pwd") true) (bytes "/secure") (by decide)
  exact ⟨rhs, h1, h3 (bytes "password") (by decide)⟩

/-! ### The export rendering -/

theorem takeWhile_all (p : Nat → Bool) (l r : GoString) (c : Nat) (hl : ∀ x ∈ l, p x = true)
    (hc : p c = false) : (l ++ c :: r).takeWhile p = l := by
  induction l with
  | nil => simp [hc]
  | cons a l ih =>
    simp only [List.cons_append]
    rw [List.takeWhile_cons, hl a (List.mem_cons_self _ _)]
    simp only [if_true]
    rw [ih (fun x hx => hl x (List.mem_cons_of_mem _ hx))]

theorem takeWhile_all_nil (p : Nat → Bool) (l : GoString) (hl : ∀ x ∈ l, p x = true) :
    l.takeWhile p = l := by
  induction l with
  | nil => rfl
  | cons a l ih =>
    rw [List.takeWhile_cons, hl a (List.mem_cons_self _ _)]
    simp only [if_true]
    rw [ih (fun x hx => hl x (List.mem_cons_of_mem _ hx))]

/-- `path.Base` of a name that ends in a non-empty segment without `/`,
alone or after a `/`, is that segment. -/
theorem pathBase_segment (name seg : GoString) (hne : seg ≠ []) (hs : 0x2F ∉ seg)
    (h : name = seg ∨ ∃ pre, name = pre ++ 0x2F :: seg) : pathBase name = seg := by
  have hrev : ∀ x ∈ seg.reverse, (x != 0x2F) = true := by
    intro x hx
    have : x ≠ 0x2F := fun hh => hs (by rw [← hh]; exact List.mem_reverse.mp hx)
    simpa using this
  have hrne : seg.reverse ≠ [] := by simpa using hne
  have hdrop : ∀ t : GoString, ((seg.reverse ++ t).dropWhile (· == 0x2F)) = seg.reverse ++ t := by
    intro t
    cases hsr : seg.reverse with
    | nil => exact absurd hsr hrne
    | cons a l =>
      have ha := hrev a (by rw [hsr]; exact List.mem_cons_self _ _)
      have ha1 : (a == 0x2F) = false := by simpa using ha
      simp only [List.cons_append]
      rw [List.dropWhile_cons, ha1]
      simp
  unfold pathBase
  rcases h with rfl | ⟨pre, rfl⟩
  · have h1 := hdrop []
    simp only [List.append_nil] at h1
    simp only [hne, if_false, h1, List.reverse_reverse, takeWhile_all_nil _ _ hrev]
  · have hrv : (pre ++ 0x2F :: seg).reverse = seg.reverse ++ 0x2F :: pre.reverse := by simp
    have hne2 : pre ++ 0x2F :: seg ≠ [] := by simp
    simp only [hne2, if_false, hrv, hdrop, List.reverse_reverse, List.reverse_append,
      List.reverse_cons, List.append_assoc, List.singleton_append]
    rw [takeWhile_all _ _ _ _ hrev (by decide)]
    simp [hne]

theorem isName_final_segment (name : GoString) (h : isName name = true) :
    ∃ seg, IsSegment seg ∧ (name = seg ∨ ∃ pre, name = pre ++ 0x2F :: seg) := by
  have hl : Regex.Lang reName name := by
    unfold isName at h
    rw [Bool.and_eq_true, Regex.fullMatch_iff] at h
    exact h.1
  rcases (lang_reName name).mp hl with ⟨segs, h1, _, hs, rfl⟩ | hs
  · have hne : segs ≠ [] := by
      rintro rfl
      simp at h1
    obtain ⟨init, last, rfl⟩ : ∃ init last, segs = init ++ [last] :=
      ⟨segs.dropLast, segs.getLast hne, (List.dropLast_append_getLast hne).symm⟩
    refine ⟨last, hs last (by simp), Or.inr ⟨init.flatMap (fun seg => 0x2F :: seg), ?_⟩⟩
    simp [List.flatMap_append]
  · exact ⟨name, hs, Or.inl rfl⟩

/-- C16: for an expression whose name is a valid name, `export()` is
`export `, then the final path segment of the name (what follows its last
`/`, or the whole name when it has none) with every `.` and every `-`
replaced by `_`, then `=` and the escaped value; that left-hand side consists
of ASCII letters, digits and `_` only, and no `@` is written, secure or not. -/
theorem export_rendering (e : expression) (h : isName e.Name = true) :
    ∃ seg rhs, (e.Name = seg ∨ ∃ pre, e.Name = pre ++ 0x2F :: seg) ∧ 0x2F ∉ seg ∧ seg ≠ [] ∧
      escape e.Value = .ok rhs ∧
      e.export = .ok (bytes "export " ++
        seg.map (fun c => if c = 0x2E ∨ c = 0x2D then 0x5F else c) ++ [0x3D] ++ rhs) ∧
      ∀ c ∈ seg.map (fun c => if c = 0x2E ∨ c = 0x2D then 0x5F else c),
        (0x41 ≤ c ∧ c ≤ 0x5A) ∨ (0x61 ≤ c ∧ c ≤ 0x7A) ∨ (0x30 ≤ c ∧ c ≤ 0x39) ∨ c = 0x5F := by
  obtain ⟨seg, hseg, hname⟩ := isName_final_segment e.Name h
  obtain ⟨rhs, hrhs⟩ := escape_ok e.Value
  have hslash : 0x2F ∉ seg := fun hh => (nameChar_lt _ (hseg.2 _ hh)).2 rfl
  have hbase := pathBase_segment e.Name seg hseg.1 hslash hname
  refine ⟨seg, rhs, hname, hslash, hseg.1, hrhs, ?_, ?_⟩
  · have hmap : exportableName e.Name =
        seg.map (fun c => if c = 0x2E ∨ c = 0x2D then 0x5F else c) := by
      unfold exportableName replaceByte
      rw [hbase, List.map_map]
      apply List.map_congr_left
      intro c _
      simp only [Function.comp]
      by_cases h1 : c = 0x2E
      · simp [h1]
      · by_cases h2 : c = 0x2D
        · simp [h2]
        · simp [h1, h2]
    simp only [expression.export, buildExpr, hrhs, hmap]
    simp
  · intro c hc
    rcases List.mem_map.mp hc with ⟨d, hd, rfl⟩
    have hn := hseg.2 d hd
    simp only [nameChar, Bool.or_eq_true, decide_eq_true_eq, Bool.decide_or, Bool.decide_and,
      Bool.and_eq_true] at hn
    split <;> omega

theorem export_rendering_witness :
    (expression.mk (bytes "/symbol/ba.r") (bytes "v2") true).export = .ok (bytes "export ba_r=v2") ∧
    ∃ seg rhs, (bytes "/symbol/ba.r" = seg ∨ ∃ pre, bytes "/symbol/ba.r" = pre ++ 0x2F :: seg) ∧
      0x2F ∉ seg ∧ seg ≠ [] ∧ escape (bytes "v2") = .ok rhs ∧
      (expression.mk (bytes "/symbol/ba.r") (bytes "v2") true).export = .ok (bytes "export " ++
        seg.map (fun c => if c = 0x2E ∨ c = 0x2D then 0x5F else c) ++ [0x3D] ++ rhs) ∧
      ∀ c ∈ seg.map (fun c => if c = 0x2E ∨ c = 0x2D then 0x5F else c),
        (0x41 ≤ c ∧ c ≤ 0x5A) ∨ (0x61 ≤ c ∧ c ≤ 0x7A) ∨ (0x30 ≤ c ∧ c ≤ 0x39) ∨ c = 0x5F :=
  ⟨by decide, export_rendering (expression.mk (bytes "/symbol/ba.r") (bytes "v2") true) (by decide)⟩
theorem batchNames_length (fuel : Nat) : ∀ names : List GoString, names.length ≤ fuel →
    (batchNames fuel names).length = (names.length + 9) / 10 := by
  induction fuel with
  | zero =>
    intro names h
    have : names = [] := List.length_eq_zero.mp (Nat.le_zero.mp h)
    subst this
    rfl
  | succ fuel ih =>
    intro names h
    cases names with
    | nil => rfl
    | cons n ns =>
      simp only [batchNames, List.length_cons]
      rw [ih]
      · simp only [List.length_drop, List.length_cons, maxNames]
        omega
      · simp only [List.length_drop, List.length_cons, maxNames]
        simp only [List.length_cons] at h
        omega

theorem batchNames_sizes (fuel : Nat) : ∀ names : List GoString,
    ∀ b ∈ batchNames fuel names, 1 ≤ b.length ∧ b.length ≤ 10 := by
  induction fuel with
  | zero =>
    intro names b hb
    cases names <;> simp [batchNames] at hb
  | succ fuel ih =>
    intro names b hb
    cases names with
    | nil => simp [batchNames] at hb
    | cons n ns =>
      simp only [batchNames, List.mem_cons] at hb
      rcases hb with rfl | hb
      · simp only [List.length_take, List.length_cons, maxNames]
        omega
      · exact ih _ b hb

/-- C17: for a list of valid names of length L, `GetParametersByNames`
succeeds, and the `GetParameters` calls it has submitted are exactly
ceil(L / 10) (none for the empty list); every call carries between 1 and 10
names (and asks for decryption), the names of the calls concatenated in
submission order are the input list, so every input name is requested
exactly once, and the entries returned are the outputs of these calls
merged. -/
theorem getByNames_batches (svc : Store) (names : List GoString)
    (h : ∀ n ∈ names, isName n = true) :
    ∃ o, GetParametersByNamesTraced svc names = .ok o ∧
      GetParametersByNames svc names = .ok o.params ∧
      o.calls.length = (names.length + 9) / 10 ∧
      (names = [] → o.calls = []) ∧
      (∀ c ∈ o.calls, 1 ≤ c.Names.length ∧ c.Names.length ≤ 10 ∧ c.WithDecryption = true) ∧
      (o.calls.map (fun c => c.Names)).flatten = names ∧
      (∀ n, (o.calls.map (fun c => c.Names.count n)).sum = names.count n) ∧
      o.params = o.calls.flatMap (fun c => svc.getParameters c.Names) := by
  have hv : names.findSome? validateName = none := by
    apply List.findSome?_eq_none_iff.mpr
    intro n hn
    exact validateName_of_isName n (h n hn)
  have ht : GetParametersByNamesTraced svc names =
      .ok (submitGets svc (batchNames names.length names)) := by
    unfold GetParametersByNamesTraced
    rw [hv]
  have hnames : ((submitGets svc (batchNames names.length names)).calls.map
      (fun c => c.Names)) = batchNames names.length names := by
    rw [submitGets_calls, List.map_map]
    exact List.map_id _
  refine ⟨_, ht, ?_, ?_, ?_, ?_, ?_, ?_, ?_⟩
  · unfold GetParametersByNames
    rw [ht]
  · rw [submitGets_calls, List.length_map]
    exact batchNames_length _ names (le_refl _)
  · rintro rfl
    rfl
  · intro c hc
    rw [submitGets_calls] at hc
    rcases List.mem_map.mp hc with ⟨b, hb, rfl⟩
    obtain ⟨h1, h2⟩ := batchNames_sizes _ names b hb
    exact ⟨h1, h2, rfl⟩
  · rw [hnames]
    exact batchNames_flatten _ names (le_refl _)
  · intro n
    have hf := batchNames_flatten names.length names (le_refl _)
    have hc : (submitGets svc (batchNames names.length names)).calls.map
        (fun c => c.Names.count n) =
        (batchNames names.length names).map (fun b => b.count n) := by
      rw [submitGets_calls, List.map_map]
      rfl
    rw [hc]
    conv_rhs => rw [← hf]
    rw [List.count_flatten]
  · rw [submitGets_params, submitGets_calls, List.flatMap_def, List.flatMap_def, List.map_map]
    rfl

theorem getByNames_batches_witness :
    (GetParametersByNamesTraced [⟨bytes "nC", ParameterTypeString, bytes "v"⟩]
        ((List.range 11).map (fun i => bytes "n" ++ [0x41 + i]))).map
      (fun o => (o.calls.map (fun c => c.Names.length), o.params)) =
        .ok ([10, 1], [⟨bytes "nC", ParameterTypeString, bytes "v"⟩]) ∧
    ∃ o, GetParametersByNamesTraced [⟨bytes "nC", ParameterTypeString, bytes "v"⟩]
        ((List.range 11).map (fun i => bytes "n" ++ [0x41 + i])) = .ok o ∧
      GetParametersByNames [⟨bytes "nC", ParameterTypeString, bytes "v"⟩]
        ((List.range 11).map (fun i => bytes "n" ++ [0x41 + i])) = .ok o.params ∧
      o.calls.length = (((List.range 11).map (fun i => bytes "n" ++ [0x41 + i])).length + 9) / 10 ∧
      ((List.range 11).map (fun i => bytes "n" ++ [0x41 + i]) = [] → o.calls = []) ∧
      (∀ c ∈ o.calls, 1 ≤ c.Names.length ∧ c.Names.length ≤ 10 ∧ c.WithDecryption = true) ∧
      (o.calls.map (fun c => c.Names)).flatten =
        (List.range 11).map (fun i => bytes "n" ++ [0x41 + i]) ∧
      (∀ n, (o.calls.map (fun c => c.Names.count n)).sum =
        ((List.range 11).map (fun i => bytes "n" ++ [0x41 + i])).count n) ∧
      o.params = o.calls.flatMap
        (fun c => Store.getParameters [⟨bytes "nC", ParameterTypeString, bytes "v"⟩] c.Names) :=
  ⟨by decide, getByNames_batches [⟨bytes "nC", ParameterTypeString, bytes "v"⟩]
    ((List.range 11).map (fun i => bytes "n" ++ [0x41 + i])) (by decide)⟩
theorem splitNames_eq (p : GoString → Bool) (oldMetas : List GoString) :
    splitNames p oldMetas =
      (oldMetas.filter (fun name => p (abs name)), oldMetas.filter (fun name => !p (abs name))) := by
  induction oldMetas with
  | nil => rfl
  | cons oldMeta rest ih =>
    simp only [splitNames, ih, List.filter_cons]
    cases p (abs oldMeta) <;> simp

theorem nameExists_iff (params : List Parameter) (key : GoString) :
    nameExists params key = true ↔ ∃ param ∈ params, abs param.Name = key := by
  simp [nameExists, List.any_eq_true]

theorem count_filter_add (p : GoString → Bool) (n : GoString) (l : List GoString) :
    (l.filter p).count n + (l.filter (fun x => !p x)).count n = l.count n := by
  induction l with
  | nil => rfl
  | cons a l ih =>
    simp only [List.filter_cons, List.count_cons]
    cases hp : p a
    · simp only [Bool.not_false, if_true, Bool.false_eq_true, if_false, List.count_cons]
      omega
    · simp only [Bool.not_true, if_true, Bool.false_eq_true, if_false, List.count_cons]
      omega

/-- C19: in `ReplaceParameters` the names of the metadata listing are split
into `names` (retained) and `deleteNames` so that every listed occurrence
lands in exactly one of the two lists, both keep the listing order, a listed
name is retained exactly when its absolute form is the absolute form of the
name of some desired parameter, and no name of a desired parameter is put in
`deleteNames`. -/
theorem replace_partition (svc : Store) (path : GoString) (recursive : Bool)
    (params : List Parameter) (oldMetas : List GoString)
    (h : describeParameters svc [path] recursive = .ok oldMetas) :
    ReplaceParameters svc path recursive params =
        updateParameters svc params (splitNames (nameExists params) oldMetas).1
          (splitNames (nameExists params) oldMetas).2 ∧
      (splitNames (nameExists params) oldMetas).1.Sublist oldMetas ∧
      (splitNames (nameExists params) oldMetas).2.Sublist oldMetas ∧
      (∀ n, (splitNames (nameExists params) oldMetas).1.count n +
        (splitNames (nameExists params) oldMetas).2.count n = oldMetas.count n) ∧
      (∀ n, n ∈ (splitNames (nameExists params) oldMetas).1 →
        n ∉ (splitNames (nameExists params) oldMetas).2) ∧
      (∀ n ∈ oldMetas, n ∈ (splitNames (nameExists params) oldMetas).1 ↔
        ∃ param ∈ params, abs param.Name = abs n) ∧
      (∀ n ∈ oldMetas, n ∈ (splitNames (nameExists params) oldMetas).2 ↔
        ¬ ∃ param ∈ params, abs param.Name = abs n) ∧
      (∀ param ∈ params, ∀ n ∈ (splitNames (nameExists params) oldMetas).2,
        abs n ≠ abs param.Name) := by
  rw [splitNames_eq]
  refine ⟨?_, List.filter_sublist _, List.filter_sublist _, ?_, ?_, ?_, ?_, ?_⟩
  · unfold ReplaceParameters
    rw [h]
    rfl
  · intro n
    exact count_filter_add (fun name => nameExists params (abs name)) n oldMetas
  · intro n h1 h2
    simp only [List.mem_filter] at h1 h2
    rw [h1.2] at h2
    simp at h2
  · intro n hn
    simp only [List.mem_filter, hn, true_and]
    exact nameExists_iff params (abs n)
  · intro n hn
    simp only [List.mem_filter, hn, true_and, Bool.not_eq_true', ← nameExists_iff]
    cases nameExists params (abs n) <;> simp
  · intro param hp n hn heq
    simp only [List.mem_filter, Bool.not_eq_true'] at hn
    have : nameExists params (abs n) = true := (nameExists_iff params (abs n)).mpr ⟨param, hp, heq.symm⟩
    rw [this] at hn
    exact absurd hn.2 (by simp)

theorem replace_partition_witness :
    splitNames (nameExists [⟨bytes "/p/a", ParameterTypeString, bytes "1"⟩])
        [bytes "/p/a", bytes "/p/b"] = ([bytes "/p/a"], [bytes "/p/b"]) ∧
    describeParameters [⟨bytes "/p/a", ParameterTypeString, bytes "0"⟩,
        ⟨bytes "/p/b", ParameterTypeString, bytes "0"⟩] [bytes "/p"] false =
      .ok [bytes "/p/a", bytes "/p/b"] ∧
    (splitNames (nameExists [⟨bytes "/p/a", ParameterTypeString, bytes "1"⟩])
        [bytes "/p/a", bytes "/p/b"]).1.Sublist [bytes "/p/a", bytes "/p/b"] :=
  ⟨by decide, by decide,
    (replace_partition [⟨bytes "/p/a", ParameterTypeString, bytes "0"⟩,
        ⟨bytes "/p/b", ParameterTypeString, bytes "0"⟩] (bytes "/p") false
      [⟨bytes "/p/a", ParameterTypeString, bytes "1"⟩] [bytes "/p/a", bytes "/p/b"]
      (by decide)).2.1⟩
theorem scan_error (s : GoString) : s.foldl scanStep .error = .error := by
  induction s with
  | nil => rfl
  | cons c rest ih => exact ih

theorem scan_endValue (s : GoString) (h : s.foldl scanStep .endValue = .endValue) :
    ∀ c ∈ s, isSpace c = true := by
  induction s with
  | nil => simp
  | cons c rest ih =>
    simp only [List.foldl_cons, scanStep] at h
    by_cases hc : isSpace c = true
    · rw [if_pos hc] at h
      intro d hd
      rcases List.mem_cons.mp hd with rfl | hd
      · exact hc
      · exact ih h d hd
    · rw [if_neg hc, scan_error] at h
      cases h

theorem scan_hex (st nxt : ScanState) (c : Nat) (rest : GoString)
    (hst : ∀ d, scanStep st d = if isHex d then nxt else .error)
    (h : (c :: rest).foldl scanStep st = .endValue) :
    isHex c = true ∧ rest.foldl scanStep nxt = .endValue := by
  simp only [List.foldl_cons, hst] at h
  by_cases hc : isHex c = true
  · rw [if_pos hc] at h
    exact ⟨hc, h⟩
  · rw [if_neg hc, scan_error] at h
    cases h

theorem scan_inString (n : Nat) : ∀ s : GoString, s.length ≤ n →
    s.foldl scanStep .inString = .endValue →
    ∃ body ws, s = body ++ 0x22 :: ws ∧ JsonChars body ∧ ∀ c ∈ ws, isSpace c = true := by
  induction n with
  | zero =>
    intro s hn h
    have : s = [] := List.length_eq_zero.mp (Nat.le_zero.mp hn)
    subst this
    cases h
  | succ n ih =>
    intro s hn h
    cases s with
    | nil => cases h
    | cons c rest =>
      simp only [List.length_cons] at hn
      by_cases hq : c = 0x22
      · subst hq
        have h1 : rest.foldl scanStep .endValue = .endValue := h
        exact ⟨[], rest, rfl, JsonChars.nil, scan_endValue rest h1⟩
      · by_cases hb : c = 0x5C
        · subst hb
          have h1 : rest.foldl scanStep .inStringEsc = .endValue := h
          cases rest with
          | nil => cases h1
          | cons e r1 =>
            simp only [List.length_cons] at hn
            by_cases he : e = 0x62 ∨ e = 0x66 ∨ e = 0x6E ∨ e = 0x72 ∨ e = 0x74 ∨ e = 0x5C ∨
                e = 0x2F ∨ e = 0x22
            · have h2 : r1.foldl scanStep .inString = .endValue := by
                simp only [List.foldl_cons, scanStep] at h1
                rw [if_pos he] at h1
                exact h1
              obtain ⟨body, ws, rfl, hbody, hws⟩ := ih r1 (by omega) h2
              refine ⟨0x5C :: e :: body, ws, rfl, JsonChars.escape e body ?_ hbody, hws⟩
              simp only [isSimpleEscape, Bool.decide_or, Bool.or_eq_true, decide_eq_true_eq]
              omega
            · by_cases hu : e = 0x75
              · subst hu
                have g0 : r1.foldl scanStep .inStringEscU = .endValue := h1
                rcases r1 with _ | ⟨d0, r2⟩
                · cases g0
                obtain ⟨x0, g1⟩ := scan_hex .inStringEscU .inStringEscU1 d0 r2 (fun _ => rfl) g0
                rcases r2 with _ | ⟨d1, r3⟩
                · cases g1
                obtain ⟨x1, g2⟩ := scan_hex .inStringEscU1 .inStringEscU12 d1 r3 (fun _ => rfl) g1
                rcases r3 with _ | ⟨d2, r4⟩
                · cases g2
                obtain ⟨x2, g3⟩ := scan_hex .inStringEscU12 .inStringEscU123 d2 r4 (fun _ => rfl) g2
                rcases r4 with _ | ⟨d3, r5⟩
                · cases g3
                obtain ⟨x3, g4⟩ := scan_hex .inStringEscU123 .inString d3 r5 (fun _ => rfl) g3
                simp only [List.length_cons] at hn
                obtain ⟨body, ws, rfl, hbody, hws⟩ := ih r5 (by omega) g4
                exact ⟨0x5C :: 0x75 :: d0 :: d1 :: d2 :: d3 :: body, ws, rfl,
                  JsonChars.unicode d0 d1 d2 d3 body x0 x1 x2 x3 hbody, hws⟩
              · simp only [List.foldl_cons, scanStep] at h1
                rw [if_neg he, if_neg hu, scan_error] at h1
                cases h1
        · by_cases hl : c < 0x20
          · simp only [List.foldl_cons, scanStep] at h
            rw [if_neg hq, if_neg hb, if_pos hl, scan_error] at h
            cases h
          · have h1 : rest.foldl scanStep .inString = .endValue := by
              simp only [List.foldl_cons, scanStep] at h
              rw [if_neg hq, if_neg hb, if_neg hl] at h
              exact h
            obtain ⟨body, ws, rfl, hbody, hws⟩ := ih rest (by omega) h1
            exact ⟨c :: body, ws, rfl, JsonChars.unescaped c body (by omega) hq hb hbody, hws⟩

theorem checkValid_literal (v : GoString) (hq : QuoteWrapped v)
    (h : checkValidQuoted (v.drop 1) = true) : JsonLiteral v := by
  unfold checkValidQuoted at h
  have h1 : (v.drop 1).foldl scanStep .inString = .endValue := by
    simpa using h
  obtain ⟨body, ws, hs, hbody, hws⟩ := scan_inString _ _ (le_refl _) h1
  obtain ⟨hhead, hlast⟩ := hq
  cases v with
  | nil => cases hhead
  | cons c rest =>
    simp only [List.head?_cons, Option.some.injEq] at hhead
    subst hhead
    simp only [List.drop_succ_cons, List.drop_zero] at hs
    subst hs
    have hws : ws = [] := by
      rcases List.eq_nil_or_concat ws with rfl | ⟨ini, w, rfl⟩
      · rfl
      · exfalso
        have hw := hws w (by simp)
        have hl : (0x22 :: (body ++ 0x22 :: (ini ++ [w]))).getLast? = some w := by
          have : 0x22 :: (body ++ 0x22 :: (ini ++ [w])) = (0x22 :: (body ++ 0x22 :: ini)) ++ [w] := by
            simp
          rw [this, List.getLast?_append]
          rfl
        rw [List.concat_eq_append] at hlast
        have hlast2 : some w = some 0x22 := hl.symm.trans hlast
        simp only [Option.some.injEq] at hlast2
        subst hlast2
        revert hw
        decide
    subst hws
    exact ⟨body, hbody, rfl⟩

theorem unescape_not_literal (v : GoString) (hq : QuoteWrapped v) (hj : ¬ JsonLiteral v) :
    unescape v = .error (.ErrUnmarshal v) := by
  have hc : checkValidQuoted (v.drop 1) = false := by
    cases hcv : checkValidQuoted (v.drop 1)
    · rfl
    · exact absurd (checkValid_literal v hq hcv) hj
  unfold unescape jsonUnmarshalQuoted
  rw [(isQuoted_iff v).mpr hq, hc]
  rfl

/-- C14 (as stated, refuted): the value `"\xff"` (a quote, the byte `0xFF`,
a quote) starts and ends with a double quote and is not a valid JSON string
literal, because it is not UTF-8; yet `unescape` does not fail on it: the
decoder replaces the byte by U+FFFD. -/
theorem unescape_accepts_invalid_utf8 :
    QuoteWrapped [0x22, 0xFF, 0x22] ∧ ¬ ValidJsonLiteral [0x22, 0xFF, 0x22] ∧
      unescape [0x22, 0xFF, 0x22] = .ok [0xEF, 0xBF, 0xBD] ∧
      parseExpression (bytes "foo=" ++ [0x22, 0xFF, 0x22]) =
        .ok ⟨bytes "foo", [0xEF, 0xBF, 0xBD], false⟩ := by
  refine ⟨by unfold QuoteWrapped; decide, ?_, by decide, by decide⟩
  rintro ⟨_, h⟩
  revert h
  decide

/-- C14 (amended): for every value that starts and ends with a double quote
(the one-byte value `"` included) and is not a JSON string literal by the
grammar on bytes (a quote, then unescaped bytes from `0x20` up other than
`"` and `\`, two-character escapes and `\u` with four hexadecimal digits,
then a quote; bytes from `0x80` up are not checked to be UTF-8), `unescape`
fails with the Unmarshal error carrying the raw value, and so does
`parseExpression` on `name=value`. -/
theorem unescape_rejects_non_literal (name v : GoString) (hname : 0x3D ∉ name)
    (hq : QuoteWrapped v) (hj : ¬ JsonLiteral v) :
    unescape v = .error (.ErrUnmarshal v) ∧
      parseExpression (name ++ 0x3D :: v) = .error (.ErrUnmarshal v) := by
  have hu := unescape_not_literal v hq hj
  refine ⟨hu, ?_⟩
  rw [parseExpression_split name v hname, hu]

theorem unescape_rejects_non_literal_witness :
    unescape [0x22] = .error (.ErrUnmarshal [0x22]) ∧
      parseExpression (bytes "foo" ++ 0x3D :: [0x22]) = .error (.ErrUnmarshal [0x22]) :=
  unescape_rejects_non_literal (bytes "foo") [0x22] (by decide)
    (by unfold QuoteWrapped; decide)
    (by
      rintro ⟨body, _, h⟩
      have hlen := congrArg List.length h
      simp at hlen)
theorem count_set_phase (p old new : Phase) : ∀ (l : List Phase) (i : Nat),
    l.get? i = some old →
    (l.set i new).count p + (if old = p then 1 else 0) =
      l.count p + (if new = p then 1 else 0) := by
  intro l
  induction l with
  | nil => intro i h; cases h
  | cons a l ih =>
    intro i h
    cases i with
    | zero =>
      simp only [List.get?_cons_zero, Option.some.injEq] at h
      subst h
      simp only [List.set_cons_zero, List.count_cons, beq_iff_eq]
      omega
    | succ i =>
      simp only [List.get?_cons_succ] at h
      have := ih i h
      simp only [List.set_cons_succ, List.count_cons]
      omega

theorem held_step (s s1 : Semaphore) (ev : Event) (h : s.step ev = some s1)
    (hinv : s.running + s.exiting = s.slots ∧ s.slots ≤ s.n) :
    s1.running + s1.exiting = s1.slots ∧ s1.slots ≤ s1.n ∧ s1.n = s.n := by
  obtain ⟨h1, h2⟩ := hinv
  unfold Semaphore.running Semaphore.exiting at *
  cases ev with
  | go =>
    simp only [Semaphore.step, Option.some.injEq] at h
    subst h
    refine ⟨?_, h2, rfl⟩
    simp only [List.count_append, List.count_singleton]
    simp
    omega
  | enter i =>
    simp only [Semaphore.step] at h
    split at h
    · rename_i hc
      simp only [Option.some.injEq] at h
      subst h
      have c1 := count_set_phase Phase.running Phase.waiting Phase.running s.tasks i hc.1
      have c2 := count_set_phase (Phase.exiting true) Phase.waiting Phase.running s.tasks i hc.1
      have c3 := count_set_phase (Phase.exiting false) Phase.waiting Phase.running s.tasks i hc.1
      simp at c1 c2 c3
      refine ⟨?_, ?_, rfl⟩
      · simp only
        omega
      · simp only
        omega
    · cases h
  | abort i =>
    simp only [Semaphore.step] at h
    split at h
    · rename_i hc
      simp only [Option.some.injEq] at h
      subst h
      have c1 := count_set_phase Phase.running Phase.waiting Phase.returned s.tasks i hc.1
      have c2 := count_set_phase (Phase.exiting true) Phase.waiting Phase.returned s.tasks i hc.1
      have c3 := count_set_phase (Phase.exiting false) Phase.waiting Phase.returned s.tasks i hc.1
      simp at c1 c2 c3
      refine ⟨?_, ?_, rfl⟩
      · simp only
        omega
      · simp only
        omega
    · cases h
  | finish i ok =>
    simp only [Semaphore.step] at h
    split at h
    · rename_i hc
      simp only [Option.some.injEq] at h
      subst h
      have c1 := count_set_phase Phase.running Phase.running (Phase.exiting ok) s.tasks i hc
      have c2 := count_set_phase (Phase.exiting true) Phase.running (Phase.exiting ok) s.tasks i hc
      have c3 := count_set_phase (Phase.exiting false) Phase.running (Phase.exiting ok) s.tasks i hc
      cases ok <;> simp at c1 c2 c3 <;> refine ⟨?_, ?_, rfl⟩ <;> simp only <;> omega
    · cases h
  | release i =>
    simp only [Semaphore.step] at h
    split at h
    · rename_i ok hc
      simp only [Option.some.injEq] at h
      subst h
      have c1 := count_set_phase Phase.running (Phase.exiting ok) Phase.returned s.tasks i hc
      have c2 := count_set_phase (Phase.exiting true) (Phase.exiting ok) Phase.returned s.tasks i hc
      have c3 := count_set_phase (Phase.exiting false) (Phase.exiting ok) Phase.returned s.tasks i hc
      cases ok <;> simp at c1 c2 c3 <;> refine ⟨?_, ?_, rfl⟩ <;> simp only <;> omega
    · cases h
  | wait =>
    simp only [Semaphore.step] at h
    split at h
    · simp only [Option.some.injEq] at h
      subst h
      exact ⟨h1, h2, rfl⟩
    · cases h

theorem held_run (events : List Event) : ∀ (s s1 : Semaphore), s.run events = some s1 →
    s.running + s.exiting = s.slots ∧ s.slots ≤ s.n →
    s1.running + s1.exiting = s1.slots ∧ s1.slots ≤ s1.n ∧ s1.n = s.n := by
  induction events with
  | nil =>
    intro s s1 h hinv
    simp only [Semaphore.run, Option.some.injEq] at h
    subst h
    exact ⟨hinv.1, hinv.2, rfl⟩
  | cons ev rest ih =>
    intro s s1 h hinv
    simp only [Semaphore.run] at h
    cases hs : s.step ev with
    | none => rw [hs] at h; cases h
    | some s2 =>
      rw [hs] at h
      obtain ⟨a, b, c⟩ := held_step s s2 ev hs hinv
      obtain ⟨a1, b1, c1⟩ := ih s2 s1 h ⟨a, b⟩
      exact ⟨a1, b1, c1.trans c⟩

theorem running_step (s s1 : Semaphore) (ev : Event) (h : s.step ev = some s1) :
    s1.running ≤ s.running ∨
      ∃ i, ev = .enter i ∧ s.tasks.get? i = some Phase.waiting ∧ s.slots < s.n ∧
        s1.slots = s.slots + 1 ∧ s1.tasks = s.tasks.set i Phase.running := by
  unfold Semaphore.running
  cases ev with
  | go =>
    simp only [Semaphore.step, Option.some.injEq] at h
    subst h
    left
    simp
  | enter i =>
    simp only [Semaphore.step] at h
    split at h
    · rename_i hc
      simp only [Option.some.injEq] at h
      subst h
      exact Or.inr ⟨i, rfl, hc.1, hc.2, rfl, rfl⟩
    · cases h
  | abort i =>
    simp only [Semaphore.step] at h
    split at h
    · rename_i hc
      simp only [Option.some.injEq] at h
      subst h
      have c1 := count_set_phase Phase.running Phase.waiting Phase.returned s.tasks i hc.1
      simp at c1
      left
      simp only
      omega
    · cases h
  | finish i ok =>
    simp only [Semaphore.step] at h
    split at h
    · rename_i hc
      simp only [Option.some.injEq] at h
      subst h
      have c1 := count_set_phase Phase.running Phase.running (Phase.exiting ok) s.tasks i hc
      simp at c1
      left
      simp only
      omega
    · cases h
  | release i =>
    simp only [Semaphore.step] at h
    split at h
    · rename_i ok hc
      simp only [Option.some.injEq] at h
      subst h
      have c1 := count_set_phase Phase.running (Phase.exiting ok) Phase.returned s.tasks i hc
      simp at c1
      left
      simp only
      omega
    · cases h
  | wait =>
    simp only [Semaphore.step] at h
    split at h
    · simp only [Option.some.injEq] at h
      subst h
      exact Or.inl (le_refl _)
    · cases h

theorem finish_release (s s1 : Semaphore) (i : Nat) (ok : Bool)
    (h : s.step (.finish i ok) = some s1)
    (hinv : s.running + s.exiting = s.slots ∧ s.slots ≤ s.n) :
    ∃ s2, s1.step (.release i) = some s2 ∧ s2.slots + 1 = s1.slots ∧
      s2.tasks.get? i = some Phase.returned := by
  obtain ⟨a, _, _⟩ := held_step s s1 _ h hinv
  simp only [Semaphore.step] at h
  split at h
  · rename_i hc
    simp only [Option.some.injEq] at h
    subst h
    have hi : i < s.tasks.length := by
      rcases Nat.lt_or_ge i s.tasks.length with hlt | hge
      · exact hlt
      · rw [List.get?_eq_none.mpr hge] at hc
        cases hc
    have hg : (s.tasks.set i (Phase.exiting ok)).get? i = some (Phase.exiting ok) := by
      simp [hi]
    have hpos : 0 < (s.tasks.set i (Phase.exiting ok)).count (Phase.exiting ok) := by
      apply List.count_pos_iff.mpr
      exact List.get?_mem hg
    refine ⟨⟨s.n, s.slots - 1, s.done || !ok,
      (s.tasks.set i (Phase.exiting ok)).set i Phase.returned⟩, ?_, ?_, ?_⟩
    · simp only [Semaphore.step, hg]
    · simp only
      unfold Semaphore.running Semaphore.exiting at a
      simp only at a
      cases ok <;> omega
    · simp [hi]
  · cases h

/-- C18: in every state that an executor created with ceiling `n` reaches,
whatever tasks are submitted and however they interleave, at most `n` task
bodies are running; the tasks that hold a slot are exactly those whose body
is running or has finished without the deferred release having run yet, and
at most `n` slots are held.  A body starts running only by its task taking a
free slot, and once a body has finished, with or without an error, its task
gives the slot back. -/
theorem semaphore_ceiling (n : Nat) (events : List Event) (s : Semaphore)
    (h : (Semaphore.New n).run events = some s) :
    s.running ≤ n ∧ s.running + s.exiting = s.slots ∧ s.slots ≤ n ∧
      (∀ ev s1, s.step ev = some s1 → s.running < s1.running →
        ∃ i, ev = .enter i ∧ s.tasks.get? i = some Phase.waiting ∧ s.slots < n ∧
          s1.slots = s.slots + 1 ∧ s1.tasks = s.tasks.set i Phase.running) ∧
      (∀ i ok s1, s.step (.finish i ok) = some s1 →
        ∃ s2, s1.step (.release i) = some s2 ∧ s2.slots + 1 = s1.slots ∧
          s2.tasks.get? i = some Phase.returned) := by
  have h0 : (Semaphore.New n).running + (Semaphore.New n).exiting = (Semaphore.New n).slots ∧
      (Semaphore.New n).slots ≤ (Semaphore.New n).n := by
    refine ⟨rfl, ?_⟩
    simp [Semaphore.New]
  obtain ⟨a, b, c⟩ := held_run events _ s h h0
  have hn : s.n = n := c
  rw [hn] at b
  refine ⟨by omega, a, b, ?_, ?_⟩
  · intro ev s1 hs hlt
    rcases running_step s s1 ev hs with hle | ⟨i, h1, h2, h3, h4, h5⟩
    · omega
    · exact ⟨i, h1, h2, hn ▸ h3, h4, h5⟩
  · intro i ok s1 hs
    exact finish_release s s1 i ok hs ⟨a, hn ▸ b⟩

theorem semaphore_ceiling_witness :
    (Semaphore.New 2).run [.go, .go, .go, .enter 0, .enter 2, .finish 0 false] =
        some ⟨2, 2, false, [.exiting false, .waiting, .running]⟩ ∧
    Semaphore.step ⟨2, 2, false, [.exiting false, .waiting, .running]⟩ (.enter 1) = none ∧
    (Semaphore.New 2).run [.go, .go, .go, .enter 0, .enter 2, .finish 0 false, .release 0,
        .abort 1, .finish 2 true, .release 2, .wait] =
      some ⟨2, 0, true, [.returned, .returned, .returned]⟩ ∧
    Semaphore.running ⟨2, 2, false, [.exiting false, .waiting, .running]⟩ ≤ 2 :=
  ⟨by decide, by decide, by decide,
    (semaphore_ceiling 2 [.go, .go, .go, .enter 0, .enter 2, .finish 0 false]
      ⟨2, 2, false, [.exiting false, .waiting, .running]⟩ (by decide)).1⟩
theorem takeWhile_segment (s rest : GoString) (hs : 0x2F ∉ s)
    (hr : rest = [] ∨ rest.head? = some 0x2F) :
    (s ++ rest).takeWhile (· != 0x2F) = s ∧ (s ++ rest).dropWhile (· != 0x2F) = rest := by
  induction s with
  | nil =>
    rcases rest with _ | ⟨c, r⟩
    · exact ⟨rfl, rfl⟩
    · rcases hr with hr | hr
      · cases hr
      · simp only [List.head?_cons, Option.some.injEq] at hr
        subst hr
        exact ⟨rfl, rfl⟩
  | cons c s ih =>
    have hc : c ≠ 0x2F := fun h => hs (h ▸ List.mem_cons_self _ _)
    have hs1 : 0x2F ∉ s := fun h => hs (List.mem_cons_of_mem _ h)
    obtain ⟨h1, h2⟩ := ih hs1
    have hb : (c != 0x2F) = true := by simpa using hc
    constructor
    · simp only [List.cons_append, List.takeWhile_cons, hb, if_true, h1]
    · simp only [List.cons_append, List.dropWhile_cons, hb, if_true, h2]

theorem cleanLoop_nil (fuel : Nat) (out : GoString) (dotdot : Nat) :
    cleanLoop true fuel [] out dotdot = out := by
  cases fuel <;> rfl

theorem cleanLoop_slash (fuel : Nat) (rest out : GoString) (dotdot : Nat) :
    cleanLoop true (fuel + 1) (0x2F :: rest) out dotdot = cleanLoop true fuel rest out dotdot := by
  simp only [cleanLoop, if_true]

theorem cleanLoop_segment (fuel : Nat) (s rest out : GoString) (dotdot : Nat)
    (hs : PlainSegment s) (hr : rest = [] ∨ rest.head? = some 0x2F) :
    cleanLoop true (fuel + 1) (s ++ rest) out dotdot =
      cleanLoop true fuel rest
        ((if out.length ≠ 1 then out ++ [0x2F] else out) ++ s) dotdot := by
  obtain ⟨hne, hsl, hd1, hd2⟩ := hs
  obtain ⟨ht, hd⟩ := takeWhile_segment s rest hsl hr
  rcases s with _ | ⟨c, s1⟩
  · exact absurd rfl hne
  have hc : c ≠ 0x2F := fun h => hsl (h ▸ List.mem_cons_self _ _)
  have hs1 : 0x2F ∉ s1 := fun h => hsl (List.mem_cons_of_mem _ h)
  have h1 : ¬ (c = 0x2E ∧ (s1 ++ rest = [] ∨ (s1 ++ rest).head? = some 0x2F)) := by
    rintro ⟨rfl, h⟩
    rcases s1 with _ | ⟨d, s2⟩
    · exact hd1 rfl
    · rcases h with h | h
      · simp at h
      · simp only [List.cons_append, List.head?_cons, Option.some.injEq] at h
        subst h
        exact hs1 (List.mem_cons_self _ _)
  have h2 : ¬ (c = 0x2E ∧ (s1 ++ rest).head? = some 0x2E ∧
      ((s1 ++ rest).drop 1 = [] ∨ ((s1 ++ rest).drop 1).head? = some 0x2F)) := by
    rintro ⟨rfl, hh, h⟩
    rcases s1 with _ | ⟨d, s2⟩
    · rcases hr with rfl | hr
      · simp at hh
      · simp only [List.nil_append] at hh
        rw [hr] at hh
        simp at hh
    · simp only [List.cons_append, List.head?_cons, Option.some.injEq] at hh
      subst hh
      rcases s2 with _ | ⟨e, s3⟩
      · exact hd2 rfl
      · simp only [List.cons_append, List.drop_succ_cons, List.drop_zero, List.head?_cons,
          Option.some.injEq, reduceCtorEq, false_or] at h
        subst h
        exact hs1 (List.mem_cons_of_mem _ (List.mem_cons_self _ _))
  simp only [List.cons_append] at ht hd ⊢
  simp only [cleanLoop, if_neg hc, if_neg h1, if_neg h2, ht, hd]
  simp

theorem rootedJoin_snoc (done : List GoString) (s : GoString) (hdone : ∀ t ∈ done, t ≠ []) :
    (if (rootedJoin done).length ≠ 1 then rootedJoin done ++ [0x2F] else rootedJoin done) ++ s =
      rootedJoin (done ++ [s]) := by
  rcases done with _ | ⟨d, ds⟩
  · simp [rootedJoin]
  · have hd : d ≠ [] := hdone d (List.mem_cons_self _ _)
    have hlen : 0 < d.length := List.length_pos.mpr hd
    have h1 : (rootedJoin (d :: ds)).length ≠ 1 := by
      simp only [rootedJoin, reduceCtorEq, if_false, List.flatMap_cons, List.length_append,
        List.length_cons]
      omega
    rw [if_pos h1]
    simp [rootedJoin, List.flatMap_append]

theorem cleanLoop_spelled (W : List GoString) (r : GoString) (h : Spelled W r) :
    ∀ (fuel : Nat) (done : List GoString) (dotdot : Nat), r.length ≤ fuel →
      (∀ t ∈ done, t ≠ []) →
      cleanLoop true fuel r (rootedJoin done) dotdot = rootedJoin (done ++ W) := by
  induction h with
  | nil =>
    intro fuel done dotdot _ _
    rw [cleanLoop_nil, List.append_nil]
  | slash W r _ ih =>
    intro fuel done dotdot hf hdone
    rcases fuel with _ | f
    · simp at hf
    rw [cleanLoop_slash]
    exact ih f done dotdot (by simpa using hf) hdone
  | last s hs =>
    intro fuel done dotdot hf hdone
    rcases fuel with _ | f
    · have := List.length_pos.mpr hs.1
      omega
    have := cleanLoop_segment f s [] (rootedJoin done) dotdot hs (Or.inl rfl)
    rw [List.append_nil] at this
    rw [this, cleanLoop_nil, rootedJoin_snoc done s hdone]
  | seg s W r hs _ ih =>
    intro fuel done dotdot hf hdone
    have hlen := List.length_pos.mpr hs.1
    simp only [List.length_append, List.length_cons] at hf
    rcases fuel with _ | f
    · omega
    rw [cleanLoop_segment f s (0x2F :: r) (rootedJoin done) dotdot hs (Or.inr rfl)]
    rcases f with _ | f1
    · omega
    rw [cleanLoop_slash, rootedJoin_snoc done s hdone]
    have := ih f1 (done ++ [s]) dotdot (by omega) (by
      intro t ht
      rcases List.mem_append.mp ht with ht | ht
      · exact hdone t ht
      · simp only [List.mem_singleton] at ht
        subst ht
        exact hs.1)
    rw [this]
    simp

theorem pathJoin_spelled (path name r : GoString) (W : List GoString) (hpath : path ≠ [])
    (hW : W ≠ []) (h : path ++ [0x2F] ++ name = 0x2F :: r) (hs : Spelled W r) :
    pathJoin path name = W.flatMap (fun s => 0x2F :: s) := by
  have hc := cleanLoop_spelled W r hs r.length [] 1 (le_refl _) (by simp)
  have hr : rootedJoin ([] ++ W) = W.flatMap (fun s => 0x2F :: s) := by
    simp [rootedJoin, hW]
  rw [hr] at hc
  have h0 : rootedJoin [] = [0x2F] := rfl
  rw [h0] at hc
  have hne : W.flatMap (fun s => 0x2F :: s) ≠ [] := by
    rcases W with _ | ⟨w, ws⟩
    · exact absurd rfl hW
    · simp
  unfold pathJoin
  rw [if_pos hpath, h]
  simp only [pathClean, beq_self_eq_true, if_true, hc, if_neg hne]

theorem segmentsOf_single (s : GoString) (hs : 0x2F ∉ s) : segmentsOf s = [s] := by
  unfold segmentsOf List.splitOn
  apply List.splitOnP_eq_single
  intro x hx hp
  simp only [beq_iff_eq] at hp
  exact hs (hp ▸ hx)

theorem segmentsOf_first (s r : GoString) (hs : 0x2F ∉ s) :
    segmentsOf (s ++ 0x2F :: r) = s :: segmentsOf r := by
  unfold segmentsOf List.splitOn
  apply List.splitOnP_first
  · intro x hx hp
    simp only [beq_iff_eq] at hp
    exact hs (hp ▸ hx)
  · simp

theorem mem_segmentsOf_chain (ps : List GoString) (trail : GoString)
    (ht : trail = [] ∨ trail = [0x2F]) : ∀ p0 : GoString, (∀ s ∈ p0 :: ps, 0x2F ∉ s) →
    ∀ s ∈ p0 :: ps, s ∈ segmentsOf (p0 ++ (ps.flatMap (fun s => 0x2F :: s) ++ trail)) := by
  induction ps with
  | nil =>
    intro p0 h s hs
    simp only [List.mem_singleton] at hs
    subst hs
    have h0 := h s (List.mem_cons_self _ _)
    rcases ht with rfl | rfl
    · simp [segmentsOf_single s h0]
    · simp [segmentsOf_first s [] h0]
  | cons p ps ih =>
    intro p0 h s hs
    have h0 := h p0 (List.mem_cons_self _ _)
    have hrest : ∀ s ∈ p :: ps, 0x2F ∉ s := fun s hs => h s (List.mem_cons_of_mem _ hs)
    have heq : p0 ++ ((p :: ps).flatMap (fun s => 0x2F :: s) ++ trail) =
        p0 ++ 0x2F :: (p ++ (ps.flatMap (fun s => 0x2F :: s) ++ trail)) := by
      simp
    rw [heq, segmentsOf_first p0 _ h0]
    rcases List.mem_cons.mp hs with rfl | hs
    · exact List.mem_cons_self _ _
    · exact List.mem_cons_of_mem _ (ih p hrest s hs)

theorem not_dot_of_mem (s seg : GoString) (h : hasDotSegment s = false) (hm : seg ∈ segmentsOf s) :
    seg ≠ [0x2E] ∧ seg ≠ [0x2E, 0x2E] := by
  unfold hasDotSegment at h
  have := List.any_eq_false.mp h seg hm
  simp only [Bool.or_eq_true, beq_iff_eq, not_or] at this
  exact this

theorem isSegment_no_slash (s : GoString) (h : IsSegment s) : 0x2F ∉ s :=
  fun hh => (nameChar_lt _ (h.2 _ hh)).2 rfl

theorem spelled_chain (ps : List GoString) : ∀ p0 : GoString,
    (∀ s ∈ p0 :: ps, PlainSegment s) →
    Spelled (p0 :: ps) (p0 ++ ps.flatMap (fun s => 0x2F :: s)) := by
  induction ps with
  | nil =>
    intro p0 h
    simpa using Spelled.last p0 (h p0 (List.mem_cons_self _ _))
  | cons p ps ih =>
    intro p0 h
    have := Spelled.seg p0 _ _ (h p0 (List.mem_cons_self _ _))
      (ih p (fun s hs => h s (List.mem_cons_of_mem _ hs)))
    simpa using this

theorem spelled_append (W : List GoString) (r : GoString) (hW : Spelled W r)
    (ps : List GoString) : ∀ p0 : GoString, (∀ s ∈ p0 :: ps, PlainSegment s) →
    Spelled (p0 :: ps ++ W) (p0 ++ (ps.flatMap (fun s => 0x2F :: s) ++ 0x2F :: r)) := by
  induction ps with
  | nil =>
    intro p0 h
    simpa using Spelled.seg p0 W r (h p0 (List.mem_cons_self _ _)) hW
  | cons p ps ih =>
    intro p0 h
    have := Spelled.seg p0 _ _ (h p0 (List.mem_cons_self _ _))
      (ih p (fun s hs => h s (List.mem_cons_of_mem _ hs)))
    simpa using this

theorem isRel_shape (name : GoString) (h : isRel name = true) :
    ∃ n0 ns, (∀ s ∈ n0 :: ns, IsSegment s) ∧ name = n0 ++ ns.flatMap (fun s => 0x2F :: s) := by
  unfold isRel at h
  rw [Regex.fullMatch_iff] at h
  obtain ⟨t, u, rfl, ht, S, rfl, hS⟩ := h
  refine ⟨t, S.map List.tail, ?_, ?_⟩
  · intro s hs
    rcases List.mem_cons.mp hs with rfl | hs
    · exact (lang_reSegment _).mp ht
    · rcases List.mem_map.mp hs with ⟨x, hx, rfl⟩
      obtain ⟨seg, hseg, rfl⟩ := (lang_reSlashSegment x).mp (hS x hx).2
      exact hseg
  · congr 1
    rw [List.flatMap_def, List.map_map]
    congr 1
    have hid : S.map ((fun seg => 0x2F :: seg) ∘ List.tail) = S.map id := by
      apply List.map_congr_left
      intro x hx
      obtain ⟨seg, _, rfl⟩ := (lang_reSlashSegment x).mp (hS x hx).2
      rfl
    rw [hid, List.map_id]

theorem isPath_shape (path : GoString) (h : isPath path = true) :
    ∃ psegs trail, (∀ s ∈ psegs, IsSegment s) ∧ (trail = [] ∨ trail = [0x2F]) ∧
      (psegs = [] → trail = [0x2F]) ∧ path = psegs.flatMap (fun s => 0x2F :: s) ++ trail := by
  unfold isPath at h
  rw [Bool.and_eq_true, Regex.fullMatch_iff] at h
  rcases (lang_rePath path).mp h.1 with ⟨t, ⟨psegs, h1, _, hs, rfl⟩, rfl | rfl⟩ | rfl
  · refine ⟨psegs, [], hs, Or.inl rfl, ?_, by simp⟩
    rintro rfl
    simp at h1
  · exact ⟨psegs, [0x2F], hs, Or.inr rfl, fun _ => rfl, rfl⟩
  · exact ⟨[], [0x2F], by simp, Or.inr rfl, fun _ => rfl, rfl⟩

theorem hasSuffix_slash_flatMap (p : GoString) (ps : List GoString)
    (h : ∀ s ∈ p :: ps, s ≠ [] ∧ 0x2F ∉ s) :
    hasSuffix ((p :: ps).flatMap (fun s => 0x2F :: s)) [0x2F] = false := by
  cases hb : hasSuffix ((p :: ps).flatMap (fun s => 0x2F :: s)) [0x2F]
  · rfl
  · exfalso
    unfold hasSuffix at hb
    rw [ List.isSuffixOf_iff_suffix] at hb
    obtain ⟨t, ht⟩ := hb
    have hne : p :: ps ≠ [] := by simp
    obtain ⟨hl1, hl2⟩ := h ((p :: ps).getLast hne) (List.getLast_mem hne)
    have hsplit := (List.dropLast_append_getLast hne).symm
    have hlast := (List.dropLast_append_getLast hl1).symm
    rw [hsplit, List.flatMap_append] at ht
    simp only [List.flatMap_cons, List.flatMap_nil, List.append_nil] at ht
    rw [hlast] at ht
    have ht2 : t ++ [0x2F] =
        ((p :: ps).dropLast.flatMap (fun s => 0x2F :: s) ++
          0x2F :: ((p :: ps).getLast hne).dropLast) ++ [((p :: ps).getLast hne).getLast hl1] := by
      rw [ht]
      simp
    have := (List.append_inj' ht2 rfl).2
    simp only [List.cons.injEq, and_true] at this
    exact hl2 (this ▸ List.getLast_mem hl1)
theorem plain_of_segment (s name : GoString) (hs : IsSegment s)
    (hd : hasDotSegment name = false) (hm : s ∈ segmentsOf name) : PlainSegment s :=
  ⟨hs.1, isSegment_no_slash s hs, (not_dot_of_mem name s hd hm).1, (not_dot_of_mem name s hd hm).2⟩

theorem pathJoin_plain (path name : GoString) (hp : isPath path = true)
    (hn : isRel name = true) (hdp : hasDotSegment path = false)
    (hdn : hasDotSegment name = false) :
    pathJoin path name = (if hasSuffix path [0x2F] then path else path ++ [0x2F]) ++ name := by
  obtain ⟨n0, ns, hns, rfl⟩ := isRel_shape name hn
  obtain ⟨psegs, trail, hps, ht, hroot, rfl⟩ := isPath_shape path hp
  have hnplain : ∀ s ∈ n0 :: ns, PlainSegment s := by
    intro s hs
    apply plain_of_segment s _ (hns s hs) hdn
    have := mem_segmentsOf_chain ns [] (Or.inl rfl) n0
      (fun s hs => isSegment_no_slash s (hns s hs)) s hs
    simpa using this
  have hpplain : ∀ s ∈ psegs, PlainSegment s := by
    intro s hs
    apply plain_of_segment s _ (hps s hs) hdp
    have := mem_segmentsOf_chain psegs trail ht []
      (fun s hs => by
        rcases List.mem_cons.mp hs with rfl | hs
        · simp
        · exact isSegment_no_slash s (hps s hs)) s (List.mem_cons_of_mem _ hs)
    simpa using this
  have hname := spelled_chain ns n0 hnplain
  rcases psegs with _ | ⟨p, ps⟩
  · have htr := hroot rfl
    subst htr
    have hj := pathJoin_spelled [0x2F] (n0 ++ ns.flatMap (fun s => 0x2F :: s))
      (0x2F :: (n0 ++ ns.flatMap (fun s => 0x2F :: s))) (n0 :: ns) (by simp) (by simp) (by simp)
      (Spelled.slash _ _ hname)
    simp only [List.flatMap_nil, List.nil_append] at hj ⊢
    rw [hj]
    have : hasSuffix [0x2F] [0x2F] = true := by decide
    rw [if_pos this]
    simp
  · have hsfx := hasSuffix_slash_flatMap p ps
      (fun s hs => ⟨(hps s hs).1, isSegment_no_slash s (hps s hs)⟩)
    rcases ht with rfl | rfl
    · have hsp := spelled_append _ _ hname ps p hpplain
      have hj := pathJoin_spelled ((p :: ps).flatMap (fun s => 0x2F :: s) ++ [])
        (n0 ++ ns.flatMap (fun s => 0x2F :: s)) _ _ (by simp) (by simp) (by simp) hsp
      rw [hj]
      simp only [List.append_nil] at hsfx ⊢
      rw [hsfx]
      simp [List.flatMap_append]
    · have hsp := spelled_append _ _ (Spelled.slash _ _ hname) ps p hpplain
      have hj := pathJoin_spelled ((p :: ps).flatMap (fun s => 0x2F :: s) ++ [0x2F])
        (n0 ++ ns.flatMap (fun s => 0x2F :: s)) _ _ (by simp) (by simp) (by simp) hsp
      rw [hj]
      have : hasSuffix ((p :: ps).flatMap (fun s => 0x2F :: s) ++ [0x2F]) [0x2F] = true := by
        unfold hasSuffix
        rw [ List.isSuffixOf_iff_suffix]
        exact ⟨_, rfl⟩
      rw [if_pos this]
      simp [List.flatMap_append]

theorem rel_of_prefixed (path name : GoString) (hpath : path ≠ [])
    (hp : hasPrefix path [0x2F] = true) :
    rel ((if hasSuffix path [0x2F] then path else path ++ [0x2F]) ++ name) path = .ok name := by
  have habs : abs ((if hasSuffix path [0x2F] then path else path ++ [0x2F]) ++ name) =
      (if hasSuffix path [0x2F] then path else path ++ [0x2F]) ++ name := by
    unfold abs
    rw [if_pos]
    rcases path with _ | ⟨c, rest⟩
    · exact absurd rfl hpath
    · have hc : c = 0x2F := by
        unfold hasPrefix at hp
        have : 0x2F = c := by simpa [List.isPrefixOf] using hp
        exact this.symm
      subst hc
      split <;> simp [hasPrefix, List.isPrefixOf]
  unfold rel
  simp only [habs, if_neg hpath]
  cases hs : hasSuffix path [0x2F]
  · simp [hasPrefix]
  · simp [hasPrefix]

theorem join_ok_inv (path name j : GoString) (hpath : path ≠ [])
    (hj : join path name = .ok j) :
    isPath path = true ∧ isRel name = true ∧ j = pathJoin path name := by
  unfold join at hj
  rw [if_pos hpath] at hj
  cases hp : isPath path
  · rw [validatePath_of_not_isPath path hp] at hj
    cases hj
  · rw [validatePath_of_isPath path hp] at hj
    simp only at hj
    cases hrel : isRel name
    · simp [hrel] at hj
    · simp only [hrel, Bool.not_true, Bool.false_eq_true, if_false] at hj
      cases hn : isName (pathJoin path name)
      · rw [validateName_of_not_isName _ hn] at hj
        cases hj
      · rw [validateName_of_isName _ hn] at hj
        simp only [Except.ok.injEq] at hj
        exact ⟨rfl, rfl, hj.symm⟩

theorem isPath_rooted (path : GoString) (h : isPath path = true) :
    hasPrefix path [0x2F] = true := by
  obtain ⟨psegs, trail, _, _, hroot, rfl⟩ := isPath_shape path h
  rcases psegs with _ | ⟨p, ps⟩
  · rw [hroot rfl]
    decide
  · simp [hasPrefix, List.isPrefixOf]

/-- C20 (as stated, refuted): under the path `/a/b` the relative name `../c`
is accepted by `join`, which returns `/a/c`, a name that does not lie under
`/a/b`; `rel` of that name against `/a/b` fails with `ErrPathMismatch`, and
`parameter` builds the entry `/a/c` from the expression `../c=v`.  With the
name `./x` the join lies under the path but `rel` returns `x`, not `./x`. -/
theorem join_dot_segments_not_recovered :
    join (bytes "/a/b") (bytes "../c") = .ok (bytes "/a/c") ∧
    hasPrefix (bytes "/a/c") (bytes "/a/b/") = false ∧
    rel (bytes "/a/c") (bytes "/a/b") = .error (.ErrPathMismatch (bytes "/a/b") (bytes "/a/c")) ∧
    (expression.mk (bytes "../c") (bytes "v") false).parameter (bytes "/a/b") =
      .ok ⟨bytes "/a/c", ParameterTypeString, bytes "v"⟩ ∧
    join (bytes "/a/b") (bytes "./x") = .ok (bytes "/a/b/x") ∧
    rel (bytes "/a/b/x") (bytes "/a/b") = .ok (bytes "x") := by
  decide

/-- C20 (amended): for every non-empty path and every name, neither of which
has a segment `.` or `..`, for which `join` succeeds, the joined name is the
path, with a slash added when it does not end in one, followed by the name;
it lies under the path, and `rel` of the joined name against the path
succeeds and returns exactly the name. -/
theorem rel_join_recovers (path name j : GoString) (hpath : path ≠ [])
    (hj : join path name = .ok j) (hdp : hasDotSegment path = false)
    (hdn : hasDotSegment name = false) :
    j = (if hasSuffix path [0x2F] then path else path ++ [0x2F]) ++ name ∧
      hasPrefix j (if hasSuffix path [0x2F] then path else path ++ [0x2F]) = true ∧
      rel j path = .ok name := by
  obtain ⟨hp, hn, rfl⟩ := join_ok_inv path name j hpath hj
  have hjoin := pathJoin_plain path name hp hn hdp hdn
  refine ⟨hjoin, ?_, ?_⟩
  · rw [hjoin]
    simp [hasPrefix]
  · rw [hjoin]
    exact rel_of_prefixed path name hpath (isPath_rooted path hp)

theorem rel_join_recovers_witness :
    join (bytes "/a/b") (bytes "c/d") = .ok (bytes "/a/b/c/d") ∧
    (bytes "/a/b/c/d" =
        (if hasSuffix (bytes "/a/b") [0x2F] then bytes "/a/b" else bytes "/a/b" ++ [0x2F]) ++
          bytes "c/d" ∧
      hasPrefix (bytes "/a/b/c/d")
        (if hasSuffix (bytes "/a/b") [0x2F] then bytes "/a/b" else bytes "/a/b" ++ [0x2F]) = true ∧
      rel (bytes "/a/b/c/d") (bytes "/a/b") = .ok (bytes "c/d")) :=
  ⟨by decide, rel_join_recovers (bytes "/a/b") (bytes "c/d") (bytes "/a/b/c/d") (by decide)
    (by decide) (by decide) (by decide)⟩

end Ssmenv
